import Mathlib

/-!
A shallow embedding of the HNSW graph implementation in `graph.go` of
`hypermodeinc/hnsw`, together with proofs about the embedded operations.

Modelling conventions:
* `float32`/`float64` vector entries and distances are modelled as rationals
  (every representable float value is rational); the level-generation math
  (`math.Log`, `math.Round`, `rand.Float64`) is modelled over the reals.
* Go pointers to `layerNode` values are modelled arena-style: an id is an
  index into `GState.arena`, layer maps and neighbor maps store ids, and
  mutation through a pointer becomes an update of the arena slot.
* Go maps are modelled as association lists; iteration order of a Go map is
  unspecified, the model fixes one admissible order (list order).
* Loops whose termination Go does not bound structurally (`search`, the
  `addNeighbor`/`replenish` recursion) take a fuel parameter; exhausting
  fuel yields the model-only error `Err.fuel`, which is propagated even at
  call sites where the source discards errors, so a run that reports no
  error coincides with a terminating run of the source.
-/

set_option linter.unusedSectionVars false

namespace Hnsw

/-- Error kinds of the embedded operations. `fuel` is a model artefact
(see the module docstring); all other constructors correspond to failure
paths of the source code. `distFail` stands for an arbitrary error value
returned by a pluggable distance function. -/
inductive Err where
  | fuel
  | nilNode
  | mlZero
  | emptyNbhd
  | postFail
  | lenMismatch
  | dimension
  | scanEmpty
  | distFail (code : ℕ)
deriving DecidableEq, Repr

/-- Vectors (`[]float32` in the source) modelled as lists of rationals. -/
abbrev Vec : Type := List ℚ

/-- A pluggable distance function (`DistanceFunc` in the source): it may
fail, and returns a scalar where smaller means closer. -/
abbrev DistF : Type := Vec → Vec → Except Err ℚ

/-- One `layerNode` of the source: its key, vector and neighbor map
(`neighbors` maps neighbor keys to node pointers, here arena ids). -/
structure NodeRec (K : Type) where
  key : K
  value : Vec
  nbrs : List (K × ℕ)
deriving DecidableEq, Repr

/-- The mutable heap of the model: an arena of `layerNode` records plus the
layer stack (`Graph.layers`), each layer a key-to-id map. Index 0 is the
base layer. -/
structure GState (K : Type) where
  arena : List (NodeRec K)
  layers : List (List (K × ℕ))
deriving DecidableEq, Repr

variable {K : Type} [LinearOrder K] [Inhabited K]

/-- Lookup in an association-list map (Go `m[k]`). -/
def lookupA [DecidableEq K] : List (K × ℕ) → K → Option ℕ
  | [], _ => none
  | (k₀, v₀) :: rest, k => if k₀ = k then some v₀ else lookupA rest k

/-- Insert-or-replace in an association-list map (Go `m[k] = v`). -/
def insertA [DecidableEq K] : List (K × ℕ) → K → ℕ → List (K × ℕ)
  | [], k, v => [(k, v)]
  | (k₀, v₀) :: rest, k, v =>
      if k₀ = k then (k, v) :: rest else (k₀, v₀) :: insertA rest k v

/-- Delete from an association-list map (Go `delete(m, k)`). -/
def eraseA [DecidableEq K] : List (K × ℕ) → K → List (K × ℕ)
  | [], _ => []
  | (k₀, v₀) :: rest, k =>
      if k₀ = k then eraseA rest k else (k₀, v₀) :: eraseA rest k

/-- Dereference an arena id (a Go pointer). Out-of-range ids, which never
occur in runs of the model, yield a junk record. -/
def getRec (s : GState K) (i : ℕ) : NodeRec K :=
  s.arena.getD i ⟨default, [], []⟩

/-- Update the neighbor map of the node behind id `i` in place. -/
def modifyNbrs (s : GState K) (i : ℕ) (f : List (K × ℕ) → List (K × ℕ)) :
    GState K :=
  { s with arena := s.arena.set i { getRec s i with nbrs := f (getRec s i).nbrs } }

/-- Allocate a fresh node record (Go `&layerNode{...}`), returning the new
state and the id of the fresh node. -/
def pushNode (s : GState K) (r : NodeRec K) : GState K × ℕ :=
  ({ s with arena := s.arena ++ [r] }, s.arena.length)

/-- Replace the map of layer `i`. -/
def setLayer (s : GState K) (i : ℕ) (l : List (K × ℕ)) : GState K :=
  { s with layers := s.layers.set i l }

/-- Size of the base layer; `(*Graph).Len` in the source returns this, or 0
when no layer exists. -/
def baseSize (s : GState K) : ℕ :=
  (s.layers.getD 0 []).length

/-- The scan of `addNeighbor` that finds the neighbor with the worst
(greatest) distance to the receiver, threading the Go accumulator
`(worstDist, worst)`: the sentinel is `none`, and a candidate replaces the
accumulator iff its distance is strictly greater or the accumulator is
still the sentinel. Distance errors abort the scan. -/
def findWorst (d : DistF) (s : GState K) (center : Vec) :
    List (K × ℕ) → Option (K × ℕ × ℚ) → Except Err (Option (K × ℕ × ℚ))
  | [], acc => .ok acc
  | (k, j) :: rest, acc =>
      match d (getRec s j).value center with
      | .error e => .error e
      | .ok q =>
        match acc with
        | none => findWorst d s center rest (some (k, j, q))
        | some (wk, wj, wq) =>
            if q > wq then findWorst d s center rest (some (k, j, q))
            else findWorst d s center rest (some (wk, wj, wq))

/-- The mutually recursive cluster `addNeighbor`/`replenish` of the source,
presented as a single fuelled interpreter. `replOut`/`replIn` are the outer
and inner loops of `replenish` over a snapshot of the iterated map. -/
inductive Act (K : Type) where
  | addNbr (nId tId m : ℕ) (d : DistF)
  | replen (nId m : ℕ)
  | replOut (nId m : ℕ) (outer : List (K × ℕ))
  | replIn (nId m : ℕ) (inner : List (K × ℕ))

/-- Run one `Act`. `addNbr nId tId m d` is `n.addNeighbor(target, m, d)`:
insert the target into the receiver's neighbor map; if the map now exceeds
`m` entries, evict the worst-distance neighbor, delete the backlink from it
and replenish it. `replen nId m` is `n.replenish(m)`: if the receiver has
fewer than `m` neighbors, walk two-hop candidates, adding each via
`addNeighbor` with the cosine distance `cos`, stopping at `m` neighbors;
errors of those `addNeighbor` calls are discarded by the source, so the
model discards them too (except the model-only fuel error). -/
def execAct (cos : DistF) : ℕ → Act K → GState K → GState K × Option Err
  | 0, _, s => (s, some .fuel)
  | f + 1, .addNbr nId tId m d, s =>
      let s₁ := modifyNbrs s nId (fun l => insertA l (getRec s tId).key tId)
      if (getRec s₁ nId).nbrs.length ≤ m then (s₁, none)
      else
        match findWorst d s₁ (getRec s₁ nId).value (getRec s₁ nId).nbrs none with
        | .error e => (s₁, some e)
        | .ok none => (s₁, some .scanEmpty)
        | .ok (some (wk, wj, _)) =>
            let s₂ := modifyNbrs s₁ nId (fun l => eraseA l wk)
            let s₃ := modifyNbrs s₂ wj (fun l => eraseA l (getRec s₂ nId).key)
            execAct cos f (.replen wj m) s₃
  | f + 1, .replen nId m, s =>
      if m ≤ (getRec s nId).nbrs.length then (s, none)
      else execAct cos f (.replOut nId m (getRec s nId).nbrs) s
  | f + 1, .replOut nId m outer, s =>
      match outer with
      | [] => (s, none)
      | (_, j) :: rest =>
          match execAct cos f (.replIn nId m (getRec s j).nbrs) s with
          | (s₁, some e) => (s₁, some e)
          | (s₁, none) =>
              if m ≤ (getRec s₁ nId).nbrs.length then (s₁, none)
              else execAct cos f (.replOut nId m rest) s₁
  | f + 1, .replIn nId m inner, s =>
      match inner with
      | [] => (s, none)
      | (k₂, j₂) :: rest =>
          if (lookupA (getRec s nId).nbrs k₂).isSome then
            execAct cos f (.replIn nId m rest) s
          else if j₂ = nId then
            execAct cos f (.replIn nId m rest) s
          else
            match execAct cos f (.addNbr nId j₂ m cos) s with
            | (s₁, some .fuel) => (s₁, some .fuel)
            | (s₁, _) =>
                if m ≤ (getRec s₁ nId).nbrs.length then (s₁, none)
                else execAct cos f (.replIn nId m rest) s₁

/-- `n.addNeighbor(target, m, d)` of the source. -/
def addNeighborF (cos : DistF) (f : ℕ) (s : GState K) (nId tId m : ℕ)
    (d : DistF) : GState K × Option Err :=
  execAct cos f (.addNbr nId tId m d) s

/-- `n.replenish(m)` of the source. -/
def replenishF (cos : DistF) (f : ℕ) (s : GState K) (nId m : ℕ) :
    GState K × Option Err :=
  execAct cos f (.replen nId m) s

/-- One step of `isolate`: for each (snapshot) neighbor, remove the
receiver's key from that neighbor's map and replenish it. -/
def isoLoop (cos : DistF) (f : ℕ) (nKey : K) (m : ℕ) :
    List (K × ℕ) → GState K → GState K × Option Err
  | [], s => (s, none)
  | (_, j) :: rest, s =>
      let s₁ := modifyNbrs s j (fun l => eraseA l nKey)
      match execAct cos f (.replen j m) s₁ with
      | (s₂, some e) => (s₂, some e)
      | (s₂, none) => isoLoop cos f nKey m rest s₂

/-- `n.isolate(m)` of the source: detach the node from every neighbor and
replenish each former neighbor. The receiver's own map is not touched. -/
def isolateF (cos : DistF) (f : ℕ) (s : GState K) (nId m : ℕ) :
    GState K × Option Err :=
  isoLoop cos f (getRec s nId).key m (getRec s nId).nbrs s

/-- Insert a key into a sorted key list (ascending). -/
def insKey (x : K) : List K → List K
  | [] => [x]
  | y :: ys => if x ≤ y then x :: y :: ys else y :: insKey x ys

/-- Sort a list of keys ascending (`slices.Sort(neighborKeys)` in `search`). -/
def sortKeys : List K → List K
  | [] => []
  | x :: xs => insKey x (sortKeys xs)

/-- Modelled from the spec: the bounded dual-ended priority heap of the
`heap` package (not under `src/`), §4.2 of the spec. The heap is modelled
as a list of `(node id, distance)` pairs sorted by distance ascending:
`Min` is the head, `Max` the last element, `Push` is this sorted insert
(after equal distances), `Pop` drops the head, `PopLast` drops the last
element, and `Slice` returns the list, whose first element is the minimum
exactly as for the Go heap's backing array. -/
def insD (x : ℕ × ℚ) : List (ℕ × ℚ) → List (ℕ × ℚ)
  | [] => [x]
  | y :: ys => if x.2 < y.2 then x :: y :: ys else y :: insD x ys

/-- The inner loop of `search` over the (ascending-key-sorted) neighbors
of the current frontier node: skip visited neighbors, compute the distance
(errors abort the search), track `improved`, push into the k-best result
heap (evicting its max when full) and into the frontier (capped at
`efSearch`). Returns the updated result heap, frontier, visited set and
`improved` flag. -/
def nbFold (s : GState K) (d : DistF) (target : Vec) (k ef : ℕ)
    (curNbrs : List (K × ℕ)) :
    List K → List (ℕ × ℚ) → List (ℕ × ℚ) → List K → Bool →
    Except Err (List (ℕ × ℚ) × List (ℕ × ℚ) × List K × Bool)
  | [], res, cands, vis, improved => .ok (res, cands, vis, improved)
  | nk :: rest, res, cands, vis, improved =>
      match lookupA curNbrs nk with
      | none => nbFold s d target k ef curNbrs rest res cands vis improved
      | some j =>
        if nk ∈ vis then nbFold s d target k ef curNbrs rest res cands vis improved
        else
          match d (getRec s j).value target with
          | .error e => .error e
          | .ok q =>
            let improved' := improved || decide (q < (res.headD (0, 0)).2)
            let res' :=
              if res.length < k then insD (j, q) res
              else if q < (res.getLastD (0, 0)).2 then insD (j, q) res.dropLast
              else res
            let cands₀ := insD (j, q) cands
            let cands' := if ef < cands₀.length then cands₀.dropLast else cands₀
            nbFold s d target k ef curNbrs rest res' cands' (nk :: vis) improved'

/-- The frontier loop of `search`: pop the closest frontier node, fold over
its neighbors in ascending key order, and stop when no neighbor improved on
the result minimum and the result already holds at least `k` entries, or
when the frontier is exhausted. -/
def searchLoop (s : GState K) (d : DistF) (target : Vec) (k ef : ℕ) :
    ℕ → List (ℕ × ℚ) → List (ℕ × ℚ) → List K → Except Err (List (ℕ × ℚ))
  | 0, _, _, _ => .error .fuel
  | f + 1, cands, res, vis =>
      match cands with
      | [] => .ok res
      | (cur, _) :: crest =>
          match nbFold s d target k ef (getRec s cur).nbrs
              (sortKeys ((getRec s cur).nbrs.map Prod.fst)) res crest vis false with
          | .error e => .error e
          | .ok (res', cands', vis', improved) =>
              if improved = false ∧ k ≤ res'.length then .ok res'
              else searchLoop s d target k ef f cands' res' vis'

/-- `n.search(k, efSearch, target, distance)` of the source: greedy best-first
traversal of one layer starting at node `startO` (`none` models a nil
receiver). Returns the result heap contents, closest first. -/
def searchF (f : ℕ) (s : GState K) (startO : Option ℕ) (k ef : ℕ)
    (target : Vec) (d : DistF) : Except Err (List (ℕ × ℚ)) :=
  match startO with
  | none => .error .nilNode
  | some n0 =>
      match d (getRec s n0).value target with
      | .error e => .error e
      | .ok q0 =>
          searchLoop s d target k ef f [(n0, q0)] [(n0, q0)] [(getRec s n0).key]

/-- The edge-installation loop of `Add`: for every member of the found
neighborhood, create a bidirectional edge between it and the new node via
two `addNeighbor` calls. The source discards the errors of both calls; the
model discards them too, except the model-only fuel error. -/
def edgesLoop (cos : DistF) (f : ℕ) (d : DistF) (m newId : ℕ) :
    List (ℕ × ℚ) → GState K → GState K × Option Err
  | [], s => (s, none)
  | (mid, _) :: rest, s =>
      match execAct cos f (.addNbr mid newId m d) s with
      | (s₁, some .fuel) => (s₁, some .fuel)
      | (s₁, _) =>
          match execAct cos f (.addNbr newId mid m d) s₁ with
          | (s₂, some .fuel) => (s₂, some .fuel)
          | (s₂, _) => edgesLoop cos f d m newId rest s₂

/-- The update sub-step of `Add` at one layer: if a node with this key
already exists on the layer, remove it from the layer's map and isolate it;
the returned flag reports whether this happened (`wasUpdated`). -/
def updStep (cos : DistF) (f m i : ℕ) (kk : K) (s : GState K) :
    GState K × Bool × Option Err :=
  let L := s.layers.getD i []
  match lookupA L kk with
  | none => (s, false, none)
  | some oldId =>
      let s₁ := setLayer s i (eraseA L kk)
      match isolateF cos f s₁ oldId m with
      | (s₂, e) => (s₂, true, e)

/-- The per-layer loop of `Add`, processing layer indices from the top down.
At each layer: seed an empty layer with the new node alone; otherwise search
from the entry node (or from the elevator key's node), remember the nearest
member as the next elevator, and—at layers at or below the insert level—
run the update sub-step, install the new node in the layer's map, and
install bidirectional edges to the whole neighborhood. -/
def layerLoop (cos : DistF) (f : ℕ) (d : DistF) (m ef : ℕ) (k : K) (v : Vec)
    (lvl : ℕ) :
    List ℕ → Option K → Bool → GState K → GState K × Bool × Option Err
  | [], _, wu, s => (s, wu, none)
  | i :: rest, elev, wu, s =>
      let L := s.layers.getD i []
      if L.isEmpty then
        let p := pushNode s ⟨k, v, []⟩
        layerLoop cos f d m ef k v lvl rest elev wu (setLayer p.1 i [(k, p.2)])
      else
        let spO : Option ℕ :=
          match elev with
          | none => L.head?.map Prod.snd
          | some ek => lookupA L ek
        match searchF f s spO m ef v d with
        | .error e => (s, wu, some e)
        | .ok [] => (s, wu, some .emptyNbhd)
        | .ok ((bid, q) :: nrest) =>
            let elev' := some (getRec s bid).key
            if i ≤ lvl then
              match updStep cos f m i k s with
              | (s₂, wuHere, some e) => (s₂, wu || wuHere, some e)
              | (s₂, wuHere, none) =>
                  let wu' := wu || wuHere
                  let p := pushNode s₂ ⟨k, v, []⟩
                  let s₃ := setLayer p.1 i (insertA (p.1.layers.getD i []) k p.2)
                  match edgesLoop cos f d m p.2 ((bid, q) :: nrest) s₃ with
                  | (s₄, some e) => (s₄, wu', some e)
                  | (s₄, none) => layerLoop cos f d m ef k v lvl rest elev' wu' s₄
            else layerLoop cos f d m ef k v lvl rest elev' wu s

/-- The configuration of a graph: neighbor cap `M`, construction frontier
size `EfConstruction`, the pluggable distance function, and the cosine
distance used unconditionally by `replenish`. The level-generation factor
`Ml` is a real and is carried separately (see `StepR`) so that this part of
the configuration stays executable. The `cos` field is modelled from the
spec: `CosineDistance` itself (`1 − a·b/(‖a‖·‖b‖)`, §4.4) is not part of
`src/`, so it stays an uninterpreted parameter of the model. -/
structure Config (K : Type) where
  M : ℕ
  efConstruction : ℕ
  dist : DistF
  cos : DistF

/-- Extend the layer stack with empty layers until `len(layers) > lvl`. -/
def extendLayers (s : GState K) (lvl : ℕ) : GState K :=
  { s with layers := s.layers ++ List.replicate (lvl + 1 - s.layers.length) [] }

/-- The per-node body of `(*Graph).Add`, with the level already drawn by
`randomLevel`. Note the source computes `g.assertDims(vec)` here but
discards its result, so the model does not consult it. After the per-layer
loop the `Len` post-condition is checked and its violation reported as a
hard error. -/
def addNodeF (cfg : Config K) (f : ℕ) (s : GState K) (k : K) (v : Vec)
    (lvl : ℕ) : GState K × Option Err :=
  let s₁ := extendLayers s lvl
  let preLen := baseSize s₁
  match layerLoop cfg.cos f cfg.dist cfg.M cfg.efConstruction k v lvl
      (List.range s₁.layers.length).reverse none false s₁ with
  | (s₂, _, some e) => (s₂, some e)
  | (s₂, wu, none) =>
      if wu then
        if baseSize s₂ = preLen then (s₂, none) else (s₂, some .postFail)
      else
        if baseSize s₂ = preLen + 1 then (s₂, none) else (s₂, some .postFail)

/-- The layer loop of `DeleteWithLock`: for each layer holding the key,
remove it from the layer's map and isolate the detached node. -/
def delLoop (cos : DistF) (f m : ℕ) (k : K) :
    List ℕ → Bool → GState K → GState K × Bool × Option Err
  | [], deleted, s => (s, deleted, none)
  | i :: rest, deleted, s =>
      let L := s.layers.getD i []
      match lookupA L k with
      | none => delLoop cos f m k rest deleted s
      | some nid =>
          let s₁ := setLayer s i (eraseA L k)
          match isolateF cos f s₁ nid m with
          | (s₂, some e) => (s₂, deleted, some e)
          | (s₂, none) => delLoop cos f m k rest true s₂

/-- `(*Graph).DeleteWithLock` of the source (`Delete` only wraps it in the
write lock): returns the final state, whether any layer contained the key,
and the (model-only) error. -/
def deleteF (cfg : Config K) (f : ℕ) (s : GState K) (k : K) :
    GState K × Bool × Option Err :=
  if s.layers.length = 0 then (s, false, none)
  else delLoop cfg.cos f cfg.M k (List.range s.layers.length) false s

/-- `(*Graph).Dims`: the vector length at the base layer's entry node, or 0
when the graph is empty. -/
def DimsM (s : GState K) : ℕ :=
  match s.layers.getD 0 [] with
  | [] => 0
  | p :: _ => (getRec s p.2).value.length

/-- `(*Graph).assertDims`: succeeds on an empty layer stack, otherwise
fails iff the vector length differs from `Dims()`. -/
def assertDimsM (s : GState K) (v : Vec) : Option Err :=
  if s.layers.length = 0 then none
  else if DimsM s ≠ v.length then some .dimension else none

/-- `(*Graph).Len`: the size of the base layer. -/
def LenM (s : GState K) : ℕ := baseSize s

/-- `(*Graph).Lookup`: consult the base layer only. -/
def LookupM (s : GState K) (k : K) : Option Vec :=
  if s.layers.length = 0 then none
  else (lookupA (s.layers.getD 0 []) k).map (fun i => (getRec s i).value)

/-- `MakeNode` of the source: pair the key with the vector. -/
def MakeNodeM (k : K) (v : Vec) : K × Vec := (k, v)

/-- `MakeNodes` of the source: fail when the key and vector slices have
different lengths, otherwise build the node list pointwise. -/
def MakeNodesM (keys : List K) (vecs : List Vec) : Except Err (List (K × Vec)) :=
  if keys.length ≠ vecs.length then .error .lenMismatch
  else .ok (List.zipWith MakeNodeM keys vecs)

/-- `maxLevel` of the source over the reals: fail on `ml = 0`, return 1 for
an empty base layer, otherwise `round(log(numNodes)/log(1/ml)) + 1`. -/
noncomputable def maxLevelM (ml : ℝ) (numNodes : ℕ) : Except Err ℤ :=
  if ml = 0 then .error .mlZero
  else if numNodes = 0 then .ok 1
  else .ok (round (Real.log numNodes / Real.log (1 / ml)) + 1)

/-- The level loop of `randomLevel`: return the first level whose draw
exceeds `ml`, else the ceiling `mx`. -/
noncomputable def levelLoopM (ml : ℝ) (draws : ℕ → ℝ) : List ℕ → ℤ → ℤ
  | [], mx => mx
  | l :: rest, mx => if ml < draws l then (l : ℤ) else levelLoopM ml draws rest mx

/-- `(*Graph).randomLevel` of the source. `numLayers` is `len(h.layers)`,
`baseSz` is `h.layers[0].size()`, and `draws` models the successive values
of `h.Rng.Float64()` (modelled from the spec, §4.5.2: the random source is
external; each draw lies in `[0,1)`). With an empty layer stack the ceiling
is 1 and `Ml` is not checked; otherwise `Ml = 0` is an error and the
ceiling comes from `maxLevel`. -/
noncomputable def randomLevelM (numLayers baseSz : ℕ) (ml : ℝ)
    (draws : ℕ → ℝ) : Except Err ℤ :=
  if numLayers = 0 then .ok (levelLoopM ml draws (List.range 1) 1)
  else if ml = 0 then .error .mlZero
  else
    match maxLevelM ml baseSz with
    | .error e => .error e
    | .ok mx => .ok (levelLoopM ml draws (List.range mx.toNat) mx)

/-- A level is producible by `randomLevel` on a graph with the given layer
count and base size: some sequence of draws in `[0,1)` yields it. -/
def canLevel (numLayers baseSz : ℕ) (ml : ℝ) (lvl : ℕ) : Prop :=
  ∃ draws : ℕ → ℝ, (∀ n, 0 ≤ draws n ∧ draws n < 1) ∧
    randomLevelM numLayers baseSz ml draws = .ok (lvl : ℤ)

/-- The empty graph (`NewGraph` before any insert). -/
def initState : GState K := ⟨[], []⟩

/-- One completed public mutating operation, for a graph configured with
`cfg` and level-generation factor `ml`. A variadic `Add` is the sequential
composition of its per-node bodies under one lock, so states reachable
through batches coincide with states reachable through these single-node
steps. -/
inductive StepR (cfg : Config K) (ml : ℝ) : GState K → GState K → Prop
  | add (k : K) (v : Vec) (lvl f : ℕ) (s s' : GState K) :
      canLevel s.layers.length (baseSize s) ml lvl →
      addNodeF cfg f s k v lvl = (s', none) →
      StepR cfg ml s s'
  | del (k : K) (f : ℕ) (b : Bool) (s s' : GState K) :
      deleteF cfg f s k = (s', b, none) →
      StepR cfg ml s s'

/-- Graph states reachable from the empty graph by completed public
operations. -/
def Reachable (cfg : Config K) (ml : ℝ) (s : GState K) : Prop :=
  Relation.ReflTransGen (StepR cfg ml) initState s

/-- A sequence of completed single-node `Add` operations, recording the
inserted keys. -/
inductive AddSeq (cfg : Config K) (ml : ℝ) : GState K → List K → GState K → Prop
  | nil (s : GState K) : AddSeq cfg ml s [] s
  | cons (k : K) (v : Vec) (lvl f : ℕ) (s s₁ s₂ : GState K) (ks : List K) :
      canLevel s.layers.length (baseSize s) ml lvl →
      addNodeF cfg f s k v lvl = (s₁, none) →
      AddSeq cfg ml s₁ ks s₂ →
      AddSeq cfg ml s (k :: ks) s₂

deriving instance DecidableEq for Except

/-- Absolute value on integers, written out for kernel evaluation. -/
def iabs (i : ℤ) : ℤ := if i < 0 then -i else i

/-- A simple total distance function (an admissible `DistanceFunc`
configuration): the absolute difference of the numerators of the leading
coordinates. -/
def headDist : DistF := fun a b =>
  .ok ((iabs ((a.headD 0).num - (b.headD 0).num) : ℤ) : ℚ)

/-- An admissible `DistanceFunc` configuration that fails exactly on a pair
of a length-2 and a length-1 vector, and otherwise behaves like
`headDist`. -/
def failDist : DistF := fun a b =>
  if a.length = 2 ∧ b.length = 1 then .error (.distFail 7) else headDist a b

/-- A graph configuration with the default `M = 16`, `EfConstruction = 40`
and a total distance function. -/
def cfgTot : Config ℕ := ⟨16, 40, headDist, headDist⟩

/-- A graph configuration with `M = 1` whose distance function fails on one
specific pair of stored vectors. -/
def cfgFail : Config ℕ := ⟨1, 16, failDist, headDist⟩

/-- Split a pair equality into a second-component fact. -/
theorem pair_eq_of_snd {α β : Type} (x : α × β) (b : β) (h : x.2 = b) :
    x = (x.1, b) := by
  rw [← h]

/-- On the empty layer stack, level 0 is always producible for `Ml = 1/2`. -/
theorem canLevel_nil (b : ℕ) : canLevel 0 b (1 / 2) 0 := by
  refine ⟨fun _ => 3 / 4, fun n => by norm_num, ?_⟩
  have h1 : List.range 1 = [0] := rfl
  simp only [randomLevelM, if_pos rfl, h1, levelLoopM]
  norm_num

/-- The `maxLevel` ceiling for `Ml = 1/2` and one base node is 1. -/
theorem maxLevelM_half_one : maxLevelM (1 / 2) 1 = .ok 1 := by
  have hml : ((1 : ℝ) / 2) ≠ 0 := by norm_num
  simp only [maxLevelM, if_neg hml, if_neg (by norm_num : (1 : ℕ) ≠ 0)]
  norm_num [Real.log_one]

/-- The `maxLevel` ceiling for `Ml = 1/2` and two base nodes is 2. -/
theorem maxLevelM_half_two : maxLevelM (1 / 2) 2 = .ok 2 := by
  have hml : ((1 : ℝ) / 2) ≠ 0 := by norm_num
  have hlog : Real.log 2 ≠ 0 := ne_of_gt (Real.log_pos (by norm_num))
  have h2 : (1 : ℝ) / (1 / 2) = 2 := by norm_num
  simp only [maxLevelM, if_neg hml, if_neg (by norm_num : (2 : ℕ) ≠ 0)]
  rw [h2]
  norm_num [div_self hlog]

/-- On a one-layer graph with one base node, level 0 is producible for
`Ml = 1/2`. -/
theorem canLevel_one : canLevel 1 1 (1 / 2) 0 := by
  refine ⟨fun _ => 3 / 4, fun n => by norm_num, ?_⟩
  have hml : ((1 : ℝ) / 2) ≠ 0 := by norm_num
  have h1 : List.range (Int.toNat 1) = [0] := rfl
  simp only [randomLevelM, if_neg (by norm_num : (1 : ℕ) ≠ 0), if_neg hml,
    maxLevelM_half_one, h1, levelLoopM]
  norm_num

/-- On a one-layer graph with two base nodes, level 0 is producible for
`Ml = 1/2`. -/
theorem canLevel_two : canLevel 1 2 (1 / 2) 0 := by
  refine ⟨fun _ => 3 / 4, fun n => by norm_num, ?_⟩
  have hml : ((1 : ℝ) / 2) ≠ 0 := by norm_num
  have h2 : List.range (Int.toNat 2) = [0, 1] := rfl
  simp only [randomLevelM, if_neg (by norm_num : (1 : ℕ) ≠ 0), if_neg hml,
    maxLevelM_half_two, h2, levelLoopM]
  norm_num

/-- State after `Add(1, [5])` on the empty graph (config `cfgTot`). -/
def stA1 : GState ℕ := (addNodeF cfgTot 100 initState 1 [5] 0).1

/-- State after `Add(1, [5]); Add(1, [7])`: the second add replaces the
node with key 1 in place. -/
def stA2 : GState ℕ := (addNodeF cfgTot 100 stA1 1 [7] 0).1

/-- State after `Add(1, [1])` on the empty graph (config `cfgFail`). -/
def stB1 : GState ℕ := (addNodeF cfgFail 100 initState 1 [1] 0).1

/-- State after `Add(1, [1]); Add(2, [2,0])` (config `cfgFail`). -/
def stB2 : GState ℕ := (addNodeF cfgFail 100 stB1 2 [2, 0] 0).1

/-- State after `Add(1, [1]); Add(2, [2,0]); Add(3, [0,0,0])` (config
`cfgFail`): during the third add the eviction scan of `addNeighbor` on
node 1's layer node hits the failing distance pair, the error is
discarded, and the node keeps 2 neighbors although `M = 1`. -/
def stB3 : GState ℕ := (addNodeF cfgFail 100 stB2 3 [0, 0, 0] 0).1

/-- State after `Add(1, [1, 1, 1])` on the empty graph (config `cfgTot`). -/
def stC1 : GState ℕ := (addNodeF cfgTot 100 initState 1 [1, 1, 1] 0).1

/-- `stA1` is reachable. -/
theorem reach_stA1 : Reachable cfgTot (1 / 2) stA1 :=
  Relation.ReflTransGen.single
    (StepR.add 1 [5] 0 100 _ _ (canLevel_nil 0) (pair_eq_of_snd _ _ (by decide)))

/-- `stA2` is reachable. -/
theorem reach_stA2 : Reachable cfgTot (1 / 2) stA2 := by
  refine Relation.ReflTransGen.tail reach_stA1
    (StepR.add 1 [7] 0 100 _ _ ?_ (pair_eq_of_snd _ _ (by decide)))
  rw [(by decide : stA1.layers.length = 1), (by decide : baseSize stA1 = 1)]
  exact canLevel_one

/-- `stB2` is reachable. -/
theorem reach_stB2 : Reachable cfgFail (1 / 2) stB2 := by
  have h1 : StepR cfgFail (1 / 2) initState stB1 :=
    StepR.add 1 [1] 0 100 _ _ (canLevel_nil 0) (pair_eq_of_snd _ _ (by decide))
  refine Relation.ReflTransGen.tail (Relation.ReflTransGen.single h1)
    (StepR.add 2 [2, 0] 0 100 _ _ ?_ (pair_eq_of_snd _ _ (by decide)))
  rw [(by decide : stB1.layers.length = 1), (by decide : baseSize stB1 = 1)]
  exact canLevel_one

/-- `stB3` is reachable: the third add completes (returns no error). -/
theorem reach_stB3 : Reachable cfgFail (1 / 2) stB3 := by
  refine Relation.ReflTransGen.tail reach_stB2
    (StepR.add 3 [0, 0, 0] 0 100 _ _ ?_ (pair_eq_of_snd _ _ (by decide)))
  rw [(by decide : stB2.layers.length = 1), (by decide : baseSize stB2 = 2)]
  exact canLevel_two

/-- `stC1` is reachable. -/
theorem reach_stC1 : Reachable cfgTot (1 / 2) stC1 :=
  Relation.ReflTransGen.single
    (StepR.add 1 [1, 1, 1] 0 100 _ _ (canLevel_nil 0) (pair_eq_of_snd _ _ (by decide)))

/-- The bidirectionality invariant claimed by the spec: in every layer,
every neighbor-map entry of every node references a node that the layer's
map itself holds under that key, and the referenced node's own neighbor
map contains the first node's key. -/
def BidirProp (s : GState K) : Prop :=
  ∀ L ∈ s.layers, ∀ p ∈ L, ∀ q ∈ (getRec s p.2).nbrs,
    lookupA L q.1 = some q.2 ∧ (lookupA (getRec s q.2).nbrs p.1).isSome

instance decBidirProp (s : GState K) : Decidable (BidirProp s) :=
  inferInstanceAs (Decidable (∀ L ∈ s.layers, ∀ p ∈ L,
    ∀ q ∈ (getRec s p.2).nbrs,
      lookupA L q.1 = some q.2 ∧ (lookupA (getRec s q.2).nbrs p.1).isSome))

/-- C1, counterexample: the bidirectionality invariant does not hold for
every state reachable by completed `Add`/`Delete` operations. After
`Add(1, [5]); Add(1, [7])` (both completed), the base layer maps key 1 to
the replacement node, whose neighbor map still references the detached old
node under key 1 — a node that is not the one the layer's map holds under
that key. -/
theorem c1_bidirectionality_counterexample :
    Reachable cfgTot (1 / 2) stA2 ∧ ¬ BidirProp stA2 :=
  ⟨reach_stA2, by decide⟩

/-- C2, failing input: on the graph `{1 ↦ [1,1,1]}` (so `Dims() = 3`),
adding the node `(2, [1,1])` is a dimension mismatch — `assertDims`
computes the error — yet `Add` discards the result of `assertDims`
(`graph.go` line 378), completes without error, inserts the node, and
afterwards `Lookup(2)` returns `[1,1]`. The spec's step 1 of `Add`
("verify vector dimensionality") is not enforced by the code. -/
theorem c2_dimension_check_ignored :
    Reachable cfgTot (1 / 2) stC1 ∧
    DimsM stC1 = 3 ∧
    assertDimsM stC1 [1, 1] = some .dimension ∧
    (addNodeF cfgTot 100 stC1 2 [1, 1] 0).2 = none ∧
    LookupM (addNodeF cfgTot 100 stC1 2 [1, 1] 0).1 2 = some [1, 1] :=
  ⟨reach_stC1, by decide, by decide, by decide, by decide⟩

/-- C3, counterexample: a distance-function error during edge installation
does not propagate out of `Add`. In the reachable state `stB2` (two nodes,
`M = 1`), the completed `Add(3, [0,0,0])` runs `addNeighbor` on node id 0,
whose eviction scan (`findWorst` over its post-insert neighbor map, as
reproduced on the final state below) hits the failing distance pair and
returns an error; `Add` discards it (`graph.go` line 449) and returns no
error, leaving node id 0 with 2 > M neighbors. -/
theorem c3_distance_error_counterexample :
    Reachable cfgFail (1 / 2) stB2 ∧
    (addNodeF cfgFail 100 stB2 3 [0, 0, 0] 0).2 = none ∧
    findWorst cfgFail.dist stB3 (getRec stB3 0).value (getRec stB3 0).nbrs none
      = .error (.distFail 7) ∧
    cfgFail.M < (getRec stB3 0).nbrs.length :=
  ⟨reach_stB2, by decide, by decide, by decide⟩

/-- C4, counterexample: the `|neighbors| ≤ M` invariant does not hold for
every reachable state: in `stB3`, reachable by three completed `Add`
operations (the distance error raised during the third add's eviction scan
is discarded by `Add`), the base-layer node with key 1 has 2 neighbors
although `M = 1`. -/
theorem c4_degree_bound_counterexample :
    Reachable cfgFail (1 / 2) stB3 ∧
    lookupA (stB3.layers.getD 0 []) 1 = some 0 ∧
    cfgFail.M < (getRec stB3 0).nbrs.length :=
  ⟨reach_stB3, by decide, by decide⟩

theorem lookupA_eq_none {l : List (K × ℕ)} {k : K} :
    lookupA l k = none ↔ ∀ p ∈ l, p.1 ≠ k := by
  induction l with
  | nil => simp [lookupA]
  | cons p rest ih =>
      rcases p with ⟨k₀, v₀⟩
      by_cases h : k₀ = k <;> simp [lookupA, h, ih]

theorem mem_of_lookupA {l : List (K × ℕ)} {k : K} {v : ℕ}
    (h : lookupA l k = some v) : (k, v) ∈ l := by
  induction l with
  | nil => simp [lookupA] at h
  | cons p rest ih =>
      rcases p with ⟨k₀, v₀⟩
      by_cases hk : k₀ = k
      · simp [lookupA, hk] at h
        simp [hk, h]
      · simp [lookupA, hk] at h
        exact List.mem_cons_of_mem _ (ih h)

theorem lookupA_insertA_self (l : List (K × ℕ)) (k : K) (v : ℕ) :
    lookupA (insertA l k v) k = some v := by
  induction l with
  | nil => simp [insertA, lookupA]
  | cons p rest ih =>
      rcases p with ⟨k₀, v₀⟩
      by_cases h : k₀ = k <;> simp [insertA, lookupA, h, ih]

theorem lookupA_insertA_ne {l : List (K × ℕ)} {k k' : K} {v : ℕ}
    (h : k' ≠ k) : lookupA (insertA l k v) k' = lookupA l k' := by
  have h' : k ≠ k' := Ne.symm h
  induction l with
  | nil => simp [insertA, lookupA, h']
  | cons p rest ih =>
      rcases p with ⟨k₀, v₀⟩
      by_cases hk : k₀ = k
      · subst hk
        simp [insertA, lookupA, h']
      · simp [insertA, lookupA, hk, ih]

theorem insertA_of_lookupA_none {l : List (K × ℕ)} {k : K} (v : ℕ)
    (h : lookupA l k = none) : insertA l k v = l ++ [(k, v)] := by
  induction l with
  | nil => simp [insertA]
  | cons p rest ih =>
      rcases p with ⟨k₀, v₀⟩
      by_cases hk : k₀ = k
      · simp [lookupA, hk] at h
      · simp [lookupA, hk] at h
        simp [insertA, hk, ih h]

theorem length_insertA_le (l : List (K × ℕ)) (k : K) (v : ℕ) :
    (insertA l k v).length ≤ l.length + 1 := by
  induction l with
  | nil => simp [insertA]
  | cons p rest ih =>
      rcases p with ⟨k₀, v₀⟩
      by_cases h : k₀ = k <;> simp [insertA, h] <;> omega

theorem lookupA_eraseA_self (l : List (K × ℕ)) (k : K) :
    lookupA (eraseA l k) k = none := by
  induction l with
  | nil => simp [eraseA, lookupA]
  | cons p rest ih =>
      rcases p with ⟨k₀, v₀⟩
      by_cases h : k₀ = k <;> simp [eraseA, lookupA, h, ih]

theorem lookupA_eraseA_ne {l : List (K × ℕ)} {k k' : K} (h : k' ≠ k) :
    lookupA (eraseA l k) k' = lookupA l k' := by
  have h' : k ≠ k' := Ne.symm h
  induction l with
  | nil => simp [eraseA]
  | cons p rest ih =>
      rcases p with ⟨k₀, v₀⟩
      by_cases hk : k₀ = k
      · subst hk
        simp [eraseA, lookupA, h', ih]
      · simp [eraseA, lookupA, hk, ih]

theorem length_eraseA_le (l : List (K × ℕ)) (k : K) :
    (eraseA l k).length ≤ l.length := by
  induction l with
  | nil => simp [eraseA]
  | cons p rest ih =>
      rcases p with ⟨k₀, v₀⟩
      by_cases h : k₀ = k <;> simp [eraseA, h] <;> omega

theorem mem_eraseA {l : List (K × ℕ)} {k : K} {p : K × ℕ}
    (h : p ∈ eraseA l k) : p ∈ l ∧ p.1 ≠ k := by
  induction l with
  | nil => simp [eraseA] at h
  | cons q rest ih =>
      rcases q with ⟨k₀, v₀⟩
      by_cases hk : k₀ = k
      · simp [eraseA, hk] at h
        rcases ih h with ⟨h1, h2⟩
        exact ⟨List.mem_cons_of_mem _ h1, h2⟩
      · simp [eraseA, hk] at h
        rcases h with h | h
        · subst h
          exact ⟨List.mem_cons_self _ _, hk⟩
        · rcases ih h with ⟨h1, h2⟩
          exact ⟨List.mem_cons_of_mem _ h1, h2⟩

theorem eraseA_of_no_key {l : List (K × ℕ)} {k : K}
    (h : ∀ p ∈ l, p.1 ≠ k) : eraseA l k = l := by
  induction l with
  | nil => simp [eraseA]
  | cons q rest ih =>
      rcases q with ⟨k₀, v₀⟩
      have hk : k₀ ≠ k := h (k₀, v₀) (List.mem_cons_self _ _)
      simp [eraseA, hk, ih (fun p hp => h p (List.mem_cons_of_mem _ hp))]

theorem eraseA_of_nodup {l : List (K × ℕ)} {k : K} {v : ℕ}
    (hnd : (l.map Prod.fst).Nodup) (hm : (k, v) ∈ l) :
    (eraseA l k).length + 1 = l.length := by
  induction l with
  | nil => simp at hm
  | cons q rest ih =>
      rcases q with ⟨k₀, v₀⟩
      simp only [List.map_cons, List.nodup_cons] at hnd
      by_cases hk0 : k₀ = k
      · subst hk0
        have hrest : eraseA rest k₀ = rest := by
          refine eraseA_of_no_key (fun p hp hh => ?_)
          exact hnd.1 (List.mem_map.mpr ⟨p, hp, hh⟩)
        simp [eraseA, hrest]
      · have h : (k, v) ∈ rest := by
          rcases List.mem_cons.mp hm with h | h
          · exact absurd (congrArg Prod.fst h).symm hk0
          · exact h
        simp only [eraseA, if_neg hk0, List.length_cons]
        rw [← ih hnd.2 h]

theorem mem_insertA {l : List (K × ℕ)} {k : K} {v : ℕ} {p : K × ℕ}
    (h : p ∈ insertA l k v) : p = (k, v) ∨ p ∈ l := by
  induction l with
  | nil => simpa [insertA] using h
  | cons q rest ih =>
      rcases q with ⟨k₀, v₀⟩
      by_cases hk : k₀ = k
      · simp [insertA, hk] at h
        rcases h with h | h
        · exact Or.inl (by simp [h])
        · exact Or.inr (List.mem_cons_of_mem _ h)
      · simp only [insertA, if_neg hk, List.mem_cons] at h
        rcases h with h | h
        · exact Or.inr (by simp [h])
        · rcases ih h with h1 | h1
          · exact Or.inl h1
          · exact Or.inr (List.mem_cons_of_mem _ h1)

theorem nodup_keys_insertA {l : List (K × ℕ)} {k : K} (v : ℕ)
    (hnd : (l.map Prod.fst).Nodup) :
    ((insertA l k v).map Prod.fst).Nodup := by
  induction l with
  | nil => simp [insertA]
  | cons p rest ih =>
      rcases p with ⟨k₀, v₀⟩
      simp only [List.map_cons, List.nodup_cons] at hnd
      by_cases h : k₀ = k
      · subst h
        have hins : insertA ((k₀, v₀) :: rest) k₀ v = (k₀, v) :: rest := by
          simp [insertA]
        rw [hins]
        simp only [List.map_cons, List.nodup_cons]
        exact hnd
      · simp only [insertA, if_neg h, List.map_cons, List.nodup_cons]
        refine ⟨?_, ih hnd.2⟩
        intro hmem
        rcases List.mem_map.mp hmem with ⟨q, hq, hfst⟩
        rcases mem_insertA hq with h1 | h1
        · exact h (by rw [h1] at hfst; exact hfst.symm)
        · exact hnd.1 (hfst ▸ List.mem_map.mpr ⟨q, h1, rfl⟩)

theorem modifyNbrs_layers (s : GState K) (i : ℕ) (f : List (K × ℕ) → List (K × ℕ)) :
    (modifyNbrs s i f).layers = s.layers := rfl

theorem modifyNbrs_arena_length (s : GState K) (i : ℕ)
    (f : List (K × ℕ) → List (K × ℕ)) :
    (modifyNbrs s i f).arena.length = s.arena.length := by
  simp [modifyNbrs]

theorem getRec_modifyNbrs_ne {s : GState K} {i j : ℕ}
    {f : List (K × ℕ) → List (K × ℕ)} (h : j ≠ i) :
    getRec (modifyNbrs s i f) j = getRec s j := by
  simp [getRec, modifyNbrs, List.getD, List.getElem?_set_ne (Ne.symm h)]

theorem getRec_modifyNbrs_self {s : GState K} {i : ℕ}
    {f : List (K × ℕ) → List (K × ℕ)} (h : i < s.arena.length) :
    getRec (modifyNbrs s i f) i = { getRec s i with nbrs := f (getRec s i).nbrs } := by
  simp [getRec, modifyNbrs, List.getD, List.getElem?_set_self', h]

theorem getRec_modifyNbrs_oob {s : GState K} {i : ℕ}
    {f : List (K × ℕ) → List (K × ℕ)} (h : s.arena.length ≤ i) :
    modifyNbrs s i f = s := by
  simp [modifyNbrs, List.set_eq_of_length_le h]

theorem getRec_modifyNbrs_key (s : GState K) (i j : ℕ)
    (f : List (K × ℕ) → List (K × ℕ)) :
    (getRec (modifyNbrs s i f) j).key = (getRec s j).key ∧
    (getRec (modifyNbrs s i f) j).value = (getRec s j).value := by
  by_cases h : j = i
  · subst h
    by_cases h2 : j < s.arena.length
    · rw [getRec_modifyNbrs_self h2]
      exact ⟨rfl, rfl⟩
    · rw [getRec_modifyNbrs_oob (le_of_not_lt h2)]
      exact ⟨rfl, rfl⟩
  · rw [getRec_modifyNbrs_ne h]
    exact ⟨rfl, rfl⟩

theorem pushNode_layers (s : GState K) (r : NodeRec K) :
    (pushNode s r).1.layers = s.layers := rfl

theorem pushNode_arena_length (s : GState K) (r : NodeRec K) :
    (pushNode s r).1.arena.length = s.arena.length + 1 := by
  simp [pushNode]

theorem getRec_pushNode_lt {s : GState K} {r : NodeRec K} {i : ℕ}
    (h : i < s.arena.length) : getRec (pushNode s r).1 i = getRec s i := by
  simp [getRec, pushNode, List.getD, List.getElem?_append_left h]

theorem getRec_pushNode_self (s : GState K) (r : NodeRec K) :
    getRec (pushNode s r).1 (pushNode s r).2 = r := by
  simp [getRec, pushNode, List.getD, List.getElem?_append_right (le_refl _)]

theorem setLayer_arena (s : GState K) (i : ℕ) (l : List (K × ℕ)) :
    (setLayer s i l).arena = s.arena := rfl

theorem getRec_setLayer (s : GState K) (i : ℕ) (l : List (K × ℕ)) (j : ℕ) :
    getRec (setLayer s i l) j = getRec s j := rfl

theorem setLayer_layers_length (s : GState K) (i : ℕ) (l : List (K × ℕ)) :
    (setLayer s i l).layers.length = s.layers.length := by
  simp [setLayer]

theorem getD_setLayer_self {s : GState K} {i : ℕ} (l : List (K × ℕ))
    (h : i < s.layers.length) : (setLayer s i l).layers.getD i [] = l := by
  simp [setLayer, List.getD, List.getElem?_set_self', h]

theorem getD_setLayer_ne {s : GState K} {i j : ℕ} (l : List (K × ℕ))
    (h : j ≠ i) : (setLayer s i l).layers.getD j [] = s.layers.getD j [] := by
  simp [setLayer, List.getD, List.getElem?_set_ne (Ne.symm h)]

/-- State `s'` differs from `s` only in neighbor wiring: the layer stack,
the number of arena slots and every node's key and vector agree. -/
def Pres (s s' : GState K) : Prop :=
  s'.layers = s.layers ∧ s'.arena.length = s.arena.length ∧
  ∀ i, (getRec s' i).key = (getRec s i).key ∧
    (getRec s' i).value = (getRec s i).value

theorem Pres.refl (s : GState K) : Pres s s :=
  ⟨rfl, rfl, fun _ => ⟨rfl, rfl⟩⟩

theorem Pres.comp {s₁ s₂ s₃ : GState K} (h : Pres s₁ s₂) (g : Pres s₂ s₃) :
    Pres s₁ s₃ :=
  ⟨g.1.trans h.1, g.2.1.trans h.2.1, fun i =>
    ⟨(g.2.2 i).1.trans (h.2.2 i).1, (g.2.2 i).2.trans (h.2.2 i).2⟩⟩

theorem Pres.modify (s : GState K) (i : ℕ) (f : List (K × ℕ) → List (K × ℕ)) :
    Pres s (modifyNbrs s i f) :=
  ⟨rfl, modifyNbrs_arena_length .., fun j =>
    ⟨(getRec_modifyNbrs_key s i j f).1, (getRec_modifyNbrs_key s i j f).2⟩⟩

/-- The `addNeighbor`/`replenish` interpreter never touches the layer
stack, never changes the number of arena slots, and never changes the key
or the vector of any node: it only rewires neighbor maps. This holds on
error paths too. -/
theorem execAct_preserves (cos : DistF) :
    ∀ (f : ℕ) (a : Act K) (s : GState K), Pres s (execAct cos f a s).1 := by
  intro f
  induction f with
  | zero => intro a s; exact Pres.refl s
  | succ f ih =>
      intro a s
      cases a with
      | addNbr nId tId m d =>
          simp only [execAct]
          split
          · exact Pres.modify ..
          · split
            · exact Pres.modify ..
            · exact Pres.modify ..
            · exact ((((Pres.modify ..).comp (Pres.modify ..)).comp
                (Pres.modify ..)).comp (ih ..))
      | replen nId m =>
          simp only [execAct]
          split
          · exact Pres.refl s
          · exact ih _ s
      | replOut nId m outer =>
          simp only [execAct]
          cases outer with
          | nil => exact Pres.refl s
          | cons p rest =>
              rcases p with ⟨k₁, j₁⟩
              simp only
              split
              · rename_i s₁ e heq
                have h := ih (.replIn nId m (getRec s j₁).nbrs) s
                rw [heq] at h
                exact h
              · rename_i s₁ heq
                have h := ih (.replIn nId m (getRec s j₁).nbrs) s
                rw [heq] at h
                split
                · exact h
                · exact h.comp (ih (.replOut nId m rest) s₁)
      | replIn nId m inner =>
          simp only [execAct]
          cases inner with
          | nil => exact Pres.refl s
          | cons p rest =>
              rcases p with ⟨k₂, j₂⟩
              simp only
              split
              · exact ih _ s
              · split
                · exact ih _ s
                · split
                  · rename_i s₁ heq
                    have h := ih (.addNbr nId j₂ m cos) s
                    rw [heq] at h
                    exact h
                  · rename_i s₁ e hne heq
                    have h := ih (.addNbr nId j₂ m cos) s
                    rw [heq] at h
                    split
                    · exact h
                    · exact h.comp (ih (.replIn nId m rest) s₁)

theorem isoLoop_preserves (cos : DistF) (f : ℕ) (nKey : K) (m : ℕ) :
    ∀ (l : List (K × ℕ)) (s : GState K), Pres s (isoLoop cos f nKey m l s).1 := by
  intro l
  induction l with
  | nil => intro s; exact Pres.refl s
  | cons p rest ih =>
      intro s
      rcases p with ⟨k₁, j₁⟩
      simp only [isoLoop]
      split
      · rename_i s₂ e heq
        have h := execAct_preserves cos f (.replen j₁ m)
          (modifyNbrs s j₁ (fun l => eraseA l nKey))
        rw [heq] at h
        exact (Pres.modify ..).comp h
      · rename_i s₂ heq
        have h := execAct_preserves cos f (.replen j₁ m)
          (modifyNbrs s j₁ (fun l => eraseA l nKey))
        rw [heq] at h
        exact (((Pres.modify ..).comp h).comp (ih s₂))

theorem isolateF_preserves (cos : DistF) (f : ℕ) (s : GState K) (nId m : ℕ) :
    Pres s (isolateF cos f s nId m).1 :=
  isoLoop_preserves cos f (getRec s nId).key m (getRec s nId).nbrs s

theorem edgesLoop_preserves (cos : DistF) (f : ℕ) (d : DistF) (m newId : ℕ) :
    ∀ (l : List (ℕ × ℚ)) (s : GState K), Pres s (edgesLoop cos f d m newId l s).1 := by
  intro l
  induction l with
  | nil => intro s; exact Pres.refl s
  | cons p rest ih =>
      intro s
      rcases p with ⟨mid, q⟩
      simp only [edgesLoop]
      split
      · rename_i s₁ heq
        have h := execAct_preserves cos f (.addNbr mid newId m d) s
        rw [heq] at h
        exact h
      · rename_i s₁ e hne heq
        have h := execAct_preserves cos f (.addNbr mid newId m d) s
        rw [heq] at h
        split
        · rename_i s₂ heq₂
          have h₂ := execAct_preserves cos f (.addNbr newId mid m d) s₁
          rw [heq₂] at h₂
          exact h.comp h₂
        · rename_i s₂ e₂ hne₂ heq₂
          have h₂ := execAct_preserves cos f (.addNbr newId mid m d) s₁
          rw [heq₂] at h₂
          exact (h.comp h₂).comp (ih s₂)

theorem delLoop_layers_length (cos : DistF) (f m : ℕ) (k : K) :
    ∀ (idxs : List ℕ) (dl : Bool) (s : GState K),
      (delLoop cos f m k idxs dl s).1.layers.length = s.layers.length := by
  intro idxs
  induction idxs with
  | nil => intro dl s; rfl
  | cons i rest ih =>
      intro dl s
      simp only [delLoop]
      split
      · exact ih dl s
      · rename_i nid heq
        split
        · rename_i s₂ e heq₂
          have h := isolateF_preserves cos f
            (setLayer s i (eraseA (s.layers.getD i []) k)) nid m
          rw [heq₂] at h
          have h1 : s₂.layers = (setLayer s i
              (eraseA (s.layers.getD i []) k)).layers := h.1
          rw [h1, setLayer_layers_length]
        · rename_i s₂ heq₂
          have h := isolateF_preserves cos f
            (setLayer s i (eraseA (s.layers.getD i []) k)) nid m
          rw [heq₂] at h
          have h1 : s₂.layers = (setLayer s i
              (eraseA (s.layers.getD i []) k)).layers := h.1
          rw [ih true s₂, h1, setLayer_layers_length]

theorem delLoop_none_preserved (cos : DistF) (f m : ℕ) (k : K) (j : ℕ) :
    ∀ (idxs : List ℕ) (dl : Bool) (s : GState K),
      lookupA (s.layers.getD j []) k = none →
      lookupA ((delLoop cos f m k idxs dl s).1.layers.getD j []) k = none := by
  intro idxs
  induction idxs with
  | nil => intro dl s h; exact h
  | cons i rest ih =>
      intro dl s h
      simp only [delLoop]
      split
      · exact ih dl s h
      · rename_i nid heq
        have hset : lookupA ((setLayer s i (eraseA (s.layers.getD i []) k)).layers.getD
            j []) k = none := by
          by_cases hij : j = i
          · subst hij
            by_cases hj : j < s.layers.length
            · rw [getD_setLayer_self _ hj]
              exact lookupA_eraseA_self _ k
            · have : s.layers.length ≤ j := le_of_not_lt hj
              rw [setLayer, List.getD_eq_default]
              · rfl
              · simpa [List.length_set] using this
          · rw [getD_setLayer_ne _ hij]
            exact h
        split
        · rename_i s₂ e heq₂
          have hp := isolateF_preserves cos f
            (setLayer s i (eraseA (s.layers.getD i []) k)) nid m
          rw [heq₂] at hp
          rw [hp.1]
          exact hset
        · rename_i s₂ heq₂
          have hp := isolateF_preserves cos f
            (setLayer s i (eraseA (s.layers.getD i []) k)) nid m
          rw [heq₂] at hp
          refine ih true s₂ ?_
          rw [hp.1]
          exact hset

theorem delLoop_spec (cos : DistF) (f m : ℕ) (k : K) :
    ∀ (idxs : List ℕ) (dl : Bool) (s : GState K) (s' : GState K) (b : Bool),
      delLoop cos f m k idxs dl s = (s', b, none) →
      (b = true ↔ dl = true ∨ ∃ i ∈ idxs, (lookupA (s.layers.getD i []) k).isSome) ∧
      (∀ i ∈ idxs, lookupA (s'.layers.getD i []) k = none) := by
  intro idxs
  induction idxs with
  | nil =>
      intro dl s s' b h
      simp only [delLoop, Prod.mk.injEq] at h
      rcases h with ⟨hs, hb, -⟩
      subst hs
      constructor
      · rw [← hb]
        simp
      · intro i hi
        simp at hi
  | cons i rest ih =>
      intro dl s s' b h
      simp only [delLoop] at h
      split at h
      · rename_i hnone
        rcases ih dl s s' b h with ⟨h1, h2⟩
        constructor
        · rw [h1]
          constructor
          · intro hc
            rcases hc with hc | ⟨i', hi', hp⟩
            · exact Or.inl hc
            · exact Or.inr ⟨i', List.mem_cons_of_mem _ hi', hp⟩
          · intro hc
            rcases hc with hc | ⟨i', hi', hp⟩
            · exact Or.inl hc
            · rcases List.mem_cons.mp hi' with hh | hh
              · subst hh
                rw [hnone] at hp
                simp at hp
              · exact Or.inr ⟨i', hh, hp⟩
        · intro i' hi'
          rcases List.mem_cons.mp hi' with hh | hh
          · subst hh
            have := delLoop_none_preserved cos f m k i' rest dl s hnone
            rw [h] at this
            exact this
          · exact h2 i' hh
      · rename_i nid heq
        split at h
        · rename_i s₂ e heq₂
          exact absurd (congrArg (fun t => t.2.2) h) (by simp)
        · rename_i s₂ heq₂
          have hp := isolateF_preserves cos f
            (setLayer s i (eraseA (s.layers.getD i []) k)) nid m
          rw [heq₂] at hp
          have hset : lookupA (s₂.layers.getD i []) k = none := by
            rw [hp.1]
            by_cases hj : i < s.layers.length
            · rw [getD_setLayer_self _ hj]
              exact lookupA_eraseA_self _ k
            · rw [setLayer, List.getD_eq_default]
              · rfl
              · simpa [List.length_set] using le_of_not_lt hj
          rcases ih true s₂ s' b h with ⟨h1, h2⟩
          constructor
          · constructor
            · intro _
              exact Or.inr ⟨i, List.mem_cons_self _ _, by rw [heq]; rfl⟩
            · intro _
              exact h1.mpr (Or.inl rfl)
          · intro i' hi'
            rcases List.mem_cons.mp hi' with hh | hh
            · subst hh
              have := delLoop_none_preserved cos f m k i' rest true s₂ hset
              rw [h] at this
              exact this
            · exact h2 i' hh

/-- C7: `DeleteWithLock` returns true iff some layer contained the key;
afterwards no layer's map contains the key, and the number of layers is
unchanged (empty layers are retained). The isolation of each detached node
is the very definition of the embedded delete loop (`delLoop` removes the
node from the layer's map and calls `isolateF`, which removes the key from
every neighbor's map and replenishes it). -/
theorem c7_delete_spec (cfg : Config K) (f : ℕ) (s s' : GState K) (k : K)
    (b : Bool) (h : deleteF cfg f s k = (s', b, none)) :
    (b = true ↔ ∃ i, i < s.layers.length ∧
      (lookupA (s.layers.getD i []) k).isSome) ∧
    (∀ i, lookupA (s'.layers.getD i []) k = none) ∧
    s'.layers.length = s.layers.length := by
  by_cases hz : s.layers.length = 0
  · simp only [deleteF, if_pos hz, Prod.mk.injEq] at h
    rcases h with ⟨hs, hb, -⟩
    subst hs
    refine ⟨?_, ?_, rfl⟩
    · rw [← hb]
      simp [hz]
    · intro i
      have : s.layers = [] := List.length_eq_zero.mp hz
      rw [this]
      simp [lookupA]
  · simp only [deleteF, if_neg hz] at h
    rcases delLoop_spec cfg.cos f cfg.M k (List.range s.layers.length) false s s' b h
      with ⟨h1, h2⟩
    have hlen : s'.layers.length = s.layers.length := by
      have := delLoop_layers_length cfg.cos f cfg.M k
        (List.range s.layers.length) false s
      rw [h] at this
      exact this
    refine ⟨?_, ?_, hlen⟩
    · rw [h1]
      simp only [Bool.false_eq_true, false_or]
      constructor
      · rintro ⟨i, hi, hp⟩
        exact ⟨i, List.mem_range.mp hi, hp⟩
      · rintro ⟨i, hi, hp⟩
        exact ⟨i, List.mem_range.mpr hi, hp⟩
    · intro i
      by_cases hi : i < s.layers.length
      · exact h2 i (List.mem_range.mpr hi)
      · rw [List.getD_eq_default]
        · rfl
        · rw [hlen]
          exact le_of_not_lt hi

theorem updStep_of_absent {cos : DistF} {f m i : ℕ} {kk : K} {s : GState K}
    (h : lookupA (s.layers.getD i []) kk = none) :
    updStep cos f m i kk s = (s, false, none) := by
  simp only [updStep]
  rw [h]

theorem updStep_of_present {cos : DistF} {f m i : ℕ} {kk : K} {s : GState K}
    {oldId : ℕ} (h : lookupA (s.layers.getD i []) kk = some oldId) :
    ∃ s₂ e, updStep cos f m i kk s = (s₂, true, e) ∧
      Pres (setLayer s i (eraseA (s.layers.getD i []) kk)) s₂ := by
  simp only [updStep, h]
  rcases hiso : isolateF cos f (setLayer s i (eraseA (s.layers.getD i []) kk))
    oldId m with ⟨s₂, e⟩
  refine ⟨s₂, e, rfl, ?_⟩
  have hp := isolateF_preserves cos f
    (setLayer s i (eraseA (s.layers.getD i []) kk)) oldId m
  rw [hiso] at hp
  exact hp

theorem updStep_layers (cos : DistF) (f m i : ℕ) (kk : K) (s : GState K) :
    (updStep cos f m i kk s).1.layers.length = s.layers.length ∧
    (∀ j, j ≠ i → (updStep cos f m i kk s).1.layers.getD j []
      = s.layers.getD j []) := by
  cases hlk : lookupA (s.layers.getD i []) kk with
  | none =>
      rw [updStep_of_absent hlk]
      exact ⟨rfl, fun j hj => rfl⟩
  | some oldId =>
      obtain ⟨s₂, e, hupd, hp⟩ := updStep_of_present hlk
      rw [hupd]
      have hl : s₂.layers = (setLayer s i
          (eraseA (s.layers.getD i []) kk)).layers := hp.1
      constructor
      · show s₂.layers.length = s.layers.length
        rw [hl, setLayer_layers_length]
      · intro j hj
        show s₂.layers.getD j [] = s.layers.getD j []
        rw [hl, getD_setLayer_ne _ hj]

/-- How the per-layer loop of `Add`, ending at the base layer, affects the
base layer: the new node ends up in the base map under its key with its
vector; if the key was in the base map at the start, the final
`wasUpdated` flag is true; if it was absent, the base map grew by exactly
one entry. -/
theorem layerLoop_base_effect (cos : DistF) (f : ℕ) (d : DistF) (m ef : ℕ)
    (k : K) (v : Vec) (lvl : ℕ) :
    ∀ (idxs₁ : List ℕ) (elev : Option K) (wu : Bool) (s s₂ : GState K)
      (wu₂ : Bool),
      (∀ i ∈ idxs₁, i ≠ 0) → 0 < s.layers.length →
      layerLoop cos f d m ef k v lvl (idxs₁ ++ [0]) elev wu s = (s₂, wu₂, none) →
      (∃ nid, lookupA (s₂.layers.getD 0 []) k = some nid ∧
        (getRec s₂ nid).key = k ∧ (getRec s₂ nid).value = v) ∧
      ((lookupA (s.layers.getD 0 []) k).isSome → wu₂ = true) ∧
      (lookupA (s.layers.getD 0 []) k = none →
        (s₂.layers.getD 0 []).length = (s.layers.getD 0 []).length + 1) := by
  intro idxs₁
  induction idxs₁ with
  | nil =>
      intro elev wu s s₂ wu₂ _ h0lt h
      rw [List.nil_append] at h
      simp only [layerLoop] at h
      split at h
      · rename_i hemp
        have hL : s.layers.getD 0 [] = [] := List.isEmpty_iff.mp hemp
        simp only [layerLoop, Prod.mk.injEq] at h
        rcases h with ⟨hs, hwu, -⟩
        subst hs
        refine ⟨⟨(pushNode s ⟨k, v, []⟩).2, ?_, ?_, ?_⟩, ?_, ?_⟩
        · rw [getD_setLayer_self]
          · simp [lookupA]
          · rw [pushNode_layers]
            exact h0lt
        · rw [getRec_setLayer, getRec_pushNode_self]
        · rw [getRec_setLayer, getRec_pushNode_self]
        · intro hp
          rw [hL] at hp
          simp [lookupA] at hp
        · intro _
          rw [hL, getD_setLayer_self]
          · rfl
          · rw [pushNode_layers]
            exact h0lt
      · split at h
        · simp at h
        · simp at h
        · rename_i bid q nrest hsr
          rw [if_pos (Nat.zero_le lvl)] at h
          split at h
          · simp at h
          · rename_i s₂' wuHere hupd
            split at h
            · simp at h
            · rename_i s₄ hedge
              simp only [layerLoop, Prod.mk.injEq] at h
              rcases h with ⟨hs, hwu, -⟩
              subst hs
              -- the state before the insert: characterize via updStep
              have hedgeP := edgesLoop_preserves cos f d m (pushNode s₂' ⟨k, v, []⟩).2
                ((bid, q) :: nrest) (setLayer (pushNode s₂' ⟨k, v, []⟩).1 0
                  (insertA ((pushNode s₂' ⟨k, v, []⟩).1.layers.getD 0 []) k
                    (pushNode s₂' ⟨k, v, []⟩).2))
              rw [hedge] at hedgeP
              replace hedgeP : Pres _ s₄ := hedgeP
              have hlay : s₄.layers = (setLayer (pushNode s₂' ⟨k, v, []⟩).1 0
                  (insertA ((pushNode s₂' ⟨k, v, []⟩).1.layers.getD 0 []) k
                    (pushNode s₂' ⟨k, v, []⟩).2)).layers := hedgeP.1
              cases hlk : lookupA (s.layers.getD 0 []) k with
              | none =>
                  rw [updStep_of_absent hlk] at hupd
                  rcases Prod.mk.injEq .. ▸ hupd with ⟨hs', hrest⟩
                  rcases Prod.mk.injEq .. ▸ hrest with ⟨hwh, -⟩
                  subst hs'
                  have h0lt' : 0 < (pushNode s ⟨k, v, []⟩).1.layers.length := by
                    rw [pushNode_layers]; exact h0lt
                  have hbase : s₄.layers.getD 0 []
                      = insertA (s.layers.getD 0 []) k (pushNode s ⟨k, v, []⟩).2 := by
                    rw [hlay, getD_setLayer_self _ h0lt', pushNode_layers]
                  refine ⟨⟨(pushNode s ⟨k, v, []⟩).2, ?_, ?_, ?_⟩, ?_, ?_⟩
                  · rw [hbase]
                    exact lookupA_insertA_self ..
                  · rw [(hedgeP.2.2 _).1, getRec_setLayer, getRec_pushNode_self]
                  · rw [(hedgeP.2.2 _).2, getRec_setLayer, getRec_pushNode_self]
                  · intro hp
                    simp at hp
                  · intro _
                    rw [hbase, insertA_of_lookupA_none _ hlk]
                    simp
              | some oldId =>
                  obtain ⟨s₂'', e'', hupd'', hpres⟩ := updStep_of_present hlk
                  rw [hupd''] at hupd
                  rcases Prod.mk.injEq .. ▸ hupd with ⟨hs', hrest⟩
                  rcases Prod.mk.injEq .. ▸ hrest with ⟨hwh, he''⟩
                  have hl2 : s₂'.layers = (setLayer s 0
                      (eraseA (s.layers.getD 0 []) k)).layers := hs' ▸ hpres.1
                  have h0lt' : 0 < (pushNode s₂' ⟨k, v, []⟩).1.layers.length := by
                    rw [pushNode_layers, hl2, setLayer_layers_length]
                    exact h0lt
                  have hb2 : (pushNode s₂' ⟨k, v, []⟩).1.layers.getD 0 []
                      = eraseA (s.layers.getD 0 []) k := by
                    rw [pushNode_layers, hl2, getD_setLayer_self _ h0lt]
                  have hbase : s₄.layers.getD 0 []
                      = insertA (eraseA (s.layers.getD 0 []) k) k
                        (pushNode s₂' ⟨k, v, []⟩).2 := by
                    rw [hlay, getD_setLayer_self _ h0lt', hb2]
                  refine ⟨⟨(pushNode s₂' ⟨k, v, []⟩).2, ?_, ?_, ?_⟩, ?_, ?_⟩
                  · rw [hbase]
                    exact lookupA_insertA_self ..
                  · rw [(hedgeP.2.2 _).1, getRec_setLayer, getRec_pushNode_self]
                  · rw [(hedgeP.2.2 _).2, getRec_setLayer, getRec_pushNode_self]
                  · intro _
                    rw [← hwu, ← hwh]
                    simp
                  · intro hp
                    simp at hp
  | cons i idxs₁ ih =>
      intro elev wu s s₂ wu₂ hne h0lt h
      have hi0 : i ≠ 0 := hne i (List.mem_cons_self _ _)
      have hne' : ∀ j ∈ idxs₁, j ≠ 0 := fun j hj => hne j (List.mem_cons_of_mem _ hj)
      rw [List.cons_append] at h
      simp only [layerLoop] at h
      split at h
      · -- empty layer i: seeded, base untouched
        have hb : (setLayer (pushNode s ⟨k, v, []⟩).1 i
            [(k, (pushNode s ⟨k, v, []⟩).2)]).layers.getD 0 []
            = s.layers.getD 0 [] := by
          rw [getD_setLayer_ne _ (Ne.symm hi0), pushNode_layers]
        have h0lt' : 0 < (setLayer (pushNode s ⟨k, v, []⟩).1 i
            [(k, (pushNode s ⟨k, v, []⟩).2)]).layers.length := by
          rw [setLayer_layers_length, pushNode_layers]
          exact h0lt
        rcases ih elev wu _ s₂ wu₂ hne' h0lt' h with ⟨c1, c2, c3⟩
        refine ⟨c1, ?_, ?_⟩
        · rw [← hb]
          exact c2
        · rw [← hb]
          exact c3
      · split at h
        · simp at h
        · simp at h
        · rename_i bid q nrest hsr
          split at h
          · -- i ≤ lvl: update sub-step, insert, edges, then recurse
            split at h
            · simp at h
            · rename_i s₂' wuHere hupd
              split at h
              · simp at h
              · rename_i s₄ hedge
                have hedgeP := edgesLoop_preserves cos f d m
                  (pushNode s₂' ⟨k, v, []⟩).2 ((bid, q) :: nrest)
                  (setLayer (pushNode s₂' ⟨k, v, []⟩).1 i
                    (insertA ((pushNode s₂' ⟨k, v, []⟩).1.layers.getD i []) k
                      (pushNode s₂' ⟨k, v, []⟩).2))
                rw [hedge] at hedgeP
                replace hedgeP : Pres _ s₄ := hedgeP
                have hu := updStep_layers cos f m i k s
                rw [hupd] at hu
                have hub : s₂'.layers.getD 0 [] = s.layers.getD 0 [] :=
                  hu.2 0 (Ne.symm hi0)
                have hulen : s₂'.layers.length = s.layers.length := hu.1
                have hb : s₄.layers.getD 0 [] = s.layers.getD 0 [] := by
                  have : s₄.layers = (setLayer (pushNode s₂' ⟨k, v, []⟩).1 i
                      (insertA ((pushNode s₂' ⟨k, v, []⟩).1.layers.getD i []) k
                        (pushNode s₂' ⟨k, v, []⟩).2)).layers := hedgeP.1
                  rw [this, getD_setLayer_ne _ (Ne.symm hi0), pushNode_layers, hub]
                have h0lt' : 0 < s₄.layers.length := by
                  have : s₄.layers = (setLayer (pushNode s₂' ⟨k, v, []⟩).1 i
                      (insertA ((pushNode s₂' ⟨k, v, []⟩).1.layers.getD i []) k
                        (pushNode s₂' ⟨k, v, []⟩).2)).layers := hedgeP.1
                  rw [this, setLayer_layers_length, pushNode_layers, hulen]
                  exact h0lt
                rcases ih _ _ _ s₂ wu₂ hne' h0lt' h with ⟨c1, c2, c3⟩
                refine ⟨c1, ?_, ?_⟩
                · rw [← hb]
                  exact c2
                · rw [← hb]
                  exact c3
          · -- i > lvl: state unchanged, recurse
            exact ih _ _ _ s₂ wu₂ hne' h0lt h

theorem extendLayers_base (s : GState K) (lvl : ℕ) :
    (extendLayers s lvl).layers.getD 0 [] = s.layers.getD 0 [] := by
  cases hl : s.layers with
  | nil =>
      simp only [extendLayers, hl, List.nil_append]
      cases h : List.replicate (lvl + 1 - ([] : List (List (K × ℕ))).length) ([] : List (K × ℕ)) with
      | nil => rfl
      | cons a rest =>
          have : a = [] := (List.eq_of_mem_replicate (h ▸ List.mem_cons_self a rest))
          simp [this]
  | cons L rest =>
      simp [extendLayers, hl, List.getD]

theorem extendLayers_pos (s : GState K) (lvl : ℕ) :
    0 < (extendLayers s lvl).layers.length := by
  simp only [extendLayers, List.length_append, List.length_replicate]
  omega

theorem range_reverse_decomp (n : ℕ) (h : 0 < n) :
    ∃ idxs₁ : List ℕ, (List.range n).reverse = idxs₁ ++ [0] ∧
      ∀ i ∈ idxs₁, i ≠ 0 := by
  obtain ⟨m, rfl⟩ : ∃ m, n = m + 1 := ⟨n - 1, by omega⟩
  refine ⟨((List.range m).map Nat.succ).reverse, ?_, ?_⟩
  · rw [List.range_succ_eq_map, List.reverse_cons]
  · intro i hi
    rw [List.mem_reverse] at hi
    rcases List.mem_map.mp hi with ⟨j, -, rfl⟩
    exact Nat.succ_ne_zero j

theorem layerLoop_layers_length (cos : DistF) (f : ℕ) (d : DistF) (m ef : ℕ)
    (k : K) (v : Vec) (lvl : ℕ) :
    ∀ (idxs : List ℕ) (elev : Option K) (wu : Bool) (s : GState K),
      (layerLoop cos f d m ef k v lvl idxs elev wu s).1.layers.length
        = s.layers.length := by
  intro idxs
  induction idxs with
  | nil => intro elev wu s; rfl
  | cons i rest ih =>
      intro elev wu s
      simp only [layerLoop]
      split
      · rw [ih, setLayer_layers_length, pushNode_layers]
      · split
        · rfl
        · rfl
        · rename_i bid q nrest hsr
          split
          · split
            · rename_i s₂' wuHere e hupd
              have hu := (updStep_layers cos f m i k s).1
              rw [hupd] at hu
              exact hu
            · rename_i s₂' wuHere hupd
              have hu := (updStep_layers cos f m i k s).1
              rw [hupd] at hu
              split
              · rename_i s₄ e heq
                have hp := edgesLoop_preserves cos f d m (pushNode s₂' ⟨k, v, []⟩).2
                  ((bid, q) :: nrest) (setLayer (pushNode s₂' ⟨k, v, []⟩).1 i
                    (insertA ((pushNode s₂' ⟨k, v, []⟩).1.layers.getD i []) k
                      (pushNode s₂' ⟨k, v, []⟩).2))
                rw [heq] at hp
                replace hp : Pres _ s₄ := hp
                rw [congrArg List.length hp.1, setLayer_layers_length,
                  pushNode_layers]
                exact hu
              · rename_i s₄ heq
                have hp := edgesLoop_preserves cos f d m (pushNode s₂' ⟨k, v, []⟩).2
                  ((bid, q) :: nrest) (setLayer (pushNode s₂' ⟨k, v, []⟩).1 i
                    (insertA ((pushNode s₂' ⟨k, v, []⟩).1.layers.getD i []) k
                      (pushNode s₂' ⟨k, v, []⟩).2))
                rw [heq] at hp
                replace hp : Pres _ s₄ := hp
                rw [ih, congrArg List.length hp.1, setLayer_layers_length,
                  pushNode_layers]
                exact hu
          · exact ih _ _ s

/-- C6: for every completed single-node `Add` (the per-node body of
`(*Graph).Add` with the level already drawn): if the key was already
present in the base layer the graph's `Len()` is unchanged, otherwise it
grows by exactly one. The contrapositive is the source's own hard
post-condition check: a violating run returns the `node not
updated`/`node not added` error, so it is not a completed `Add`. -/
theorem c6_len_postcondition (cfg : Config K) (f : ℕ) (s s' : GState K)
    (k : K) (v : Vec) (lvl : ℕ) (h : addNodeF cfg f s k v lvl = (s', none)) :
    LenM s' = LenM s +
      (if (lookupA (s.layers.getD 0 []) k).isSome then 0 else 1) := by
  simp only [addNodeF] at h
  split at h
  · simp at h
  · rename_i s₂ wu heq
    obtain ⟨idxs₁, hdec, hne0⟩ := range_reverse_decomp
      (extendLayers s lvl).layers.length (extendLayers_pos s lvl)
    rw [hdec] at heq
    obtain ⟨c1, c2, c3⟩ := layerLoop_base_effect cfg.cos f cfg.dist cfg.M
      cfg.efConstruction k v lvl idxs₁ none false (extendLayers s lvl) s₂ wu
      hne0 (extendLayers_pos s lvl) heq
    rw [extendLayers_base] at c2 c3
    have h2 : baseSize (extendLayers s lvl) = baseSize s :=
      congrArg List.length (extendLayers_base s lvl)
    split at h
    · split at h
      · rename_i hwu hlen
        rcases Prod.mk.injEq .. ▸ h with ⟨hs, -⟩
        subst hs
        cases hpres : lookupA (s.layers.getD 0 []) k with
        | some nid0 =>
            have hc : ((some nid0 : Option ℕ).isSome = true) := rfl
            rw [if_pos hc]
            simp only [LenM]
            omega
        | none =>
            exfalso
            have h1 := c3 hpres
            simp only [baseSize] at hlen h2
            omega
      · simp at h
    · split at h
      · rename_i hwu hlen
        rcases Prod.mk.injEq .. ▸ h with ⟨hs, -⟩
        subst hs
        cases hpres : lookupA (s.layers.getD 0 []) k with
        | some nid0 =>
            exact absurd (c2 (by rw [hpres]; rfl)) (by simp [hwu])
        | none =>
            have hc : ¬ ((none : Option ℕ).isSome = true) := by simp
            rw [if_neg hc]
            simp only [LenM, baseSize] at hlen h2 ⊢
            omega
      · simp at h

/-- C6 witness: re-adding key 1 to the one-node graph `stA1` keeps `Len`
at 1, while adding the fresh key 2 yields `Len` 2. -/
theorem c6_len_postcondition_witness :
    LenM (addNodeF cfgTot 100 stA1 1 [9] 0).1 = LenM stA1 +
      (if (lookupA (stA1.layers.getD 0 []) 1).isSome then 0 else 1) ∧
    LenM (addNodeF cfgTot 100 stA1 2 [9] 0).1 = LenM stA1 +
      (if (lookupA (stA1.layers.getD 0 []) 2).isSome then 0 else 1) :=
  ⟨c6_len_postcondition cfgTot 100 stA1 _ 1 [9] 0
      (pair_eq_of_snd _ _ (by decide)),
    c6_len_postcondition cfgTot 100 stA1 _ 2 [9] 0
      (pair_eq_of_snd _ _ (by decide))⟩

/-- C9: after every completed single-node `Add` of `(k, v)` — whether the
key was absent or present with another vector — `Lookup(k)` returns
`(v, true)`. Applied twice this gives the spec's round trip
`Add(n); Add({n.Key, v2})` ⇒ `Lookup(n.Key) = v2`. -/
theorem c9_lookup_after_add (cfg : Config K) (f : ℕ) (s s' : GState K)
    (k : K) (v : Vec) (lvl : ℕ) (h : addNodeF cfg f s k v lvl = (s', none)) :
    LookupM s' k = some v := by
  simp only [addNodeF] at h
  split at h
  · simp at h
  · rename_i s₂ wu heq
    obtain ⟨idxs₁, hdec, hne0⟩ := range_reverse_decomp
      (extendLayers s lvl).layers.length (extendLayers_pos s lvl)
    rw [hdec] at heq
    obtain ⟨⟨nid, hl, hk, hv⟩, -, -⟩ := layerLoop_base_effect cfg.cos f cfg.dist
      cfg.M cfg.efConstruction k v lvl idxs₁ none false (extendLayers s lvl)
      s₂ wu hne0 (extendLayers_pos s lvl) heq
    have hlen : s₂.layers.length = (extendLayers s lvl).layers.length := by
      have := layerLoop_layers_length cfg.cos f cfg.dist cfg.M
        cfg.efConstruction k v lvl (idxs₁ ++ [0]) none false (extendLayers s lvl)
      rw [heq] at this
      exact this
    have hs2 : s₂ = s' := by
      split at h <;> split at h <;>
        first
          | (rcases Prod.mk.injEq .. ▸ h with ⟨hs, -⟩; exact hs)
          | simp at h
    subst hs2
    have hpos : s₂.layers.length ≠ 0 := by
      rw [hlen]
      exact Nat.pos_iff_ne_zero.mp (extendLayers_pos s lvl)
    simp only [LookupM, if_neg hpos, hl, Option.map_some']
    rw [hv]

/-- C9 witness: re-adding key 1 with vector `[9]` to `stA1` makes
`Lookup(1)` return `[9]`. -/
theorem c9_lookup_after_add_witness :
    LookupM (addNodeF cfgTot 100 stA1 1 [9] 0).1 1 = some [9] :=
  c9_lookup_after_add cfgTot 100 stA1 _ 1 [9] 0
    (pair_eq_of_snd _ _ (by decide))

theorem triple_eq_of_parts {α β γ : Type} (x : α × β × γ) (b : β) (c : γ)
    (h1 : x.2.1 = b) (h2 : x.2.2 = c) : x = (x.1, b, c) := by
  rw [← h1, ← h2]

/-- C7 witness: deleting key 1 from the one-node graph `stA1` returns
true, leaves no layer map containing the key, and keeps the layer count. -/
theorem c7_delete_spec_witness :
    deleteF cfgTot 100 stA1 1 = ((deleteF cfgTot 100 stA1 1).1, true, none) ∧
    lookupA ((deleteF cfgTot 100 stA1 1).1.layers.getD 0 []) 1 = none ∧
    (deleteF cfgTot 100 stA1 1).1.layers.length = stA1.layers.length :=
  have h : deleteF cfgTot 100 stA1 1
      = ((deleteF cfgTot 100 stA1 1).1, true, none) :=
    triple_eq_of_parts _ _ _ (by decide) (by decide)
  ⟨h, (c7_delete_spec cfgTot 100 stA1 _ 1 true h).2.1 0,
    (c7_delete_spec cfgTot 100 stA1 _ 1 true h).2.2⟩

theorem getD_zipWith_makeNode :
    ∀ (as : List K) (bs : List Vec) (i : ℕ), i < as.length → i < bs.length →
      ∀ (dk : K) (dv : Vec),
        (List.zipWith MakeNodeM as bs).getD i (dk, dv)
          = (as.getD i dk, bs.getD i dv) := by
  intro as
  induction as with
  | nil => intro bs i h _ dk dv; simp at h
  | cons a arest ih =>
      intro bs i h1 h2 dk dv
      cases bs with
      | nil => simp at h2
      | cons b brest =>
          cases i with
          | zero => rfl
          | succ j =>
              simp only [List.zipWith_cons_cons, List.getD_cons_succ]
              exact ih brest j (Nat.lt_of_succ_lt_succ h1)
                (Nat.lt_of_succ_lt_succ h2) dk dv

/-- C10: `MakeNodes` fails exactly when the key and vector slices have
different lengths; on success the result has the length of the key slice
and pairs keys with vectors pointwise via `MakeNode`. -/
theorem c10_makeNodes (keys : List K) (vecs : List Vec) :
    (keys.length ≠ vecs.length →
      MakeNodesM keys vecs = .error .lenMismatch) ∧
    (keys.length = vecs.length →
      ∃ l, MakeNodesM keys vecs = .ok l ∧ l.length = keys.length ∧
        ∀ (dk : K) (dv : Vec) (i : ℕ), i < keys.length →
          l.getD i (dk, dv) = (keys.getD i dk, vecs.getD i dv)) := by
  constructor
  · intro h
    simp [MakeNodesM, h]
  · intro h
    refine ⟨List.zipWith MakeNodeM keys vecs, ?_, ?_, ?_⟩
    · simp [MakeNodesM, h]
    · rw [List.length_zipWith, h, Nat.min_self]
    · intro dk dv i hi
      exact getD_zipWith_makeNode keys vecs i hi (h ▸ hi) dk dv

/-- C10 witness: a mismatched pair of slices is rejected, and a matched
pair is zipped pointwise. -/
theorem c10_makeNodes_witness :
    MakeNodesM [(1 : ℕ), 2, 3] [[5]] = .error .lenMismatch ∧
    ∃ l, MakeNodesM [(1 : ℕ), 2] [[5], [6]] = .ok l ∧
      l.length = [(1 : ℕ), 2].length ∧
      ∀ (dk : ℕ) (dv : Vec) (i : ℕ), i < [(1 : ℕ), 2].length →
        l.getD i (dk, dv) = ([(1 : ℕ), 2].getD i dk, [[5], [6]].getD i dv) :=
  ⟨(c10_makeNodes [1, 2, 3] [[5]]).1 (by decide),
    (c10_makeNodes [1, 2] [[5], [6]]).2 (by decide)⟩

/-- The level described by the spec sentence for `randomLevel`: the first
level in `[0, mx)` whose draw exceeds `ml`, or the ceiling `mx` when no
draw does. -/
noncomputable def firstLevelSpec (ml : ℝ) (draws : ℕ → ℝ) (mx : ℤ) : ℤ :=
  match (List.range mx.toNat).find? (fun l => decide (ml < draws l)) with
  | some l => (l : ℤ)
  | none => mx

theorem levelLoopM_eq_find (ml : ℝ) (draws : ℕ → ℝ) :
    ∀ (ls : List ℕ) (mx : ℤ),
      levelLoopM ml draws ls mx =
        match ls.find? (fun l => decide (ml < draws l)) with
        | some l => (l : ℤ)
        | none => mx := by
  intro ls
  induction ls with
  | nil => intro mx; rfl
  | cons l rest ih =>
      intro mx
      by_cases h : ml < draws l
      · simp only [levelLoopM, if_pos h, List.find?_cons, decide_eq_true h]
      · simp only [levelLoopM, if_neg h, ih, List.find?_cons,
          decide_eq_false h]

/-- C8, counterexample: with an empty layer stack and `Ml = 0`,
`randomLevel` does not fail: the `Ml = 0` check sits inside the
`len(h.layers) > 0` branch, so the call returns level 0 (the first draw,
3/4, exceeds 0). The draws used lie in `[0, 1)` as `rand.Float64`
guarantees. -/
theorem c8_randomLevel_counterexample :
    (∀ n : ℕ, 0 ≤ (fun _ : ℕ => (3 : ℝ) / 4) n ∧
      (fun _ : ℕ => (3 : ℝ) / 4) n < 1) ∧
    randomLevelM 0 17 0 (fun _ => 3 / 4) = .ok 0 := by
  constructor
  · intro n
    norm_num
  · have h1 : List.range 1 = [0] := rfl
    simp only [randomLevelM, if_pos rfl, h1, levelLoopM]
    norm_num

/-- C8 as amended: `randomLevel` fails on `Ml = 0` only when the layer
stack is non-empty; the ceiling is 1 when the layer stack is empty and
also when the base layer is empty; with a non-empty base layer the ceiling
is `round(log |base| / log(1/Ml)) + 1`; and in every non-failing case the
result is the first level in `[0, ceiling)` whose draw exceeds `Ml`, or
the ceiling when no draw does. -/
theorem c8_randomLevel_amended (numLayers baseSz : ℕ) (ml : ℝ)
    (draws : ℕ → ℝ) :
    (numLayers = 0 →
      randomLevelM numLayers baseSz ml draws
        = .ok (firstLevelSpec ml draws 1)) ∧
    (numLayers ≠ 0 → ml = 0 →
      randomLevelM numLayers baseSz ml draws = .error .mlZero) ∧
    (numLayers ≠ 0 → ml ≠ 0 → baseSz = 0 →
      randomLevelM numLayers baseSz ml draws
        = .ok (firstLevelSpec ml draws 1)) ∧
    (numLayers ≠ 0 → ml ≠ 0 → baseSz ≠ 0 →
      randomLevelM numLayers baseSz ml draws
        = .ok (firstLevelSpec ml draws
            (round (Real.log baseSz / Real.log (1 / ml)) + 1))) := by
  refine ⟨?_, ?_, ?_, ?_⟩
  · intro h
    simp only [randomLevelM, if_pos h]
    rw [levelLoopM_eq_find]
    rfl
  · intro h hml
    simp only [randomLevelM, if_neg h, if_pos hml]
  · intro h hml h0
    simp only [randomLevelM, if_neg h, if_neg hml, maxLevelM, if_pos h0]
    rw [levelLoopM_eq_find]
    rfl
  · intro h hml h0
    simp only [randomLevelM, if_neg h, if_neg hml, maxLevelM, if_neg h0]
    rw [levelLoopM_eq_find]
    rfl

/-- C8 amended witness: a non-empty one-node graph with `Ml = 1/2` follows
the ceiling formula. -/
theorem c8_randomLevel_amended_witness :
    randomLevelM 1 1 (1 / 2) (fun _ => 3 / 4)
      = .ok (firstLevelSpec (1 / 2) (fun _ => 3 / 4)
          (round (Real.log (1 : ℕ) / Real.log (1 / (1 / 2))) + 1)) :=
  (c8_randomLevel_amended 1 1 (1 / 2) (fun _ => 3 / 4)).2.2.2
    (by norm_num) (by norm_num) (by norm_num)

theorem findWorst_go (d : DistF) (s : GState K) (c : Vec) :
    ∀ (l : List (K × ℕ)) (ak : K) (aj : ℕ) (aq : ℚ) (wk : K) (wj : ℕ) (wq : ℚ),
      findWorst d s c l (some (ak, aj, aq)) = .ok (some (wk, wj, wq)) →
      ((wk = ak ∧ wj = aj ∧ wq = aq) ∧
        ∀ p ∈ l, ∃ q, d (getRec s p.2).value c = .ok q ∧ q ≤ wq) ∨
      (aq < wq ∧ ∃ pre post, l = pre ++ (wk, wj) :: post ∧
        d (getRec s wj).value c = .ok wq ∧
        (∀ p ∈ pre, ∃ q, d (getRec s p.2).value c = .ok q ∧ q < wq) ∧
        (∀ p ∈ post, ∃ q, d (getRec s p.2).value c = .ok q ∧ q ≤ wq)) := by
  intro l
  induction l with
  | nil =>
      intro ak aj aq wk wj wq h
      simp only [findWorst, Except.ok.injEq, Option.some.injEq,
        Prod.mk.injEq] at h
      exact Or.inl ⟨⟨h.1.symm, h.2.1.symm, h.2.2.symm⟩, by simp⟩
  | cons p rest ih =>
      intro ak aj aq wk wj wq h
      rcases p with ⟨k₀, j₀⟩
      simp only [findWorst] at h
      split at h
      · simp at h
      · rename_i q0 heq
        split at h
        · rename_i hq
          rcases ih k₀ j₀ q0 wk wj wq h with ⟨⟨h1, h2, h3⟩, hall⟩ | hres
          · subst h1; subst h2; subst h3
            refine Or.inr ⟨hq, [], rest, rfl, heq, by simp, hall⟩
          · rcases hres with ⟨hlt, pre, post, hsplit, hdw, hpre, hpost⟩
            refine Or.inr ⟨lt_trans hq hlt, (k₀, j₀) :: pre, post, ?_, hdw, ?_, hpost⟩
            · rw [hsplit, List.cons_append]
            · intro p hp
              rcases List.mem_cons.mp hp with hp | hp
              · exact ⟨q0, by rw [hp]; exact heq, hlt⟩
              · exact hpre p hp
        · rename_i hq
          push_neg at hq
          rcases ih ak aj aq wk wj wq h with ⟨⟨h1, h2, h3⟩, hall⟩ | hres
          · refine Or.inl ⟨⟨h1, h2, h3⟩, ?_⟩
            intro p hp
            rcases List.mem_cons.mp hp with hp | hp
            · exact ⟨q0, by rw [hp]; exact heq, h3 ▸ hq⟩
            · exact hall p hp
          · rcases hres with ⟨hlt, pre, post, hsplit, hdw, hpre, hpost⟩
            refine Or.inr ⟨hlt, (k₀, j₀) :: pre, post, ?_, hdw, ?_, hpost⟩
            · rw [hsplit, List.cons_append]
            · intro p hp
              rcases List.mem_cons.mp hp with hp | hp
              · exact ⟨q0, by rw [hp]; exact heq, lt_of_le_of_lt hq hlt⟩
              · exact hpre p hp

/-- Characterization of a successful worst-neighbor scan: the selected
entry occurs in the scanned list; its distance to the center is `wq`;
every entry scanned before it has a strictly smaller distance (a later
candidate only replaces the tentative worst on a strictly greater
distance), and every entry after it has distance at most `wq` — the
selected entry has the greatest distance, the earliest scanned among
equals. -/
theorem findWorst_spec (d : DistF) (s : GState K) (c : Vec)
    (l : List (K × ℕ)) (wk : K) (wj : ℕ) (wq : ℚ)
    (h : findWorst d s c l none = .ok (some (wk, wj, wq))) :
    ∃ pre post, l = pre ++ (wk, wj) :: post ∧
      d (getRec s wj).value c = .ok wq ∧
      (∀ p ∈ pre, ∃ q, d (getRec s p.2).value c = .ok q ∧ q < wq) ∧
      (∀ p ∈ post, ∃ q, d (getRec s p.2).value c = .ok q ∧ q ≤ wq) := by
  cases l with
  | nil => simp [findWorst] at h
  | cons p rest =>
      rcases p with ⟨k₀, j₀⟩
      simp only [findWorst] at h
      split at h
      · simp at h
      · rename_i q0 heq
        rcases findWorst_go d s c rest k₀ j₀ q0 wk wj wq h
          with ⟨⟨h1, h2, h3⟩, hall⟩ | hres
        · subst h1; subst h2; subst h3
          exact ⟨[], rest, rfl, heq, by simp, hall⟩
        · rcases hres with ⟨hlt, pre, post, hsplit, hdw, hpre, hpost⟩
          refine ⟨(k₀, j₀) :: pre, post, ?_, hdw, ?_, hpost⟩
          · rw [hsplit, List.cons_append]
          · intro p hp
            rcases List.mem_cons.mp hp with hp | hp
            · exact ⟨q0, by rw [hp]; exact heq, hlt⟩
            · exact hpre p hp

/-- The state after `addNeighbor` has inserted the target into the
receiver's neighbor map (`n.neighbors[newNode.Key] = newNode`). -/
def insTarget (s : GState K) (nId tId : ℕ) : GState K :=
  modifyNbrs s nId (fun l => insertA l (getRec s tId).key tId)

/-- C5: when `addNeighbor(target, m, dist)` makes the receiver's neighbor
map exceed `m` entries, exactly one entry is evicted, namely the entry the
scan selects: the one with the greatest distance to the receiver, where a
later candidate replaces the tentatively worst one only on a strictly
greater distance (so the earliest scanned among maximal wins); the
receiver's key is also deleted from the evicted neighbor's map, and
`replenish(m)` is run on the evicted neighbor. Conjuncts: (1) the run is
exactly `replenish(m)` on the evicted neighbor after the two deletions;
(2) the evicted entry was in the post-insert map; (3) its distance to the
receiver is `wq`; (4) no entry has distance above `wq`; (5) all entries
scanned before the winner are strictly below `wq`; (6) exactly one entry
was removed from the receiver's map; (7) the receiver's key is gone from
the evicted neighbor's map. -/
theorem c5_addNeighbor_eviction (cos d : DistF) (f m nId tId : ℕ)
    (s : GState K) (wk : K) (wj : ℕ) (wq : ℚ) (hne : wj ≠ nId)
    (hlen : m < (getRec (insTarget s nId tId) nId).nbrs.length)
    (hnd : (((getRec (insTarget s nId tId) nId).nbrs).map Prod.fst).Nodup)
    (hfw : findWorst d (insTarget s nId tId)
      (getRec (insTarget s nId tId) nId).value
      (getRec (insTarget s nId tId) nId).nbrs none
        = .ok (some (wk, wj, wq))) :
    addNeighborF cos (f + 1) s nId tId m d
      = execAct cos f (.replen wj m)
          (modifyNbrs (modifyNbrs (insTarget s nId tId) nId
              (fun l => eraseA l wk)) wj
            (fun l => eraseA l (getRec (modifyNbrs (insTarget s nId tId) nId
              (fun l => eraseA l wk)) nId).key)) ∧
    (wk, wj) ∈ (getRec (insTarget s nId tId) nId).nbrs ∧
    d (getRec (insTarget s nId tId) wj).value
      (getRec (insTarget s nId tId) nId).value = .ok wq ∧
    (∀ p ∈ (getRec (insTarget s nId tId) nId).nbrs, ∀ q,
      d (getRec (insTarget s nId tId) p.2).value
        (getRec (insTarget s nId tId) nId).value = .ok q → q ≤ wq) ∧
    (∃ pre post,
      (getRec (insTarget s nId tId) nId).nbrs = pre ++ (wk, wj) :: post ∧
      ∀ p ∈ pre, ∀ q,
        d (getRec (insTarget s nId tId) p.2).value
          (getRec (insTarget s nId tId) nId).value = .ok q → q < wq) ∧
    (getRec (modifyNbrs (insTarget s nId tId) nId (fun l => eraseA l wk))
        nId).nbrs.length + 1
      = (getRec (insTarget s nId tId) nId).nbrs.length ∧
    lookupA (getRec (modifyNbrs (modifyNbrs (insTarget s nId tId) nId
        (fun l => eraseA l wk)) wj
        (fun l => eraseA l (getRec (modifyNbrs (insTarget s nId tId) nId
          (fun l => eraseA l wk)) nId).key)) wj).nbrs
      (getRec (insTarget s nId tId) nId).key = none := by
  obtain ⟨pre, post, hsplit, hdw, hpre, hpost⟩ :=
    findWorst_spec d (insTarget s nId tId)
      (getRec (insTarget s nId tId) nId).value
      (getRec (insTarget s nId tId) nId).nbrs wk wj wq hfw
  have hmem : (wk, wj) ∈ (getRec (insTarget s nId tId) nId).nbrs := by
    rw [hsplit]
    exact List.mem_append.mpr (Or.inr (List.mem_cons_self _ _))
  have hlt : nId < s.arena.length := by
    by_contra hc
    push_neg at hc
    have : insTarget s nId tId = s := getRec_modifyNbrs_oob hc
    rw [this] at hlen
    have h2 : getRec s nId = ⟨default, [], []⟩ := List.getD_eq_default _ _ hc
    rw [h2] at hlen
    simp at hlen
  refine ⟨?_, hmem, hdw, ?_, ⟨pre, post, hsplit, ?_⟩, ?_, ?_⟩
  · simp only [addNeighborF, execAct, insTarget] at hfw hlen ⊢
    rw [if_neg (not_le.mpr hlen), hfw]
  · intro p hp q hq
    rw [hsplit] at hp
    rcases List.mem_append.mp hp with hp | hp
    · rcases hpre p hp with ⟨q', hq', hlt'⟩
      rw [hq] at hq'
      injection hq' with hqe
      rw [hqe]
      exact le_of_lt hlt'
    · rcases List.mem_cons.mp hp with hp | hp
      · rw [hp] at hq
        rw [hq] at hdw
        injection hdw with hqe
        exact le_of_eq hqe
      · rcases hpost p hp with ⟨q', hq', hle'⟩
        rw [hq] at hq'
        injection hq' with hqe
        rw [hqe]
        exact hle'
  · intro p hp q hq
    rcases hpre p hp with ⟨q', hq', hlt'⟩
    rw [hq] at hq'
    injection hq' with hqe
    rw [hqe]
    exact hlt'
  · have hlt' : nId < (insTarget s nId tId).arena.length := by
      rw [insTarget, modifyNbrs_arena_length]
      exact hlt
    rw [getRec_modifyNbrs_self hlt']
    exact eraseA_of_nodup hnd hmem
  · by_cases hwj : wj < (modifyNbrs (insTarget s nId tId) nId
        (fun l => eraseA l wk)).arena.length
    · rw [getRec_modifyNbrs_self hwj]
      have : (getRec (modifyNbrs (insTarget s nId tId) nId
          (fun l => eraseA l wk)) nId).key
          = (getRec (insTarget s nId tId) nId).key :=
        (getRec_modifyNbrs_key ..).1
      rw [this]
      exact lookupA_eraseA_self ..
    · push_neg at hwj
      rw [getRec_modifyNbrs_oob hwj]
      have hwj' : (modifyNbrs (insTarget s nId tId) nId
          (fun l => eraseA l wk)).arena.length ≤ wj := hwj
      have hdef : getRec (modifyNbrs (insTarget s nId tId) nId
          (fun l => eraseA l wk)) wj = ⟨default, [], []⟩ :=
        List.getD_eq_default _ _ hwj'
      rw [hdef]
      rfl

/-- A concrete three-node state: node 0 (key 1) has one neighbor (key 2),
so adding a further neighbor with `M = 1` forces an eviction. -/
def sW5 : GState ℕ :=
  ⟨[⟨1, [1], [(2, 1)]⟩, ⟨2, [2], [(1, 0)]⟩, ⟨3, [3], []⟩],
    [[(1, 0), (2, 1), (3, 2)]]⟩

/-- C5 witness: adding node 2 (key 3) as a neighbor of node 0 with `M = 1`
evicts the worst entry (key 3 itself has distance 2, key 2 distance 1), so
exactly one entry is removed and the run continues as `replenish` on the
evicted neighbor. -/
theorem c5_addNeighbor_eviction_witness :
    addNeighborF headDist 51 sW5 0 2 1 headDist
      = execAct headDist 50 (.replen 2 1)
          (modifyNbrs (modifyNbrs (insTarget sW5 0 2) 0 (fun l => eraseA l 3)) 2
            (fun l => eraseA l (getRec (modifyNbrs (insTarget sW5 0 2) 0
              (fun l => eraseA l 3)) 0).key)) ∧
    ((3 : ℕ), (2 : ℕ)) ∈ (getRec (insTarget sW5 0 2) 0).nbrs ∧
    (getRec (modifyNbrs (insTarget sW5 0 2) 0
        (fun l => eraseA l 3)) 0).nbrs.length + 1
      = (getRec (insTarget sW5 0 2) 0).nbrs.length :=
  have h := c5_addNeighbor_eviction headDist headDist 50 1 0 2 sW5 3 2 2
    (by decide) (by decide) (by decide) (by decide)
  ⟨h.1, h.2.1, h.2.2.2.2.2.1⟩

/-- An error of the inner neighbor fold of `search` is the result of an
actual invocation of the distance function on a stored vector against the
query: the fold aborts at the first failing invocation. -/
theorem nbFold_error_dist {s : GState K} {d : DistF} {target : Vec}
    {k ef : ℕ} {curNbrs : List (K × ℕ)} :
    ∀ (nks : List K) (res cands : List (ℕ × ℚ)) (vis : List K)
      (improved : Bool) {e : Err},
      nbFold s d target k ef curNbrs nks res cands vis improved = .error e →
      ∃ j, d (getRec s j).value target = .error e := by
  intro nks
  induction nks with
  | nil =>
      intro res cands vis improved e heq
      simp [nbFold] at heq
  | cons nk rest ih =>
      intro res cands vis improved e heq
      simp only [nbFold] at heq
      split at heq
      · exact ih _ _ _ _ heq
      · rename_i j hlk
        split at heq
        · exact ih _ _ _ _ heq
        · split at heq
          · rename_i e' hde
            injection heq with heq
            exact ⟨j, heq ▸ hde⟩
          · exact ih _ _ _ _ heq

/-- An error of the frontier loop of `search` is the model-only fuel
marker or the result of an actual distance-function invocation. -/
theorem searchLoop_error_dist {s : GState K} {d : DistF} {target : Vec}
    {k ef : ℕ} :
    ∀ (fuel : ℕ) (cands res : List (ℕ × ℚ)) (vis : List K) {e : Err},
      searchLoop s d target k ef fuel cands res vis = .error e →
      e = Err.fuel ∨ ∃ j, d (getRec s j).value target = .error e := by
  intro fuel
  induction fuel with
  | zero =>
      intro cands res vis e heq
      simp only [searchLoop] at heq
      injection heq with heq
      exact Or.inl heq.symm
  | succ fuel ih =>
      intro cands res vis e heq
      simp only [searchLoop] at heq
      split at heq
      · simp at heq
      · split at heq
        · rename_i e' hnb
          injection heq with heq
          exact Or.inr (nbFold_error_dist _ _ _ _ _ (heq ▸ hnb))
        · split at heq
          · simp at heq
          · exact ih _ _ _ heq

/-- An error of `search` is the nil-entry marker, the model-only fuel
marker, or the result of an actual invocation of the distance function on
a stored vector against the query. -/
theorem searchF_error_dist {f : ℕ} {s : GState K} {startO : Option ℕ}
    {k ef : ℕ} {target : Vec} {d : DistF} {e : Err}
    (h : searchF f s startO k ef target d = .error e) :
    e = Err.nilNode ∨ e = Err.fuel ∨
      ∃ j, d (getRec s j).value target = .error e := by
  simp only [searchF] at h
  split at h
  · injection h with h
    exact Or.inl h.symm
  · rename_i n0
    split at h
    · rename_i e' hd
      injection h with h
      exact Or.inr (Or.inr ⟨n0, h ▸ hd⟩)
    · exact Or.inr (searchLoop_error_dist f _ _ _ h)

/-- One non-returning transition of the per-layer loop of `Add` (the loop
state is the remaining layer-index list, the elevator key, the
`wasUpdated` flag and the graph state): seeding an empty layer, a full
install at a layer at or below the insert level, or a search-only pass
above it. -/
inductive LoopStep (cos d : DistF) (f m ef : ℕ) (k : K) (v : Vec)
    (lvl : ℕ) :
    List ℕ × Option K × Bool × GState K →
    List ℕ × Option K × Bool × GState K → Prop
  | seed (i : ℕ) (rest : List ℕ) (elev : Option K) (wu : Bool)
      (s : GState K) :
      (s.layers.getD i []).isEmpty = true →
      LoopStep cos d f m ef k v lvl (i :: rest, elev, wu, s)
        (rest, elev, wu,
          setLayer (pushNode s ⟨k, v, []⟩).1 i
            [(k, (pushNode s ⟨k, v, []⟩).2)])
  | install (i : ℕ) (rest : List ℕ) (elev : Option K) (wu wuHere : Bool)
      (s s₂ s₄ : GState K) (bid : ℕ) (q : ℚ) (nrest : List (ℕ × ℚ)) :
      (s.layers.getD i []).isEmpty = false →
      searchF f s (match elev with
        | none => (s.layers.getD i []).head?.map Prod.snd
        | some ek => lookupA (s.layers.getD i []) ek) m ef v d
        = .ok ((bid, q) :: nrest) →
      i ≤ lvl →
      updStep cos f m i k s = (s₂, wuHere, none) →
      edgesLoop cos f d m (pushNode s₂ ⟨k, v, []⟩).2 ((bid, q) :: nrest)
        (setLayer (pushNode s₂ ⟨k, v, []⟩).1 i
          (insertA ((pushNode s₂ ⟨k, v, []⟩).1.layers.getD i []) k
            (pushNode s₂ ⟨k, v, []⟩).2)) = (s₄, none) →
      LoopStep cos d f m ef k v lvl (i :: rest, elev, wu, s)
        (rest, some (getRec s bid).key, wu || wuHere, s₄)
  | pass (i : ℕ) (rest : List ℕ) (elev : Option K) (wu : Bool)
      (s : GState K) (bid : ℕ) (q : ℚ) (nrest : List (ℕ × ℚ)) :
      (s.layers.getD i []).isEmpty = false →
      searchF f s (match elev with
        | none => (s.layers.getD i []).head?.map Prod.snd
        | some ek => lookupA (s.layers.getD i []) ek) m ef v d
        = .ok ((bid, q) :: nrest) →
      ¬ i ≤ lvl →
      LoopStep cos d f m ef k v lvl (i :: rest, elev, wu, s)
        (rest, some (getRec s bid).key, wu, s)

/-- Loop states reached during the top-down per-layer loop of `Add`. -/
def LoopReach (cos d : DistF) (f m ef : ℕ) (k : K) (v : Vec) (lvl : ℕ) :
    List ℕ × Option K × Bool × GState K →
    List ℕ × Option K × Bool × GState K → Prop :=
  Relation.ReflTransGen (LoopStep cos d f m ef k v lvl)

/-- Each loop transition preserves the value computed by `layerLoop`:
the loop is tail-recursive, so the rest of the run from the new loop
state is the whole result. -/
theorem layerLoop_of_step {cos d : DistF} {f m ef : ℕ} {k : K} {v : Vec}
    {lvl : ℕ} {c₁ c₂ : List ℕ × Option K × Bool × GState K}
    (h : LoopStep cos d f m ef k v lvl c₁ c₂) :
    layerLoop cos f d m ef k v lvl c₁.1 c₁.2.1 c₁.2.2.1 c₁.2.2.2
      = layerLoop cos f d m ef k v lvl c₂.1 c₂.2.1 c₂.2.2.1 c₂.2.2.2 := by
  cases h with
  | seed i rest elev wu s hemp =>
      show layerLoop cos f d m ef k v lvl (i :: rest) elev wu s
        = layerLoop cos f d m ef k v lvl rest elev wu
            (setLayer (pushNode s ⟨k, v, []⟩).1 i
              [(k, (pushNode s ⟨k, v, []⟩).2)])
      simp only [layerLoop]
      split
      · rfl
      · rename_i h
        exact absurd hemp h
  | install i rest elev wu wuHere s s₂ s₄ bid q nrest hemp hsr hil hupd hedge =>
      show layerLoop cos f d m ef k v lvl (i :: rest) elev wu s
        = layerLoop cos f d m ef k v lvl rest (some (getRec s bid).key)
            (wu || wuHere) s₄
      simp only [layerLoop]
      split
      · rename_i h
        rw [hemp] at h
        exact absurd h (by simp)
      · split
        · rename_i e' h
          rw [hsr] at h
          simp at h
        · rename_i h
          rw [hsr] at h
          simp at h
        · rename_i bid' q' nrest' h
          rw [hsr] at h
          injection h with h
          injection h with h1 h2
          have hb : bid = bid' := congrArg Prod.fst h1
          have hq : q = q' := congrArg Prod.snd h1
          subst hb
          subst hq
          subst h2
          split
          · rename_i s₂' wuHere' e' h
            rw [hupd] at h
            have h3 := congrArg (fun t => t.2.2) h
            simp at h3
          · rename_i s₂' wuHere' h
            rw [hupd] at h
            have hs : s₂ = s₂' := congrArg (fun t => t.1) h
            have hw : wuHere = wuHere' := congrArg (fun t => t.2.1) h
            subst hs
            subst hw
            split
            · rename_i s₄' e' h2
              rw [hedge] at h2
              have h3 := congrArg (fun t => t.2) h2
              simp at h3
            · rename_i s₄' h2
              rw [hedge] at h2
              have hs4 : s₄ = s₄' := congrArg (fun t => t.1) h2
              subst hs4
              rfl
  | pass i rest elev wu s bid q nrest hemp hsr hil =>
      show layerLoop cos f d m ef k v lvl (i :: rest) elev wu s
        = layerLoop cos f d m ef k v lvl rest (some (getRec s bid).key) wu s
      simp only [layerLoop]
      split
      · rename_i h
        rw [hemp] at h
        exact absurd h (by simp)
      · split
        · rename_i e' h
          rw [hsr] at h
          simp at h
        · rename_i h
          rw [hsr] at h
          simp at h
        · rename_i bid' q' nrest' h
          rw [hsr] at h
          injection h with h
          injection h with h1 h2
          have hb : bid = bid' := congrArg Prod.fst h1
          subst hb
          subst h2
          rfl

theorem layerLoop_of_reach {cos d : DistF} {f m ef : ℕ} {k : K} {v : Vec}
    {lvl : ℕ} {c₁ c₂ : List ℕ × Option K × Bool × GState K}
    (h : LoopReach cos d f m ef k v lvl c₁ c₂) :
    layerLoop cos f d m ef k v lvl c₁.1 c₁.2.1 c₁.2.2.1 c₁.2.2.2
      = layerLoop cos f d m ef k v lvl c₂.1 c₂.2.1 c₂.2.2.1 c₂.2.2.2 := by
  induction h with
  | refl => rfl
  | tail _ hstep ih => exact ih.trans (layerLoop_of_step hstep)

/-- C3 amended theorem: for every call to `Add` (any start state, any
configuration, any drawn level), if the per-layer search errs at any
point of the top-down loop — at any layer of any stack, whatever mutations
the earlier layers already performed — then `Add` returns exactly that
error, and the graph state it returns is the state at which the failing
search ran: nothing is mutated past the point of failure. The error is
the result of an actual invocation of the configured distance function on
a stored vector against the inserted one (or the nil-entry marker of a
failed elevator lookup, or the model-only fuel marker). Errors raised
during edge installation are instead discarded by the source — see the
counterexample. -/
theorem c3_search_error_propagates (cfg : Config K) (f : ℕ) (s : GState K)
    (k : K) (v : Vec) (lvl i : ℕ) (rest : List ℕ) (elev₁ : Option K)
    (wu₁ : Bool) (s₁ : GState K) (e : Err)
    (hne : (s₁.layers.getD i []).isEmpty = false)
    (hsr : searchF f s₁ (match elev₁ with
        | none => (s₁.layers.getD i []).head?.map Prod.snd
        | some ek => lookupA (s₁.layers.getD i []) ek) cfg.M
        cfg.efConstruction v cfg.dist = .error e)
    (hreach : LoopReach cfg.cos cfg.dist f cfg.M cfg.efConstruction k v lvl
      ((List.range (extendLayers s lvl).layers.length).reverse, none, false,
        extendLayers s lvl)
      (i :: rest, elev₁, wu₁, s₁)) :
    addNodeF cfg f s k v lvl = (s₁, some e) ∧
    (e = Err.nilNode ∨ e = Err.fuel ∨
      ∃ j, cfg.dist (getRec s₁ j).value v = .error e) := by
  have hloop' : layerLoop cfg.cos f cfg.dist cfg.M cfg.efConstruction k v lvl
      (List.range (extendLayers s lvl).layers.length).reverse none false
      (extendLayers s lvl)
      = layerLoop cfg.cos f cfg.dist cfg.M cfg.efConstruction k v lvl
        (i :: rest) elev₁ wu₁ s₁ := layerLoop_of_reach hreach
  have hfail : layerLoop cfg.cos f cfg.dist cfg.M cfg.efConstruction k v lvl
      (i :: rest) elev₁ wu₁ s₁ = (s₁, wu₁, some e) := by
    simp only [layerLoop, hne, Bool.false_eq_true, if_false]
    rw [hsr]
  refine ⟨?_, searchF_error_dist hsr⟩
  simp only [addNodeF, hloop', hfail]

/-- A one-node state whose stored vector has length 2, paired with
`cfgFail`, whose distance function errors on a (length-2, length-1)
vector pair. -/
def sW3 : GState ℕ := ⟨[⟨1, [2, 0], []⟩], [[(1, 0)]]⟩

/-- C3 amended witness: adding key 2 with the length-1 vector `[1]` to
`sW3` fails the very first search of the loop (here at its initial loop
state), and `Add` returns the distance error with the state at the point
of failure. -/
theorem c3_search_error_propagates_witness :
    addNodeF cfgFail 50 sW3 2 [1] 0
      = (extendLayers sW3 0, some (Err.distFail 7)) ∧
    (Err.distFail 7 = Err.nilNode ∨ Err.distFail 7 = Err.fuel ∨
      ∃ j, cfgFail.dist (getRec (extendLayers sW3 0) j).value [1]
        = .error (Err.distFail 7)) :=
  c3_search_error_propagates cfgFail 50 sW3 2 [1] 0 0 [] none false
    (extendLayers sW3 0) (Err.distFail 7) (by decide) (by decide)
    (by rw [(by decide : (List.range
          (extendLayers sW3 0).layers.length).reverse = [0])]
        exact Relation.ReflTransGen.refl)

/-- A distance function that never errors (an everywhere-defined
`DistanceFunc`, as `CosineDistance`/`EuclideanDistance` on well-formed
input). -/
def TotalD (d : DistF) : Prop := ∀ a b, ∃ q, d a b = Except.ok q

/-- Every node record in the arena has at most `m` neighbors. -/
def AllDeg (m : ℕ) (s : GState K) : Prop :=
  ∀ i, (getRec s i).nbrs.length ≤ m

/-- The side condition of the degree-preservation lemma on `Act`: the cap
is `m` and any pluggable distance function carried by the act is total. -/
def ActOK (m : ℕ) : Act K → Prop
  | .addNbr _ _ m₀ d => m₀ = m ∧ TotalD d
  | .replen _ m₀ => m₀ = m
  | .replOut _ m₀ _ => m₀ = m
  | .replIn _ m₀ _ => m₀ = m

theorem length_eraseA_lt {l : List (K × ℕ)} {k : K} {v : ℕ}
    (hm : (k, v) ∈ l) : (eraseA l k).length < l.length := by
  induction l with
  | nil => simp at hm
  | cons q rest ih =>
      rcases q with ⟨k₀, v₀⟩
      by_cases hk : k₀ = k
      · have := length_eraseA_le rest k
        simp [eraseA, hk]; omega
      · rcases List.mem_cons.mp hm with he | hr
        · rw [Prod.mk.injEq] at he; exact absurd he.1.symm hk
        · have := ih hr
          simp [eraseA, hk]; omega

/-- With a total distance function the worst-scan never errors, its result
is an entry of the scanned list (or the seed accumulator), and it is `some`
whenever there was anything to scan. -/
theorem findWorst_total {d : DistF} (hd : TotalD d) (s : GState K)
    (c : Vec) :
    ∀ (l : List (K × ℕ)) (acc : Option (K × ℕ × ℚ)),
      ∃ out, findWorst d s c l acc = Except.ok out ∧
        (∀ r, out = some r → ((r.1, r.2.1) ∈ l ∨ acc = some r)) ∧
        ((l ≠ [] ∨ acc.isSome) → out.isSome) := by
  intro l
  induction l with
  | nil =>
      intro acc
      refine ⟨acc, rfl, fun r hr => Or.inr hr, ?_⟩
      rintro (h | h)
      · exact absurd rfl h
      · exact h
  | cons p rest ih =>
      rcases p with ⟨k, j⟩
      intro acc
      obtain ⟨q, hq⟩ := hd (getRec s j).value c
      cases acc with
      | none =>
          obtain ⟨out, h1, h2, h3⟩ := ih (some (k, j, q))
          refine ⟨out, ?_, ?_, ?_⟩
          · simp only [findWorst, hq]; exact h1
          · intro r hr
            rcases h2 r hr with hm | he
            · exact Or.inl (List.mem_cons_of_mem _ hm)
            · injection he with he
              exact Or.inl (he ▸ List.mem_cons_self _ _)
          · intro _; exact h3 (Or.inr rfl)
      | some w =>
          rcases w with ⟨wk, wj, wq⟩
          by_cases hgt : q > wq
          · obtain ⟨out, h1, h2, h3⟩ := ih (some (k, j, q))
            refine ⟨out, ?_, ?_, ?_⟩
            · simp only [findWorst, hq, if_pos hgt]; exact h1
            · intro r hr
              rcases h2 r hr with hm | he
              · exact Or.inl (List.mem_cons_of_mem _ hm)
              · injection he with he
                exact Or.inl (he ▸ List.mem_cons_self _ _)
            · intro _; exact h3 (Or.inr rfl)
          · obtain ⟨out, h1, h2, h3⟩ := ih (some (wk, wj, wq))
            refine ⟨out, ?_, ?_, ?_⟩
            · simp only [findWorst, hq, if_neg hgt]; exact h1
            · intro r hr
              rcases h2 r hr with hm | he
              · exact Or.inl (List.mem_cons_of_mem _ hm)
              · exact Or.inr he
            · intro _; exact h3 (Or.inr rfl)

theorem allDeg_modify_eraseA {m : ℕ} {s : GState K} {i : ℕ} {k : K}
    (hs : AllDeg m s) :
    AllDeg m (modifyNbrs s i (fun l => eraseA l k)) := by
  by_cases hi : i < s.arena.length
  · intro j
    by_cases hj : j = i
    · subst hj
      rw [getRec_modifyNbrs_self hi]
      exact le_trans (length_eraseA_le _ _) (hs j)
    · rw [getRec_modifyNbrs_ne hj]; exact hs j
  · rw [getRec_modifyNbrs_oob (Nat.le_of_not_lt hi)]; exact hs

theorem allDeg_setLayer {m : ℕ} {s : GState K} {i : ℕ} {l : List (K × ℕ)}
    (hs : AllDeg m s) : AllDeg m (setLayer s i l) := by
  intro j; rw [getRec_setLayer]; exact hs j

theorem allDeg_pushNode {m : ℕ} {s : GState K} {r : NodeRec K}
    (hs : AllDeg m s) (hr : r.nbrs.length ≤ m) :
    AllDeg m (pushNode s r).1 := by
  intro i
  rcases lt_trichotomy i s.arena.length with h | h | h
  · rw [getRec_pushNode_lt h]; exact hs i
  · have he : getRec (pushNode s r).1 i = r := by
      rw [h]; exact getRec_pushNode_self s r
    rw [he]; exact hr
  · have hlen : (pushNode s r).1.arena.length ≤ i := by
      rw [pushNode_arena_length]; omega
    have he : getRec (pushNode s r).1 i = ⟨default, [], []⟩ :=
      List.getD_eq_default _ _ hlen
    rw [he]; exact Nat.zero_le m

/-- Degree preservation through the `addNeighbor`/`replenish` cluster:
with a total cosine function and total act-carried distance functions,
every run from a state obeying the `m`-degree bound ends in a state
obeying it — eviction always succeeds, so the insert never leaves a map
above `m` entries. -/
theorem execAct_deg (cos : DistF) (hc : TotalD cos) (m : ℕ) :
    ∀ (f : ℕ) (a : Act K) (s : GState K), ActOK m a → AllDeg m s →
      AllDeg m (execAct cos f a s).1 := by
  intro f
  induction f with
  | zero => intro a s _ hs; exact hs
  | succ f ih =>
      intro a s hok hs
      cases a with
      | addNbr nId tId m₀ d =>
          obtain ⟨hm, hd⟩ := hok
          have hm' : m = m₀ := hm.symm
          subst hm' 
          simp only [execAct]
          split
          · rename_i hle
            intro j
            by_cases hj : j = nId
            · subst hj; exact hle
            · rw [getRec_modifyNbrs_ne hj]; exact hs j
          · rename_i hgt
            have hnr : nId < s.arena.length := by
              by_contra hge
              rw [getRec_modifyNbrs_oob (Nat.le_of_not_lt hge)] at hgt
              exact hgt (le_trans (Nat.le_of_lt_succ
                (Nat.lt_succ_of_le (hs nId))) (le_refl m))
            have hlen₁ : (getRec (modifyNbrs s nId
                (fun l => insertA l (getRec s tId).key tId)) nId).nbrs.length
                ≤ m + 1 := by
              rw [getRec_modifyNbrs_self hnr]
              exact le_trans (length_insertA_le _ _ _)
                (Nat.succ_le_succ (hs nId))
            split
            · rename_i e heq
              exfalso
              obtain ⟨out, h1, _, _⟩ := findWorst_total hd _ _
                (getRec (modifyNbrs s nId
                  (fun l => insertA l (getRec s tId).key tId)) nId).nbrs none
              rw [heq] at h1
              exact Except.noConfusion h1
            · rename_i heq
              exfalso
              obtain ⟨out, h1, _, h3⟩ := findWorst_total hd _ _
                (getRec (modifyNbrs s nId
                  (fun l => insertA l (getRec s tId).key tId)) nId).nbrs none
              rw [heq] at h1
              injection h1 with h1
              have hne : (getRec (modifyNbrs s nId
                  (fun l => insertA l (getRec s tId).key tId)) nId).nbrs
                  ≠ [] := by
                intro hnil
                rw [hnil] at hgt
                exact hgt (by simp)
              have := h3 (Or.inl hne)
              rw [← h1] at this
              exact Bool.noConfusion this
            · rename_i wk wj wq heq
              obtain ⟨out, h1, h2, _⟩ := findWorst_total hd _ _
                (getRec (modifyNbrs s nId
                  (fun l => insertA l (getRec s tId).key tId)) nId).nbrs none
              rw [heq] at h1
              injection h1 with h1
              have hmem : (wk, wj) ∈ (getRec (modifyNbrs s nId
                  (fun l => insertA l (getRec s tId).key tId)) nId).nbrs := by
                rcases h2 (wk, wj, wq) h1.symm with hmm | hcontra
                · exact hmm
                · exact Option.noConfusion hcontra
              refine ih _ _ rfl ?_
              have hs₂ : AllDeg m (modifyNbrs (modifyNbrs s nId
                  (fun l => insertA l (getRec s tId).key tId)) nId
                  (fun l => eraseA l wk)) := by
                intro j
                by_cases hj : j = nId
                · subst hj
                  rw [getRec_modifyNbrs_self
                    (by rw [modifyNbrs_arena_length]; exact hnr)]
                  exact Nat.le_of_lt_succ
                    (Nat.lt_of_lt_of_le (length_eraseA_lt hmem) hlen₁)
                · rw [getRec_modifyNbrs_ne hj, getRec_modifyNbrs_ne hj]
                  exact hs j
              exact allDeg_modify_eraseA hs₂
      | replen nId m₀ =>
          have hok' : m = m₀ := hok.symm
          subst hok' 
          simp only [execAct]
          split
          · exact hs
          · exact ih _ s rfl hs
      | replOut nId m₀ outer =>
          have hok' : m = m₀ := hok.symm
          subst hok' 
          simp only [execAct]
          cases outer with
          | nil => exact hs
          | cons p rest =>
              rcases p with ⟨k₁, j₁⟩
              simp only
              split
              · rename_i s₁ e heq
                have h := ih (.replIn nId m (getRec s j₁).nbrs) s rfl hs
                rw [heq] at h
                exact h
              · rename_i s₁ heq
                have h := ih (.replIn nId m (getRec s j₁).nbrs) s rfl hs
                rw [heq] at h
                split
                · exact h
                · exact ih (.replOut nId m rest) s₁ rfl h
      | replIn nId m₀ inner =>
          have hok' : m = m₀ := hok.symm
          subst hok' 
          simp only [execAct]
          cases inner with
          | nil => exact hs
          | cons p rest =>
              rcases p with ⟨k₂, j₂⟩
              simp only
              split
              · exact ih _ s rfl hs
              · split
                · exact ih _ s rfl hs
                · split
                  · rename_i s₁ heq
                    have h := ih (.addNbr nId j₂ m cos) s ⟨rfl, hc⟩ hs
                    rw [heq] at h
                    exact h
                  · rename_i s₁ e hne heq
                    have h := ih (.addNbr nId j₂ m cos) s ⟨rfl, hc⟩ hs
                    rw [heq] at h
                    split
                    · exact h
                    · exact ih (.replIn nId m rest) s₁ rfl h

theorem isoLoop_deg (cos : DistF) (hc : TotalD cos) (f : ℕ) (nKey : K)
    (m : ℕ) :
    ∀ (l : List (K × ℕ)) (s : GState K), AllDeg m s →
      AllDeg m (isoLoop cos f nKey m l s).1 := by
  intro l
  induction l with
  | nil => intro s hs; exact hs
  | cons p rest ih =>
      intro s hs
      rcases p with ⟨k₁, j₁⟩
      simp only [isoLoop]
      have hs₁ : AllDeg m (modifyNbrs s j₁ (fun l => eraseA l nKey)) :=
        allDeg_modify_eraseA hs
      split
      · rename_i s₂ e heq
        have h := execAct_deg cos hc m f (.replen j₁ m)
          (modifyNbrs s j₁ (fun l => eraseA l nKey)) rfl hs₁
        rw [heq] at h
        exact h
      · rename_i s₂ heq
        have h := execAct_deg cos hc m f (.replen j₁ m)
          (modifyNbrs s j₁ (fun l => eraseA l nKey)) rfl hs₁
        rw [heq] at h
        exact ih s₂ h

theorem isolateF_deg (cos : DistF) (hc : TotalD cos) (f : ℕ)
    (s : GState K) (nId m : ℕ) (hs : AllDeg m s) :
    AllDeg m (isolateF cos f s nId m).1 :=
  isoLoop_deg cos hc f _ m _ s hs

theorem edgesLoop_deg (cos d : DistF) (hc : TotalD cos) (hd : TotalD d)
    (f m newId : ℕ) :
    ∀ (l : List (ℕ × ℚ)) (s : GState K), AllDeg m s →
      AllDeg m (edgesLoop cos f d m newId l s).1 := by
  intro l
  induction l with
  | nil => intro s hs; exact hs
  | cons p rest ih =>
      intro s hs
      rcases p with ⟨mid, q⟩
      simp only [edgesLoop]
      split
      · rename_i s₁ heq
        have h := execAct_deg cos hc m f (.addNbr mid newId m d) s ⟨rfl, hd⟩ hs
        rw [heq] at h
        exact h
      · rename_i s₁ e hne heq
        have h₁ := execAct_deg cos hc m f (.addNbr mid newId m d) s ⟨rfl, hd⟩ hs
        rw [heq] at h₁
        split
        · rename_i s₂ heq₂
          have h₂ := execAct_deg cos hc m f (.addNbr newId mid m d) s₁
            ⟨rfl, hd⟩ h₁
          rw [heq₂] at h₂
          exact h₂
        · rename_i s₂ e₂ hne₂ heq₂
          have h₂ := execAct_deg cos hc m f (.addNbr newId mid m d) s₁
            ⟨rfl, hd⟩ h₁
          rw [heq₂] at h₂
          exact ih s₂ h₂

theorem updStep_deg (cos : DistF) (hc : TotalD cos) (f m i : ℕ) (kk : K)
    (s : GState K) (hs : AllDeg m s) :
    AllDeg m (updStep cos f m i kk s).1 := by
  simp only [updStep]
  split
  · exact hs
  · rename_i oldId heq
    have h := isolateF_deg cos hc f
      (setLayer s i (eraseA (s.layers.getD i []) kk)) oldId m
      (allDeg_setLayer hs)
    rcases hiso : isolateF cos f
      (setLayer s i (eraseA (s.layers.getD i []) kk)) oldId m with ⟨s₂, e⟩
    rw [hiso] at h
    exact h

theorem layerLoop_deg (cos d : DistF) (hc : TotalD cos) (hd : TotalD d)
    (f m ef : ℕ) (k : K) (v : Vec) (lvl : ℕ) :
    ∀ (idxs : List ℕ) (elev : Option K) (wu : Bool) (s : GState K),
      AllDeg m s →
      AllDeg m (layerLoop cos f d m ef k v lvl idxs elev wu s).1 := by
  intro idxs
  induction idxs with
  | nil => intro elev wu s hs; exact hs
  | cons i rest ih =>
      intro elev wu s hs
      simp only [layerLoop]
      split
      · exact ih _ _ _ (allDeg_setLayer (allDeg_pushNode hs (Nat.zero_le m)))
      · split
        · exact hs
        · exact hs
        · rename_i bid q nrest heq
          split
          · split
            · rename_i s₂ wuHere e heq₂
              have h := updStep_deg cos hc f m i k s hs
              rw [heq₂] at h
              exact h
            · rename_i s₂ wuHere heq₂
              have h₂ := updStep_deg cos hc f m i k s hs
              rw [heq₂] at h₂
              split
              · rename_i s₄ e heq₄
                have h₄ := edgesLoop_deg cos d hc hd f m
                  (pushNode s₂ ⟨k, v, []⟩).2 ((bid, q) :: nrest)
                  (setLayer (pushNode s₂ ⟨k, v, []⟩).1 i
                    (insertA ((pushNode s₂ ⟨k, v, []⟩).1.layers.getD i []) k
                      (pushNode s₂ ⟨k, v, []⟩).2))
                  (allDeg_setLayer (allDeg_pushNode h₂ (Nat.zero_le m)))
                rw [heq₄] at h₄
                exact h₄
              · rename_i s₄ heq₄
                have h₄ := edgesLoop_deg cos d hc hd f m
                  (pushNode s₂ ⟨k, v, []⟩).2 ((bid, q) :: nrest)
                  (setLayer (pushNode s₂ ⟨k, v, []⟩).1 i
                    (insertA ((pushNode s₂ ⟨k, v, []⟩).1.layers.getD i []) k
                      (pushNode s₂ ⟨k, v, []⟩).2))
                  (allDeg_setLayer (allDeg_pushNode h₂ (Nat.zero_le m)))
                rw [heq₄] at h₄
                exact ih _ _ _ h₄
          · exact ih _ _ _ hs

theorem allDeg_extendLayers {m : ℕ} {s : GState K} {lvl : ℕ}
    (hs : AllDeg m s) : AllDeg m (extendLayers s lvl) := hs

theorem addNodeF_deg (cfg : Config K) (hd : TotalD cfg.dist)
    (hc : TotalD cfg.cos) (f : ℕ) (s : GState K) (k : K) (v : Vec)
    (lvl : ℕ) (hs : AllDeg cfg.M s) :
    AllDeg cfg.M (addNodeF cfg f s k v lvl).1 := by
  simp only [addNodeF]
  have h := layerLoop_deg cfg.cos cfg.dist hc hd f cfg.M cfg.efConstruction
    k v lvl (List.range (extendLayers s lvl).layers.length).reverse none false
    (extendLayers s lvl) (allDeg_extendLayers hs)
  split
  · rename_i s₂ e heq
    rw [heq] at h
    exact h
  · rename_i s₂ wu heq
    rw [heq] at h
    split
    · split <;> exact h
    · split <;> exact h

theorem delLoop_deg (cos : DistF) (hc : TotalD cos) (f m : ℕ) (k : K) :
    ∀ (idxs : List ℕ) (b : Bool) (s : GState K), AllDeg m s →
      AllDeg m (delLoop cos f m k idxs b s).1 := by
  intro idxs
  induction idxs with
  | nil => intro b s hs; exact hs
  | cons i rest ih =>
      intro b s hs
      simp only [delLoop]
      split
      · exact ih _ _ hs
      · rename_i nid heq
        split
        · rename_i s₂ e heq₂
          have h := isolateF_deg cos hc f
            (setLayer s i (eraseA (s.layers.getD i []) k)) nid m
            (allDeg_setLayer hs)
          rw [heq₂] at h
          exact h
        · rename_i s₂ heq₂
          have h := isolateF_deg cos hc f
            (setLayer s i (eraseA (s.layers.getD i []) k)) nid m
            (allDeg_setLayer hs)
          rw [heq₂] at h
          exact ih _ _ h

theorem deleteF_deg (cfg : Config K) (hc : TotalD cfg.cos) (f : ℕ)
    (s : GState K) (k : K) (hs : AllDeg cfg.M s) :
    AllDeg cfg.M (deleteF cfg f s k).1 := by
  simp only [deleteF]
  split
  · exact hs
  · exact delLoop_deg cfg.cos hc f cfg.M k _ _ s hs

theorem stepR_deg (cfg : Config K) (ml : ℝ) (hd : TotalD cfg.dist)
    (hc : TotalD cfg.cos) {s s₁ : GState K} (hstep : StepR cfg ml s s₁)
    (hs : AllDeg cfg.M s) : AllDeg cfg.M s₁ := by
  cases hstep with
  | add k v lvl f s s₁ hcan hadd =>
      have h := addNodeF_deg cfg hd hc f s k v lvl hs
      rw [hadd] at h
      exact h
  | del k f b s s₁ hdel =>
      have h := deleteF_deg cfg hc f s k hs
      rw [hdel] at h
      exact h

/-- From the empty graph, completed public operations under total distance
functions keep every degree at most `M`. -/
theorem reachable_deg (cfg : Config K) (ml : ℝ) (hd : TotalD cfg.dist)
    (hc : TotalD cfg.cos) {s : GState K} (hr : Reachable cfg ml s) :
    AllDeg cfg.M s := by
  induction hr with
  | refl =>
      intro i
      have he : getRec (initState : GState K) i = ⟨default, [], []⟩ :=
        List.getD_eq_default _ _ (Nat.zero_le i)
      rw [he]
      exact Nat.zero_le _
  | tail _ hstep ih => exact stepR_deg cfg ml hd hc hstep ih

/-- C4 amended theorem: when the configured distance function and the
cosine distance used by `replenish` are total (never error), every node of
every graph state reachable by completed public operations has at most `M`
neighbors: the worst-scan of `addNeighbor` then always succeeds, so every
insert that overflows the map is followed by an eviction. (With a fallible
distance function the bound can be broken by a completed `Add` — see the
counterexample.) -/
theorem c4_degree_bound_amended (cfg : Config K) (ml : ℝ) (s : GState K)
    (hd : TotalD cfg.dist) (hc : TotalD cfg.cos)
    (hr : Reachable cfg ml s) (i : ℕ) :
    (getRec s i).nbrs.length ≤ cfg.M :=
  reachable_deg cfg ml hd hc hr i

/-- C4 amended witness: in the state reached by `Add(1,[5]); Add(1,[7])`
under the total-distance configuration, node 1 respects the degree cap. -/
theorem c4_degree_bound_amended_witness :
    (getRec stA2 1).nbrs.length ≤ cfgTot.M :=
  c4_degree_bound_amended cfgTot (1 / 2) stA2
    (fun a b => ⟨_, rfl⟩) (fun a b => ⟨_, rfl⟩) reach_stA2 1

theorem lookupA_append_some {l₁ l₂ : List (K × ℕ)} {k : K} {v : ℕ}
    (h : lookupA l₁ k = some v) : lookupA (l₁ ++ l₂) k = some v := by
  induction l₁ with
  | nil => simp [lookupA] at h
  | cons p rest ih =>
      rcases p with ⟨k₀, v₀⟩
      by_cases hk : k₀ = k <;> simp [lookupA, hk] at h ⊢
      · exact h
      · exact ih h

theorem lookupA_append_none {l₁ l₂ : List (K × ℕ)} {k : K}
    (h : lookupA l₁ k = none) : lookupA (l₁ ++ l₂) k = lookupA l₂ k := by
  induction l₁ with
  | nil => rfl
  | cons p rest ih =>
      rcases p with ⟨k₀, v₀⟩
      by_cases hk : k₀ = k
      · simp [lookupA, hk] at h
      · simp only [List.cons_append, lookupA, if_neg hk] at h ⊢
        exact ih h

theorem lookupA_of_mem_nodup {L : List (K × ℕ)} {k : K} {v : ℕ}
    (hnd : (L.map Prod.fst).Nodup) (hm : (k, v) ∈ L) :
    lookupA L k = some v := by
  induction L with
  | nil => simp at hm
  | cons p rest ih =>
      rcases p with ⟨k₀, v₀⟩
      simp only [List.map_cons, List.nodup_cons] at hnd
      rcases List.mem_cons.mp hm with he | hr
      · rw [Prod.mk.injEq] at he
        simp [lookupA, he.1.symm, he.2]
      · have hk : k₀ ≠ k := by
          intro he
          subst he
          exact hnd.1 (List.mem_map.mpr ⟨(k₀, v), hr, rfl⟩)
        simp only [lookupA, if_neg hk]
        exact ih hnd.2 hr

theorem fst_eq_of_snd_nodup {L : List (K × ℕ)}
    (hnd : (L.map Prod.snd).Nodup) {k₁ k₂ : K} {v : ℕ}
    (h1 : (k₁, v) ∈ L) (h2 : (k₂, v) ∈ L) : k₁ = k₂ := by
  induction L with
  | nil => simp at h1
  | cons p rest ih =>
      simp only [List.map_cons, List.nodup_cons] at hnd
      rcases List.mem_cons.mp h1 with e1 | m1 <;>
        rcases List.mem_cons.mp h2 with e2 | m2
      · exact congrArg Prod.fst (e1.trans e2.symm)
      · exfalso
        have hv : v ∈ rest.map Prod.snd := List.mem_map.mpr ⟨(k₂, v), m2, rfl⟩
        rw [← e1] at hnd
        exact hnd.1 hv
      · exfalso
        have hv : v ∈ rest.map Prod.snd := List.mem_map.mpr ⟨(k₁, v), m1, rfl⟩
        rw [← e2] at hnd
        exact hnd.1 hv
      · exact ih hnd.2 m1 m2

theorem length_le_of_nodup_subset {α : Type} [DecidableEq α] :
    ∀ {l₁ l₂ : List α}, l₁.Nodup → (∀ x ∈ l₁, x ∈ l₂) →
      l₁.length ≤ l₂.length := by
  intro l₁
  induction l₁ with
  | nil => intro l₂ _ _; simp
  | cons a t ih =>
      intro l₂ hnd hsub
      have ha : a ∈ l₂ := hsub a (List.mem_cons_self _ _)
      have ht : ∀ x ∈ t, x ∈ l₂.erase a := by
        intro x hx
        refine (List.mem_erase_of_ne ?_).mpr (hsub x (List.mem_cons_of_mem _ hx))
        intro hxa
        exact (List.nodup_cons.mp hnd).1 (hxa ▸ hx)
      have h1 := ih (List.nodup_cons.mp hnd).2 ht
      have h2 := List.length_erase_of_mem ha
      have h3 := List.length_pos_of_mem ha
      simp only [List.length_cons]
      omega

theorem insD_perm (x : ℕ × ℚ) : ∀ l : List (ℕ × ℚ), (insD x l).Perm (x :: l) := by
  intro l
  induction l with
  | nil => exact List.Perm.refl _
  | cons y ys ih =>
      by_cases h : x.2 < y.2
      · simp only [insD, if_pos h]
        exact List.Perm.refl _
      · simp only [insD, if_neg h]
        exact (List.Perm.cons y ih).trans (List.Perm.swap x y ys)

theorem mem_insD {x e : ℕ × ℚ} {l : List (ℕ × ℚ)} (h : e ∈ insD x l) :
    e = x ∨ e ∈ l := by
  have := (insD_perm x l).mem_iff.mp h
  simpa using this

/-- The per-layer well-formedness invariant of an HNSW graph state: the
layer map has no duplicate keys and no duplicate node ids, every entry
references an allocated node carrying the entry's key, neighbor maps have
no duplicate keys, and every edge is a bidirectional in-layer non-self
edge. -/
def LayerWF (s : GState K) (L : List (K × ℕ)) : Prop :=
  (L.map Prod.fst).Nodup ∧ (L.map Prod.snd).Nodup ∧
  ∀ p ∈ L, p.2 < s.arena.length ∧ (getRec s p.2).key = p.1 ∧
    ((getRec s p.2).nbrs.map Prod.fst).Nodup ∧
    ∀ q ∈ (getRec s p.2).nbrs,
      q.1 ≠ p.1 ∧ lookupA L q.1 = some q.2 ∧
      lookupA (getRec s q.2).nbrs p.1 = some p.2

/-- The global well-formedness invariant: every layer is well-formed and
distinct layers use disjoint sets of node ids (every layer owns its own
`layerNode` records, as in the source). -/
def GInv (s : GState K) : Prop :=
  (∀ i, LayerWF s (s.layers.getD i [])) ∧
  ∀ i j, i ≠ j → ∀ p ∈ s.layers.getD i [], ∀ q ∈ s.layers.getD j [],
    p.2 ≠ q.2

/-- In a well-formed layer the degree of a member is below the layer
size: its neighbor keys are distinct layer keys other than its own. -/
theorem nbrs_length_lt_of_wf {s : GState K} {L : List (K × ℕ)}
    (hWF : LayerWF s L) {p : K × ℕ} (hp : p ∈ L) :
    (getRec s p.2).nbrs.length < L.length := by
  obtain ⟨hkn, hvn, hall⟩ := hWF
  obtain ⟨_, _, hnn, hq⟩ := hall p hp
  have hsub : ∀ x ∈ (p.1 :: (getRec s p.2).nbrs.map Prod.fst),
      x ∈ L.map Prod.fst := by
    intro x hx
    rcases List.mem_cons.mp hx with he | hm
    · exact he ▸ List.mem_map.mpr ⟨p, hp, rfl⟩
    · rcases List.mem_map.mp hm with ⟨q, hq₀, rfl⟩
      exact List.mem_map.mpr ⟨(q.1, q.2), mem_of_lookupA (hq q hq₀).2.1, rfl⟩
  have hnd : (p.1 :: (getRec s p.2).nbrs.map Prod.fst).Nodup := by
    rw [List.nodup_cons]
    refine ⟨?_, hnn⟩
    intro hmem
    rcases List.mem_map.mp hmem with ⟨q, hq₀, hfd⟩
    exact (hq q hq₀).1 hfd
  have hle := length_le_of_nodup_subset hnd hsub
  simp only [List.length_cons, List.length_map] at hle
  omega

/-- The spec's bidirectionality invariant follows from the global
well-formedness invariant. -/
theorem bidir_of_ginv {s : GState K} (h : GInv s) : BidirProp s := by
  intro L hL p hp q hq
  obtain ⟨iL, hiL⟩ := List.mem_iff_get.mp hL
  have hgd : s.layers.getD iL.1 [] = L := by
    rw [List.getD_eq_getElem _ _ iL.2]
    exact hiL ▸ (List.get_eq_getElem _ _).symm
  have hWF := h.1 iL.1
  rw [hgd] at hWF
  obtain ⟨_, _, hall⟩ := hWF
  obtain ⟨_, _, _, hq₂⟩ := hall p hp
  obtain ⟨_, h2, h3⟩ := hq₂ q hq
  exact ⟨h2, h3 ▸ rfl⟩

/-- The one-layer search invariant: every id in the list was found under a
visited key of the layer map. -/
def ResOK (L : List (K × ℕ)) (vis : List K) (l : List (ℕ × ℚ)) : Prop :=
  ∀ e ∈ l, ∃ ke ∈ vis, lookupA L ke = some e.1

theorem resOK_mono {L : List (K × ℕ)} {vis vis' : List K} {l : List (ℕ × ℚ)}
    (hsub : ∀ x ∈ vis, x ∈ vis') (h : ResOK L vis l) : ResOK L vis' l := by
  intro e he
  obtain ⟨ke, hk1, hk2⟩ := h e he
  exact ⟨ke, hsub ke hk1, hk2⟩

/-- The neighbor fold of `search` keeps every id in the result and
frontier heaps keyed by a visited layer key, and keeps result ids
duplicate-free. -/
theorem nbFold_inv {s : GState K} {L : List (K × ℕ)} {d : DistF}
    {target : Vec} {k ef : ℕ} (hvn : (L.map Prod.snd).Nodup)
    {curNbrs : List (K × ℕ)}
    (hcur : ∀ p ∈ curNbrs, lookupA L p.1 = some p.2) :
    ∀ (nks : List K) (res cands : List (ℕ × ℚ)) (vis : List K)
      (improved : Bool) (out : List (ℕ × ℚ) × List (ℕ × ℚ) × List K × Bool),
      ResOK L vis res → (res.map Prod.fst).Nodup → ResOK L vis cands →
      nbFold s d target k ef curNbrs nks res cands vis improved = .ok out →
      ResOK L out.2.2.1 out.1 ∧ (out.1.map Prod.fst).Nodup ∧
        ResOK L out.2.2.1 out.2.1 := by
  intro nks
  induction nks with
  | nil =>
      intro res cands vis improved out h1 h2 h3 heq
      simp only [nbFold] at heq
      injection heq with heq
      rw [← heq]
      exact ⟨h1, h2, h3⟩
  | cons nk rest ih =>
      intro res cands vis improved out h1 h2 h3 heq
      simp only [nbFold] at heq
      split at heq
      · exact ih _ _ _ _ _ h1 h2 h3 heq
      · rename_i j hlk
        split at heq
        · exact ih _ _ _ _ _ h1 h2 h3 heq
        · rename_i hnv
          split at heq
          · simp at heq
          · rename_i q hdq
            have hLnk : lookupA L nk = some j :=
              hcur (nk, j) (mem_of_lookupA hlk)
            have hjnew : ∀ e ∈ res, e.1 ≠ j := by
              intro e he hej
              obtain ⟨ke, hkv, hkl⟩ := h1 e he
              have hknk : ke = nk :=
                fst_eq_of_snd_nodup hvn (mem_of_lookupA (hej ▸ hkl))
                  (mem_of_lookupA hLnk)
              exact hnv (hknk ▸ hkv)
            have hmres : ResOK L (nk :: vis) res :=
              resOK_mono (fun x hx => List.mem_cons_of_mem _ hx) h1
            have hdropRes : ∀ e ∈ res.dropLast, e ∈ res :=
              fun e he => (List.dropLast_sublist res).subset he
            have hresOK : ResOK L (nk :: vis)
                (if res.length < k then insD (j, q) res
                 else if q < (res.getLastD (0, 0)).2 then insD (j, q) res.dropLast
                 else res) ∧
                ((if res.length < k then insD (j, q) res
                  else if q < (res.getLastD (0, 0)).2 then insD (j, q) res.dropLast
                  else res).map Prod.fst).Nodup := by
              have hnodup_ins : ((insD (j, q) res).map Prod.fst).Nodup := by
                rw [List.Perm.nodup_iff (List.Perm.map Prod.fst (insD_perm (j, q) res))]
                rw [List.map_cons, List.nodup_cons]
                refine ⟨?_, h2⟩
                intro hmem
                rcases List.mem_map.mp hmem with ⟨e, he, hfe⟩
                exact hjnew e he hfe
              have hnodup_insdrop : ((insD (j, q) res.dropLast).map Prod.fst).Nodup := by
                rw [List.Perm.nodup_iff
                  (List.Perm.map Prod.fst (insD_perm (j, q) res.dropLast))]
                rw [List.map_cons, List.nodup_cons]
                refine ⟨?_, h2.sublist (List.Sublist.map _ (List.dropLast_sublist res))⟩
                intro hmem
                rcases List.mem_map.mp hmem with ⟨e, he, hfe⟩
                exact hjnew e (hdropRes e he) hfe
              have hok_ins : ResOK L (nk :: vis) (insD (j, q) res) := by
                intro e he
                rcases mem_insD he with rfl | hm
                · exact ⟨nk, List.mem_cons_self _ _, hLnk⟩
                · exact hmres e hm
              have hok_insdrop : ResOK L (nk :: vis) (insD (j, q) res.dropLast) := by
                intro e he
                rcases mem_insD he with rfl | hm
                · exact ⟨nk, List.mem_cons_self _ _, hLnk⟩
                · exact hmres e (hdropRes e hm)
              split
              · exact ⟨hok_ins, hnodup_ins⟩
              · split
                · exact ⟨hok_insdrop, hnodup_insdrop⟩
                · exact ⟨hmres, h2⟩
            have hcandsOK : ResOK L (nk :: vis)
                (if ef < (insD (j, q) cands).length then (insD (j, q) cands).dropLast
                 else insD (j, q) cands) := by
              have hok_ins : ResOK L (nk :: vis) (insD (j, q) cands) := by
                intro e he
                rcases mem_insD he with rfl | hm
                · exact ⟨nk, List.mem_cons_self _ _, hLnk⟩
                · exact resOK_mono (fun x hx => List.mem_cons_of_mem _ hx) h3 e hm
              split
              · intro e he
                exact hok_ins e ((List.dropLast_sublist _).subset he)
              · exact hok_ins
            exact ih _ _ _ _ _ hresOK.1 hresOK.2 hcandsOK heq

/-- The frontier loop of `search` returns only ids held by the layer map,
without duplicates. -/
theorem searchLoop_inv {s : GState K} {L : List (K × ℕ)} {d : DistF}
    {target : Vec} {k ef : ℕ} (hWF : LayerWF s L) :
    ∀ (fuel : ℕ) (cands res : List (ℕ × ℚ)) (vis : List K)
      (out : List (ℕ × ℚ)),
      ResOK L vis res → (res.map Prod.fst).Nodup → ResOK L vis cands →
      searchLoop s d target k ef fuel cands res vis = .ok out →
      (∀ e ∈ out, ∃ ke, (ke, e.1) ∈ L) ∧ (out.map Prod.fst).Nodup := by
  intro fuel
  induction fuel with
  | zero => intro cands res vis out _ _ _ heq; simp [searchLoop] at heq
  | succ fuel ih =>
      intro cands res vis out h1 h2 h3 heq
      simp only [searchLoop] at heq
      split at heq
      · injection heq with heq
        subst heq
        refine ⟨?_, h2⟩
        intro e he
        obtain ⟨ke, _, hkl⟩ := h1 e he
        exact ⟨ke, mem_of_lookupA hkl⟩
      · rename_i cur qq crest
        obtain ⟨kc, hkcv, hkcl⟩ := h3 (cur, qq) (List.mem_cons_self _ _)
        have hkcm : (kc, cur) ∈ L := mem_of_lookupA hkcl
        have hcur : ∀ p ∈ (getRec s cur).nbrs, lookupA L p.1 = some p.2 :=
          fun p hp => ((hWF.2.2 (kc, cur) hkcm).2.2.2 p hp).2.1
        have h3' : ResOK L vis crest :=
          fun e he => h3 e (List.mem_cons_of_mem _ he)
        split at heq
        · simp at heq
        · rename_i res' cands' vis' improved hnb
          have hninv := nbFold_inv hWF.2.1 hcur
            (sortKeys ((getRec s cur).nbrs.map Prod.fst)) res crest vis false
            (res', cands', vis', improved) h1 h2 h3' hnb
          split at heq
          · injection heq with heq
            subst heq
            refine ⟨?_, hninv.2.1⟩
            intro e he
            obtain ⟨ke, _, hkl⟩ := hninv.1 e he
            exact ⟨ke, mem_of_lookupA hkl⟩
          · exact ih _ _ _ _ hninv.1 hninv.2.1 hninv.2.2 heq

/-- `search` on a well-formed layer, started inside the layer, returns
only ids of the layer map, without duplicates. -/
theorem searchF_sub {s : GState K} {L : List (K × ℕ)} (hWF : LayerWF s L)
    {f n0 k ef : ℕ} {target : Vec} {d : DistF} {R : List (ℕ × ℚ)}
    (h0 : ∃ k0, (k0, n0) ∈ L)
    (heq : searchF f s (some n0) k ef target d = .ok R) :
    (∀ e ∈ R, ∃ ke, (ke, e.1) ∈ L) ∧ (R.map Prod.fst).Nodup := by
  obtain ⟨k0, hk0⟩ := h0
  simp only [searchF] at heq
  split at heq
  · simp at heq
  · rename_i q0 hd0
    have hkey : (getRec s n0).key = k0 := (hWF.2.2 (k0, n0) hk0).2.1
    have hl0 : lookupA L k0 = some n0 := lookupA_of_mem_nodup hWF.1 hk0
    have hstart : ResOK L [(getRec s n0).key] [(n0, q0)] := by
      intro e he
      rcases List.mem_singleton.mp he with rfl
      exact ⟨(getRec s n0).key, List.mem_cons_self _ _, by rw [hkey]; exact hl0⟩
    refine searchLoop_inv hWF f _ _ _ R hstart (by simp) hstart heq

/-- Unfold one no-eviction `addNeighbor` step: when the receiver map stays
within `m` after the insert, the act is exactly the insert. -/
theorem execAct_addNbr_small (cos d : DistF) (f : ℕ) {m nId tId : ℕ} {s : GState K}
    (hc : (getRec (modifyNbrs s nId
        (fun l => insertA l (getRec s tId).key tId)) nId).nbrs.length ≤ m) :
    execAct cos (f + 1) (.addNbr nId tId m d) s
      = (modifyNbrs s nId (fun l => insertA l (getRec s tId).key tId), none) := by
  simp only [execAct]
  rw [if_pos hc]

/-- Unfold one iteration of the edge loop when both `addNeighbor` calls
complete without error. -/
theorem edgesLoop_step {cos d : DistF} {f m nid mid : ℕ} {q : ℚ}
    {RL : List (ℕ × ℚ)} {cur s₁ s₂ : GState K}
    (h1 : execAct cos f (.addNbr mid nid m d) cur = (s₁, none))
    (h2 : execAct cos f (.addNbr nid mid m d) s₁ = (s₂, none)) :
    edgesLoop cos f d m nid ((mid, q) :: RL) cur
      = edgesLoop cos f d m nid RL s₂ := by
  simp only [edgesLoop, h1, h2]

/-- The mid-installation invariant of the edge loop of `Add`, relative to
the iteration-start state `s`: layer `i` held the map `L`; the new node
has the fresh arena id `nid`, key `k` and vector `v`; the neighborhood
prefix with id list `D` has been processed, wiring the new node to exactly
the prefix members and each prefix member back to the new node; everything
else is as in `s`. -/
def EInv (s : GState K) (i : ℕ) (L : List (K × ℕ)) (k : K) (v : Vec)
    (nid : ℕ) (D : List ℕ) (cur : GState K) : Prop :=
  cur.arena.length = s.arena.length + 1 ∧
  cur.layers = s.layers.set i (L ++ [(k, nid)]) ∧
  (∀ j, (getRec cur j).key = (if j = nid then k else (getRec s j).key) ∧
        (getRec cur j).value = (if j = nid then v else (getRec s j).value)) ∧
  (getRec cur nid).nbrs = D.map (fun j => ((getRec s j).key, j)) ∧
  (∀ j ∈ D, (getRec cur j).nbrs = (getRec s j).nbrs ++ [(k, nid)]) ∧
  (∀ j, j ∉ D → j ≠ nid → (getRec cur j).nbrs = (getRec s j).nbrs)

/-- One edge-loop iteration preserves the mid-installation invariant,
moving the processed id from the pending list to the prefix. -/
theorem einv_step {s : GState K} {i : ℕ} {L : List (K × ℕ)} {k : K}
    {v : Vec} {nid : ℕ} {D : List ℕ} {cur : GState K} {mid : ℕ} {kmid : K}
    (hnid : nid = s.arena.length)
    (hLwf : LayerWF s L) (hfresh : ∀ p ∈ L, p.1 ≠ k)
    (hkmid : (kmid, mid) ∈ L) (hmidD : mid ∉ D)
    (hD1 : ∀ j ∈ D, ∃ kj, (kj, j) ∈ L)
    (hE : EInv s i L k v nid D cur) :
    EInv s i L k v nid (D ++ [mid])
      (modifyNbrs (modifyNbrs cur mid
          (fun l => insertA l (getRec cur nid).key nid)) nid
        (fun l => insertA l (getRec (modifyNbrs cur mid
          (fun l => insertA l (getRec cur nid).key nid)) mid).key mid)) := by
  obtain ⟨hA, hLy, hKV, hNid, hDone, hRest⟩ := hE
  have hmidlt : mid < s.arena.length := (hLwf.2.2 (kmid, mid) hkmid).1
  have hmidne : mid ≠ nid := by omega
  have hmidlt' : mid < cur.arena.length := by omega
  have hnidlt' : nid < cur.arena.length := by omega
  have hkeymid : (getRec s mid).key = kmid := (hLwf.2.2 (kmid, mid) hkmid).2.1
  have hknid : (getRec cur nid).key = k := by
    have := (hKV nid).1
    simpa using this
  have hcurmid : (getRec cur mid).nbrs = (getRec s mid).nbrs :=
    hRest mid hmidD hmidne
  have hs₁mid : getRec (modifyNbrs cur mid
      (fun l => insertA l (getRec cur nid).key nid)) mid
      = { getRec cur mid with
          nbrs := insertA (getRec cur mid).nbrs (getRec cur nid).key nid } :=
    getRec_modifyNbrs_self hmidlt'
  have hs₁nid : getRec (modifyNbrs cur mid
      (fun l => insertA l (getRec cur nid).key nid)) nid = getRec cur nid :=
    getRec_modifyNbrs_ne (Ne.symm hmidne)
  have hs₁midkey : (getRec (modifyNbrs cur mid
      (fun l => insertA l (getRec cur nid).key nid)) mid).key = kmid := by
    rw [hs₁mid]
    have := (hKV mid).1
    rw [if_neg hmidne] at this
    exact this.trans hkeymid
  refine ⟨?_, ?_, ?_, ?_, ?_, ?_⟩
  · rw [modifyNbrs_arena_length, modifyNbrs_arena_length]
    exact hA
  · rw [modifyNbrs_layers, modifyNbrs_layers]
    exact hLy
  · intro j
    have h1 := getRec_modifyNbrs_key cur mid j
      (fun l => insertA l (getRec cur nid).key nid)
    have h2 := getRec_modifyNbrs_key (modifyNbrs cur mid
      (fun l => insertA l (getRec cur nid).key nid)) nid j
      (fun l => insertA l (getRec (modifyNbrs cur mid
        (fun l => insertA l (getRec cur nid).key nid)) mid).key mid)
    exact ⟨h2.1.trans (h1.1.trans (hKV j).1),
      h2.2.trans (h1.2.trans (hKV j).2)⟩
  · have hself : getRec (modifyNbrs (modifyNbrs cur mid
        (fun l => insertA l (getRec cur nid).key nid)) nid
        (fun l => insertA l (getRec (modifyNbrs cur mid
          (fun l => insertA l (getRec cur nid).key nid)) mid).key mid)) nid
        = { getRec (modifyNbrs cur mid
              (fun l => insertA l (getRec cur nid).key nid)) nid with
            nbrs := insertA (getRec (modifyNbrs cur mid
                (fun l => insertA l (getRec cur nid).key nid)) nid).nbrs
              (getRec (modifyNbrs cur mid
                (fun l => insertA l (getRec cur nid).key nid)) mid).key mid } :=
      getRec_modifyNbrs_self (by rw [modifyNbrs_arena_length]; exact hnidlt')
    rw [hself, hs₁midkey]
    show insertA (getRec (modifyNbrs cur mid
        (fun l => insertA l (getRec cur nid).key nid)) nid).nbrs kmid mid
      = (D ++ [mid]).map (fun j => ((getRec s j).key, j))
    rw [hs₁nid, hNid]
    have hnone : lookupA (D.map (fun j => ((getRec s j).key, j))) kmid = none := by
      apply lookupA_eq_none.mpr
      intro p hp
      rcases List.mem_map.mp hp with ⟨j, hj, rfl⟩
      intro hkj
      have hjk : (getRec s j).key = kmid := hkj
      obtain ⟨kj, hkjm⟩ := hD1 j hj
      have : (getRec s j).key = kj := (hLwf.2.2 (kj, j) hkjm).2.1
      rw [this] at hjk
      subst hjk
      have h1 := lookupA_of_mem_nodup hLwf.1 hkjm
      have h2 := lookupA_of_mem_nodup hLwf.1 hkmid
      rw [h1] at h2
      injection h2 with h2
      exact hmidD (h2 ▸ hj)
    rw [insertA_of_lookupA_none mid hnone, List.map_append]
    simp [hkeymid]
  · intro j hj
    rcases List.mem_append.mp hj with hjD | hjm
    · have hjlt : j < s.arena.length := by
        obtain ⟨kj, hkjm⟩ := hD1 j hjD
        exact (hLwf.2.2 (kj, j) hkjm).1
      have hjne : j ≠ nid := by omega
      have hjnm : j ≠ mid := fun h => hmidD (h ▸ hjD)
      rw [getRec_modifyNbrs_ne hjne, getRec_modifyNbrs_ne hjnm]
      exact hDone j hjD
    · have hje : j = mid := List.mem_singleton.mp hjm
      rw [hje, getRec_modifyNbrs_ne hmidne, hs₁mid]
      show insertA (getRec cur mid).nbrs (getRec cur nid).key nid
        = (getRec s mid).nbrs ++ [(k, nid)]
      rw [hcurmid, hknid]
      have hnone : lookupA (getRec s mid).nbrs k = none := by
        apply lookupA_eq_none.mpr
        intro p hp
        have hlk := ((hLwf.2.2 (kmid, mid) hkmid).2.2.2 p hp).2.1
        exact hfresh (p.1, p.2) (mem_of_lookupA hlk)
      exact insertA_of_lookupA_none nid hnone
  · intro j hjD hjn
    have hjm : j ≠ mid := fun h => hjD (h ▸ List.mem_append.mpr (Or.inr (List.mem_singleton.mpr rfl)))
    have hjD' : j ∉ D := fun h => hjD (List.mem_append.mpr (Or.inl h))
    rw [getRec_modifyNbrs_ne hjn, getRec_modifyNbrs_ne hjm]
    exact hRest j hjD' hjn

/-- Running the edge loop to completion from a mid-installation state
extends the processed prefix by the whole pending neighborhood: under the
layer-size cap no insert overflows, so no eviction and no `replenish` is
ever reached. -/
theorem edgesLoop_einv (cos d : DistF) (f m : ℕ) {s : GState K} {i : ℕ}
    {L : List (K × ℕ)} {k : K} {v : Vec} {nid : ℕ}
    (hnid : nid = s.arena.length)
    (hLwf : LayerWF s L)
    (hLm : L.length ≤ m)
    (hfresh : ∀ p ∈ L, p.1 ≠ k) :
    ∀ (RL : List (ℕ × ℚ)) (D : List ℕ) (cur s₄ : GState K),
      (∀ j ∈ D, ∃ kj, (kj, j) ∈ L) →
      D.Nodup →
      (∀ e ∈ RL, ∃ ke, (ke, e.1) ∈ L) →
      (∀ e ∈ RL, e.1 ∉ D) →
      (RL.map Prod.fst).Nodup →
      D.length + RL.length ≤ L.length →
      EInv s i L k v nid D cur →
      edgesLoop cos f d m nid RL cur = (s₄, none) →
      EInv s i L k v nid (D ++ RL.map Prod.fst) s₄ := by
  intro RL
  induction RL with
  | nil =>
      intro D cur s₄ _ _ _ _ _ _ hE heq
      simp only [edgesLoop] at heq
      have h1 : cur = s₄ := congrArg Prod.fst heq
      rw [← h1]
      simpa using hE
  | cons hd rl ih =>
      rcases hd with ⟨mid, q⟩
      intro D cur s₄ hD1 hD2 hRL1 hdisj hRLn hlen hE heq
      obtain ⟨kmid, hkmid⟩ := hRL1 (mid, q) (List.mem_cons_self _ _)
      have hmidlt : mid < s.arena.length := (hLwf.2.2 (kmid, mid) hkmid).1
      have hmidne : mid ≠ nid := by omega
      have hmidD : mid ∉ D := hdisj (mid, q) (List.mem_cons_self _ _)
      cases f with
      | zero =>
          simp only [edgesLoop, execAct] at heq
          have h2 := congrArg Prod.snd heq
          simp at h2
      | succ f' =>
          have hdeg : (getRec s mid).nbrs.length < L.length :=
            nbrs_length_lt_of_wf hLwf hkmid
          have hcurmid : (getRec cur mid).nbrs = (getRec s mid).nbrs :=
            hE.2.2.2.2.2 mid hmidD hmidne
          have hmidlt' : mid < cur.arena.length := by
            rw [hE.1]; omega
          have hc1 : (getRec (modifyNbrs cur mid
              (fun l => insertA l (getRec cur nid).key nid)) mid).nbrs.length
              ≤ m := by
            rw [getRec_modifyNbrs_self hmidlt']
            show (insertA (getRec cur mid).nbrs
              (getRec cur nid).key nid).length ≤ m
            rw [hcurmid]
            have h1 := length_insertA_le (getRec s mid).nbrs
              (getRec cur nid).key nid
            omega
          have hstep1 := execAct_addNbr_small cos d f' hc1
          have hnidlt' : nid < (modifyNbrs cur mid
              (fun l => insertA l (getRec cur nid).key nid)).arena.length := by
            rw [modifyNbrs_arena_length, hE.1]; omega
          have hs₁nbrs : (getRec (modifyNbrs cur mid
              (fun l => insertA l (getRec cur nid).key nid)) nid).nbrs
              = D.map (fun j => ((getRec s j).key, j)) := by
            rw [getRec_modifyNbrs_ne (Ne.symm hmidne)]
            exact hE.2.2.2.1
          have hc2 : (getRec (modifyNbrs (modifyNbrs cur mid
              (fun l => insertA l (getRec cur nid).key nid)) nid
              (fun l => insertA l (getRec (modifyNbrs cur mid
                (fun l => insertA l (getRec cur nid).key nid)) mid).key mid))
              nid).nbrs.length ≤ m := by
            rw [getRec_modifyNbrs_self hnidlt']
            show (insertA (getRec (modifyNbrs cur mid
              (fun l => insertA l (getRec cur nid).key nid)) nid).nbrs
              (getRec (modifyNbrs cur mid
                (fun l => insertA l (getRec cur nid).key nid)) mid).key
              mid).length ≤ m
            rw [hs₁nbrs]
            have h1 := length_insertA_le (D.map (fun j => ((getRec s j).key, j)))
              (getRec (modifyNbrs cur mid
                (fun l => insertA l (getRec cur nid).key nid)) mid).key mid
            have h2 : (D.map (fun j => ((getRec s j).key, j))).length
              = D.length := List.length_map _ _
            simp only [List.length_cons] at hlen
            omega
          have hstep2 := execAct_addNbr_small cos d f' hc2
          rw [edgesLoop_step hstep1 hstep2] at heq
          have hEnext := einv_step hnid hLwf hfresh hkmid hmidD hD1 hE
          have hD1' : ∀ j ∈ D ++ [mid], ∃ kj, (kj, j) ∈ L := by
            intro j hj
            rcases List.mem_append.mp hj with h | h
            · exact hD1 j h
            · have hje : j = mid := List.mem_singleton.mp h
              exact ⟨kmid, by rw [hje]; exact hkmid⟩
          have hD2' : (D ++ [mid]).Nodup := by
            rw [List.nodup_append]
            refine ⟨hD2, List.nodup_singleton _, ?_⟩
            intro a ha hb
            have hab : a = mid := List.mem_singleton.mp hb
            rw [hab] at ha
            exact hmidD ha
          have hRL1' : ∀ e ∈ rl, ∃ ke, (ke, e.1) ∈ L :=
            fun e he => hRL1 e (List.mem_cons_of_mem _ he)
          have hRLn' : (rl.map Prod.fst).Nodup := by
            have h := hRLn
            simp only [List.map_cons, List.nodup_cons] at h
            exact h.2
          have hdisj' : ∀ e ∈ rl, e.1 ∉ D ++ [mid] := by
            intro e he hmem
            rcases List.mem_append.mp hmem with h | h
            · exact hdisj e (List.mem_cons_of_mem _ he) h
            · have heq₁ : e.1 = mid := List.mem_singleton.mp h
              have hmn : mid ∉ rl.map Prod.fst := by
                have h₂ := hRLn
                simp only [List.map_cons, List.nodup_cons] at h₂
                exact h₂.1
              exact hmn (heq₁ ▸ List.mem_map.mpr ⟨e, he, rfl⟩)
          have hlen' : (D ++ [mid]).length + rl.length ≤ L.length := by
            simp only [List.length_append, List.length_singleton]
            simp only [List.length_cons] at hlen
            omega
          have hfinal := ih (D ++ [mid]) _ s₄ hD1' hD2' hRL1' hdisj'
            hRLn' hlen' hEnext heq
          simpa [List.append_assoc] using hfinal

/-- Installing a fresh-keyed node into a well-formed layer and wiring it
to a duplicate-free in-layer neighborhood re-establishes the global
invariant: the layer gains exactly the new entry and every new edge is a
bidirectional in-layer non-self edge. -/
theorem install_ginv {cos d : DistF} {f m : ℕ} {s s₄ : GState K} {i : ℕ}
    {k : K} {v : Vec} {R : List (ℕ × ℚ)}
    (hInv : GInv s)
    (hilt : i < s.layers.length)
    (hfresh : ∀ p ∈ s.layers.getD i [], p.1 ≠ k)
    (hLm : (s.layers.getD i []).length ≤ m)
    (hR1 : ∀ e ∈ R, ∃ ke, (ke, e.1) ∈ s.layers.getD i [])
    (hR2 : (R.map Prod.fst).Nodup)
    (hrun : edgesLoop cos f d m (pushNode s ⟨k, v, []⟩).2 R
        (setLayer (pushNode s ⟨k, v, []⟩).1 i
          (insertA ((pushNode s ⟨k, v, []⟩).1.layers.getD i []) k
            (pushNode s ⟨k, v, []⟩).2)) = (s₄, none)) :
    GInv s₄ ∧ s₄.arena.length = s.arena.length + 1 ∧
      s₄.layers = s.layers.set i
        (s.layers.getD i [] ++ [(k, s.arena.length)]) := by
  have hLwf := hInv.1 i
  have hlkn : lookupA (s.layers.getD i []) k = none := lookupA_eq_none.mpr hfresh
  have hE0 : EInv s i (s.layers.getD i []) k v s.arena.length []
      (setLayer (pushNode s ⟨k, v, []⟩).1 i
        (insertA ((pushNode s ⟨k, v, []⟩).1.layers.getD i []) k
          (pushNode s ⟨k, v, []⟩).2)) := by
    refine ⟨?_, ?_, ?_, ?_, ?_, ?_⟩
    · show (s.arena ++ [(⟨k, v, []⟩ : NodeRec K)]).length = s.arena.length + 1
      simp
    · show s.layers.set i (insertA ((pushNode s ⟨k, v, []⟩).1.layers.getD i []) k
        (pushNode s ⟨k, v, []⟩).2)
        = s.layers.set i (s.layers.getD i [] ++ [(k, s.arena.length)])
      rw [pushNode_layers, insertA_of_lookupA_none _ hlkn]
      rfl
    · intro j
      rcases lt_trichotomy j s.arena.length with hlt | hje | hgt
      · have h1 : getRec (setLayer (pushNode s ⟨k, v, []⟩).1 i
            (insertA ((pushNode s ⟨k, v, []⟩).1.layers.getD i []) k
              (pushNode s ⟨k, v, []⟩).2)) j = getRec s j := by
          rw [getRec_setLayer]
          exact getRec_pushNode_lt hlt
        have hne : j ≠ s.arena.length := by omega
        rw [h1, if_neg hne, if_neg hne]
        exact ⟨rfl, rfl⟩
      · have h1 : getRec (setLayer (pushNode s ⟨k, v, []⟩).1 i
            (insertA ((pushNode s ⟨k, v, []⟩).1.layers.getD i []) k
              (pushNode s ⟨k, v, []⟩).2)) j = ⟨k, v, []⟩ := by
          rw [getRec_setLayer, hje]
          exact getRec_pushNode_self s ⟨k, v, []⟩
        rw [h1, if_pos hje, if_pos hje]
        exact ⟨rfl, rfl⟩
      · have h1 : getRec (setLayer (pushNode s ⟨k, v, []⟩).1 i
            (insertA ((pushNode s ⟨k, v, []⟩).1.layers.getD i []) k
              (pushNode s ⟨k, v, []⟩).2)) j = ⟨default, [], []⟩ := by
          rw [getRec_setLayer]
          exact List.getD_eq_default _ _ (by rw [pushNode_arena_length]; omega)
        have h2 : getRec s j = ⟨default, [], []⟩ :=
          List.getD_eq_default _ _ (by omega)
        have hne : j ≠ s.arena.length := by omega
        rw [h1, h2, if_neg hne, if_neg hne]
        exact ⟨rfl, rfl⟩
    · have h1 : getRec (setLayer (pushNode s ⟨k, v, []⟩).1 i
          (insertA ((pushNode s ⟨k, v, []⟩).1.layers.getD i []) k
            (pushNode s ⟨k, v, []⟩).2)) s.arena.length = ⟨k, v, []⟩ := by
        rw [getRec_setLayer]
        exact getRec_pushNode_self s ⟨k, v, []⟩
      rw [h1]
      rfl
    · intro j hj
      simp at hj
    · intro j _ hjn
      rcases lt_trichotomy j s.arena.length with hlt | hje | hgt
      · have h1 : getRec (setLayer (pushNode s ⟨k, v, []⟩).1 i
            (insertA ((pushNode s ⟨k, v, []⟩).1.layers.getD i []) k
              (pushNode s ⟨k, v, []⟩).2)) j = getRec s j := by
          rw [getRec_setLayer]
          exact getRec_pushNode_lt hlt
        rw [h1]
      · exact absurd hje hjn
      · have h1 : getRec (setLayer (pushNode s ⟨k, v, []⟩).1 i
            (insertA ((pushNode s ⟨k, v, []⟩).1.layers.getD i []) k
              (pushNode s ⟨k, v, []⟩).2)) j = ⟨default, [], []⟩ := by
          rw [getRec_setLayer]
          exact List.getD_eq_default _ _ (by rw [pushNode_arena_length]; omega)
        have h2 : getRec s j = ⟨default, [], []⟩ :=
          List.getD_eq_default _ _ (by omega)
        rw [h1, h2]
  have hsub : ∀ x ∈ R.map Prod.fst, x ∈ (s.layers.getD i []).map Prod.snd := by
    intro x hx
    rcases List.mem_map.mp hx with ⟨e, he, rfl⟩
    obtain ⟨ke, hkem⟩ := hR1 e he
    exact List.mem_map.mpr ⟨(ke, e.1), hkem, rfl⟩
  have hlenR : ([] : List ℕ).length + R.length ≤ (s.layers.getD i []).length := by
    have h1 := length_le_of_nodup_subset hR2 hsub
    simp only [List.length_map] at h1
    simpa using h1
  have hE4 := edgesLoop_einv cos d f m rfl hLwf hLm hfresh R [] _ s₄
    (fun j hj => absurd hj (List.not_mem_nil j)) List.nodup_nil hR1
    (fun e _ => List.not_mem_nil e.1) hR2 hlenR hE0 hrun
  rw [List.nil_append] at hE4
  obtain ⟨hA4, hLy4, hKV4, hNid4, hDone4, hRest4⟩ := hE4
  have hkeyS : ∀ p ∈ s.layers.getD i [], (getRec s p.2).key = p.1 :=
    fun p hp => (hLwf.2.2 p hp).2.1
  have hvalLt : ∀ p ∈ s.layers.getD i [], p.2 < s.arena.length :=
    fun p hp => (hLwf.2.2 p hp).1
  have hDf : ∀ j ∈ R.map Prod.fst, ∃ kj, (kj, j) ∈ s.layers.getD i [] := by
    intro j hj
    rcases List.mem_map.mp hj with ⟨e, he, rfl⟩
    exact hR1 e he
  have hkey4 : ∀ j, j ≠ s.arena.length →
      (getRec s₄ j).key = (getRec s j).key := by
    intro j hj
    have h1 := (hKV4 j).1
    rw [if_neg hj] at h1
    exact h1
  have hback : ∀ j, j < s.arena.length → ∀ key₀ v₀,
      lookupA (getRec s j).nbrs key₀ = some v₀ →
      lookupA (getRec s₄ j).nbrs key₀ = some v₀ := by
    intro j hj key₀ v₀ hlk
    by_cases hin : j ∈ R.map Prod.fst
    · rw [hDone4 j hin]
      exact lookupA_append_some hlk
    · rw [hRest4 j hin (by omega)]
      exact hlk
  have hkeyInj : ∀ j₁ ∈ R.map Prod.fst, ∀ j₂ ∈ R.map Prod.fst,
      (getRec s j₁).key = (getRec s j₂).key → j₁ = j₂ := by
    intro j₁ h₁ j₂ h₂ hk
    obtain ⟨k₁, hk₁⟩ := hDf j₁ h₁
    obtain ⟨k₂, hk₂⟩ := hDf j₂ h₂
    have e₁ : (getRec s j₁).key = k₁ := hkeyS (k₁, j₁) hk₁
    have e₂ : (getRec s j₂).key = k₂ := hkeyS (k₂, j₂) hk₂
    have hkk : k₁ = k₂ := by rw [← e₁, ← e₂, hk]
    have l₁ := lookupA_of_mem_nodup hLwf.1 hk₁
    have l₂ := lookupA_of_mem_nodup hLwf.1 hk₂
    rw [hkk] at l₁
    rw [l₂] at l₁
    injection l₁ with l₁
    exact l₁.symm
  have hDfMapNodup : (((R.map Prod.fst).map
      (fun j => ((getRec s j).key, j))).map Prod.fst).Nodup := by
    have h1 : ((R.map Prod.fst).map (fun j => ((getRec s j).key, j))).map Prod.fst
        = (R.map Prod.fst).map (fun j => (getRec s j).key) := by
      rw [List.map_map]
      rfl
    rw [h1]
    exact List.Nodup.map_on hkeyInj hR2
  have hmemNew : ∀ p, p ∈ s.layers.getD i [] → p.2 ∈ R.map Prod.fst →
      (p.1, p.2) ∈ (R.map Prod.fst).map (fun j => ((getRec s j).key, j)) := by
    intro p hp hin
    exact List.mem_map.mpr ⟨p.2, hin, by rw [hkeyS p hp]⟩
  have hgdi : s₄.layers.getD i [] = s.layers.getD i [] ++ [(k, s.arena.length)] := by
    rw [hLy4]
    exact getD_setLayer_self _ hilt
  refine ⟨⟨?_, ?_⟩, hA4, hLy4⟩
  · intro a
    by_cases ha : a = i
    · rw [ha, hgdi]
      refine ⟨?_, ?_, ?_⟩
      · rw [List.map_append, List.nodup_append]
        refine ⟨hLwf.1, by simp, ?_⟩
        intro x hx hx2
        rcases List.mem_map.mp hx with ⟨p, hp, rfl⟩
        simp only [List.map_cons, List.map_nil, List.mem_singleton] at hx2
        exact hfresh p hp hx2
      · rw [List.map_append, List.nodup_append]
        refine ⟨hLwf.2.1, by simp, ?_⟩
        intro x hx hx2
        rcases List.mem_map.mp hx with ⟨p, hp, rfl⟩
        simp only [List.map_cons, List.map_nil, List.mem_singleton] at hx2
        have := hvalLt p hp
        omega
      · intro p hp
        rcases List.mem_append.mp hp with hpL | hpN
        · have hplt := hvalLt p hpL
          have hpne : p.2 ≠ s.arena.length := by omega
          refine ⟨by rw [hA4]; omega, ?_, ?_, ?_⟩
          · rw [hkey4 p.2 hpne]
            exact hkeyS p hpL
          · have hknod := (hLwf.2.2 p hpL).2.2.1
            by_cases hin : p.2 ∈ R.map Prod.fst
            · rw [hDone4 p.2 hin, List.map_append, List.nodup_append]
              refine ⟨hknod, by simp, ?_⟩
              intro x hx hx2
              rcases List.mem_map.mp hx with ⟨qq, hq, rfl⟩
              simp only [List.map_cons, List.map_nil, List.mem_singleton] at hx2
              have hlq := ((hLwf.2.2 p hpL).2.2.2 qq hq).2.1
              exact hfresh (qq.1, qq.2) (mem_of_lookupA hlq) hx2
            · rw [hRest4 p.2 hin hpne]
              exact hknod
          · intro q hq4
            have hq_cases : q ∈ (getRec s p.2).nbrs ∨
                (q = (k, s.arena.length) ∧ p.2 ∈ R.map Prod.fst) := by
              by_cases hin : p.2 ∈ R.map Prod.fst
              · rw [hDone4 p.2 hin] at hq4
                rcases List.mem_append.mp hq4 with h | h
                · exact Or.inl h
                · exact Or.inr ⟨List.mem_singleton.mp h, hin⟩
              · rw [hRest4 p.2 hin hpne] at hq4
                exact Or.inl hq4
            rcases hq_cases with hqold | ⟨hqe, hpin⟩
            · obtain ⟨hq1, hq2, hq3⟩ := (hLwf.2.2 p hpL).2.2.2 q hqold
              refine ⟨hq1, lookupA_append_some hq2, ?_⟩
              have hqlt : q.2 < s.arena.length :=
                hvalLt (q.1, q.2) (mem_of_lookupA hq2)
              exact hback q.2 hqlt p.1 p.2 hq3
            · rw [hqe]
              refine ⟨Ne.symm (hfresh p hpL), ?_, ?_⟩
              · rw [lookupA_append_none hlkn]
                simp [lookupA]
              · show lookupA (getRec s₄ s.arena.length).nbrs p.1 = some p.2
                rw [hNid4]
                exact lookupA_of_mem_nodup hDfMapNodup (hmemNew p hpL hpin)
        · have hpe : p = (k, s.arena.length) := List.mem_singleton.mp hpN
          rw [hpe]
          refine ⟨by rw [hA4]; omega, ?_, ?_, ?_⟩
          · have h1 := (hKV4 s.arena.length).1
            rw [if_pos rfl] at h1
            exact h1
          · rw [hNid4]
            exact hDfMapNodup
          · intro q hq4
            rw [hNid4] at hq4
            rcases List.mem_map.mp hq4 with ⟨j, hjin, rfl⟩
            obtain ⟨kj, hkjm⟩ := hDf j hjin
            have hkeyj : (getRec s j).key = kj := hkeyS (kj, j) hkjm
            refine ⟨?_, ?_, ?_⟩
            · show (getRec s j).key ≠ k
              rw [hkeyj]
              exact hfresh (kj, j) hkjm
            · show lookupA (s.layers.getD i [] ++ [(k, s.arena.length)])
                (getRec s j).key = some j
              rw [hkeyj]
              exact lookupA_append_some (lookupA_of_mem_nodup hLwf.1 hkjm)
            · show lookupA (getRec s₄ j).nbrs k = some s.arena.length
              rw [hDone4 j hjin]
              have hnone : lookupA (getRec s j).nbrs k = none := by
                apply lookupA_eq_none.mpr
                intro qq hqq
                have hlq := ((hLwf.2.2 (kj, j) hkjm).2.2.2 qq hqq).2.1
                exact hfresh (qq.1, qq.2) (mem_of_lookupA hlq)
              rw [lookupA_append_none hnone]
              simp [lookupA]
    · have hgda : s₄.layers.getD a [] = s.layers.getD a [] := by
        rw [hLy4]
        exact getD_setLayer_ne _ ha
      rw [hgda]
      have hWFa := hInv.1 a
      have hnotDf : ∀ p ∈ s.layers.getD a [], p.2 ∉ R.map Prod.fst := by
        intro p hp hin
        obtain ⟨kj, hkjm⟩ := hDf p.2 hin
        exact hInv.2 a i ha p hp (kj, p.2) hkjm rfl
      refine ⟨hWFa.1, hWFa.2.1, ?_⟩
      intro p hp
      obtain ⟨hp1, hp2, hp3, hp4⟩ := hWFa.2.2 p hp
      have hpne : p.2 ≠ s.arena.length := by omega
      have hpnbrs : (getRec s₄ p.2).nbrs = (getRec s p.2).nbrs :=
        hRest4 p.2 (hnotDf p hp) hpne
      refine ⟨by rw [hA4]; omega, by rw [hkey4 p.2 hpne]; exact hp2,
        by rw [hpnbrs]; exact hp3, ?_⟩
      intro q hq4
      rw [hpnbrs] at hq4
      obtain ⟨hq1, hq2, hq3⟩ := hp4 q hq4
      have hq2m : (q.1, q.2) ∈ s.layers.getD a [] := mem_of_lookupA hq2
      have hqlt : q.2 < s.arena.length := (hWFa.2.2 (q.1, q.2) hq2m).1
      have hqnbrs : (getRec s₄ q.2).nbrs = (getRec s q.2).nbrs :=
        hRest4 q.2 (hnotDf (q.1, q.2) hq2m) (by omega)
      exact ⟨hq1, hq2, by rw [hqnbrs]; exact hq3⟩
  · intro a b hab p hpa q hqb
    have htrans : ∀ c (p₀ : K × ℕ), p₀ ∈ s₄.layers.getD c [] →
        p₀ ∈ s.layers.getD c [] ∨ (c = i ∧ p₀.2 = s.arena.length) := by
      intro c p₀ hp₀
      by_cases hc : c = i
      · have h1 : s₄.layers.getD c [] = s.layers.getD i []
            ++ [(k, s.arena.length)] := by rw [hc, hgdi]
        rw [h1] at hp₀
        rcases List.mem_append.mp hp₀ with hh | hh
        · rw [hc]
          exact Or.inl hh
        · have h2 := List.mem_singleton.mp hh
          exact Or.inr ⟨hc, by rw [h2]⟩
      · have h1 : s₄.layers.getD c [] = s.layers.getD c [] := by
          rw [hLy4]
          exact getD_setLayer_ne _ hc
        rw [h1] at hp₀
        exact Or.inl hp₀
    rcases htrans a p hpa with hpa' | ⟨hai, hpe⟩ <;>
      rcases htrans b q hqb with hqb' | ⟨hbi, hqe⟩
    · exact hInv.2 a b hab p hpa' q hqb'
    · have hplt := ((hInv.1 a).2.2 p hpa').1
      rw [hqe]
      omega
    · have hqlt := ((hInv.1 b).2.2 q hqb').1
      rw [hpe]
      omega
    · exact absurd (hai.trans hbi.symm) hab

/-- Seeding an empty layer with the new node alone re-establishes the
global invariant. -/
theorem seed_ginv {s : GState K} {i : ℕ} {k : K} {v : Vec}
    (hInv : GInv s)
    (hempty : s.layers.getD i [] = []) :
    GInv (setLayer (pushNode s ⟨k, v, []⟩).1 i [(k, (pushNode s ⟨k, v, []⟩).2)]) ∧
    (setLayer (pushNode s ⟨k, v, []⟩).1 i
      [(k, (pushNode s ⟨k, v, []⟩).2)]).arena.length = s.arena.length + 1 ∧
    (setLayer (pushNode s ⟨k, v, []⟩).1 i
      [(k, (pushNode s ⟨k, v, []⟩).2)]).layers
      = s.layers.set i [(k, s.arena.length)] := by
  have hrec : ∀ j, j ≠ s.arena.length →
      getRec (setLayer (pushNode s ⟨k, v, []⟩).1 i
        [(k, (pushNode s ⟨k, v, []⟩).2)]) j = getRec s j := by
    intro j hj
    rw [getRec_setLayer]
    rcases lt_or_gt_of_ne hj with hlt | hgt
    · exact getRec_pushNode_lt hlt
    · have h1 : getRec (pushNode s ⟨k, v, []⟩).1 j = ⟨default, [], []⟩ :=
        List.getD_eq_default _ _ (by rw [pushNode_arena_length]; omega)
      have h2 : getRec s j = ⟨default, [], []⟩ :=
        List.getD_eq_default _ _ (by omega)
      rw [h1, h2]
  have hrecN : getRec (setLayer (pushNode s ⟨k, v, []⟩).1 i
      [(k, (pushNode s ⟨k, v, []⟩).2)]) s.arena.length = ⟨k, v, []⟩ := by
    rw [getRec_setLayer]
    exact getRec_pushNode_self s ⟨k, v, []⟩
  have hA : (setLayer (pushNode s ⟨k, v, []⟩).1 i
      [(k, (pushNode s ⟨k, v, []⟩).2)]).arena.length = s.arena.length + 1 := by
    show (s.arena ++ [(⟨k, v, []⟩ : NodeRec K)]).length = s.arena.length + 1
    simp
  have hLy : (setLayer (pushNode s ⟨k, v, []⟩).1 i
      [(k, (pushNode s ⟨k, v, []⟩).2)]).layers
      = s.layers.set i [(k, s.arena.length)] := rfl
  refine ⟨⟨?_, ?_⟩, hA, hLy⟩
  · intro a
    by_cases ha : a = i
    · by_cases hil : i < s.layers.length
      · have hgd : (setLayer (pushNode s ⟨k, v, []⟩).1 i
            [(k, (pushNode s ⟨k, v, []⟩).2)]).layers.getD a []
            = [(k, s.arena.length)] := by
          rw [ha, hLy]
          exact getD_setLayer_self _ hil
        rw [hgd]
        refine ⟨by simp, by simp, ?_⟩
        intro p hp
        have hpe : p = (k, s.arena.length) := List.mem_singleton.mp hp
        rw [hpe]
        refine ⟨by rw [hA]; omega, ?_, ?_, ?_⟩
        · rw [hrecN]
        · rw [hrecN]
          simp
        · intro q hq
          rw [hrecN] at hq
          simp at hq
      · have hgd : (setLayer (pushNode s ⟨k, v, []⟩).1 i
            [(k, (pushNode s ⟨k, v, []⟩).2)]).layers.getD a [] = [] := by
          rw [ha, hLy]
          apply List.getD_eq_default
          rw [List.length_set]
          omega
        rw [hgd]
        exact ⟨by simp, by simp, by intro p hp; simp at hp⟩
    · have hgd : (setLayer (pushNode s ⟨k, v, []⟩).1 i
          [(k, (pushNode s ⟨k, v, []⟩).2)]).layers.getD a []
          = s.layers.getD a [] := by
        rw [hLy]
        exact getD_setLayer_ne _ ha
      rw [hgd]
      have hWFa := hInv.1 a
      refine ⟨hWFa.1, hWFa.2.1, ?_⟩
      intro p hp
      obtain ⟨hp1, hp2, hp3, hp4⟩ := hWFa.2.2 p hp
      have hpne : p.2 ≠ s.arena.length := by omega
      rw [hrec p.2 hpne]
      refine ⟨by rw [hA]; omega, hp2, hp3, ?_⟩
      intro q hq
      obtain ⟨hq1, hq2, hq3⟩ := hp4 q hq
      have hqlt : q.2 < s.arena.length :=
        (hWFa.2.2 (q.1, q.2) (mem_of_lookupA hq2)).1
      rw [hrec q.2 (by omega)]
      exact ⟨hq1, hq2, hq3⟩
  · intro a b hab p hpa q hqb
    have htrans : ∀ c (p₀ : K × ℕ),
        p₀ ∈ (setLayer (pushNode s ⟨k, v, []⟩).1 i
          [(k, (pushNode s ⟨k, v, []⟩).2)]).layers.getD c [] →
        p₀ ∈ s.layers.getD c [] ∨ (c = i ∧ p₀.2 = s.arena.length) := by
      intro c p₀ hp₀
      by_cases hc : c = i
      · rw [hc, hLy] at hp₀
        by_cases hil : i < s.layers.length
        · rw [show (s.layers.set i [(k, s.arena.length)]).getD i []
              = [(k, s.arena.length)] from getD_setLayer_self _ hil] at hp₀
          have h2 := List.mem_singleton.mp hp₀
          exact Or.inr ⟨hc, by rw [h2]⟩
        · rw [show (s.layers.set i [(k, s.arena.length)]).getD i [] = []
              from List.getD_eq_default _ _ (by rw [List.length_set]; omega)] at hp₀
          simp at hp₀
      · rw [hLy, show (s.layers.set i [(k, s.arena.length)]).getD c []
            = s.layers.getD c [] from getD_setLayer_ne _ hc] at hp₀
        exact Or.inl hp₀
    rcases htrans a p hpa with hpa' | ⟨hai, hpe⟩ <;>
      rcases htrans b q hqb with hqb' | ⟨hbi, hqe⟩
    · exact hInv.2 a b hab p hpa' q hqb'
    · have hplt := ((hInv.1 a).2.2 p hpa').1
      rw [hqe]
      omega
    · have hqlt := ((hInv.1 b).2.2 q hqb').1
      rw [hpe]
      omega
    · exact absurd (hai.trans hbi.symm) hab

/-- Resolve the entry point of the per-layer search: a successful search
was started at a member of the layer map. -/
theorem searchF_start {s : GState K} {L : List (K × ℕ)} {f kk ef : ℕ}
    {target : Vec} {d : DistF} {elev : Option K} {R : List (ℕ × ℚ)}
    (h : searchF f s (match elev with
        | none => L.head?.map Prod.snd
        | some ek => lookupA L ek) kk ef target d = .ok R) :
    ∃ n0 k0, (k0, n0) ∈ L ∧ searchF f s (some n0) kk ef target d = .ok R := by
  cases elev with
  | none =>
      have hred : searchF f s (L.head?.map Prod.snd) kk ef target d = .ok R := h
      cases hh : L.head? with
      | none => rw [hh] at hred; simp [searchF] at hred
      | some p0 =>
          rw [hh] at hred
          exact ⟨p0.2, p0.1, List.mem_of_mem_head? (by rw [hh]; rfl), hred⟩
  | some ek =>
      have hred : searchF f s (lookupA L ek) kk ef target d = .ok R := h
      cases hlk : lookupA L ek with
      | none => rw [hlk] at hred; simp [searchF] at hred
      | some n0 =>
          rw [hlk] at hred
          exact ⟨n0, ek, mem_of_lookupA hlk, hred⟩

/-- The per-layer loop of `Add` preserves the global invariant when the
inserted key is fresh and every processed layer is below capacity; each
layer grows by at most the new entry. -/
theorem layerLoop_ginv (cos d : DistF) (f m ef : ℕ) (k : K) (v : Vec)
    (lvl : ℕ) :
    ∀ (idxs : List ℕ) (elev : Option K) (wu : Bool) (s s₂ : GState K)
      (wu₂ : Bool),
      layerLoop cos f d m ef k v lvl idxs elev wu s = (s₂, wu₂, none) →
      GInv s →
      idxs.Nodup →
      (∀ i ∈ idxs, i < s.layers.length) →
      (∀ i ∈ idxs, ∀ p ∈ s.layers.getD i [], p.1 ≠ k) →
      (∀ i ∈ idxs, (s.layers.getD i []).length ≤ m) →
      GInv s₂ ∧
      (∀ j, j ∉ idxs → s₂.layers.getD j [] = s.layers.getD j []) ∧
      (∀ j, (s₂.layers.getD j []).length ≤ (s.layers.getD j []).length + 1) ∧
      (∀ j, ∀ p ∈ s₂.layers.getD j [], p.1 = k ∨ p ∈ s.layers.getD j []) := by
  intro idxs
  induction idxs with
  | nil =>
      intro elev wu s s₂ wu₂ heq hInv _ _ _ _
      have hs : s = s₂ := congrArg (fun t => t.1) heq
      rw [← hs]
      exact ⟨hInv, fun j _ => rfl, fun j => by omega, fun j p hp => Or.inr hp⟩
  | cons i rest ih =>
      intro elev wu s s₂ wu₂ heq hInv hnd hidx hfresh hLm
      have hirest : i ∉ rest := (List.nodup_cons.mp hnd).1
      have hndr : rest.Nodup := (List.nodup_cons.mp hnd).2
      simp only [layerLoop] at heq
      split at heq
      · rename_i hemp
        have hempty : s.layers.getD i [] = [] := by
          rwa [List.isEmpty_iff] at hemp
        obtain ⟨hG1, hA1, hLy1⟩ := seed_ginv hInv hempty
        have hgdSeed : ∀ j, j ≠ i →
            (setLayer (pushNode s ⟨k, v, []⟩).1 i
              [(k, (pushNode s ⟨k, v, []⟩).2)]).layers.getD j []
            = s.layers.getD j [] := by
          intro j hj
          rw [hLy1]
          exact getD_setLayer_ne _ hj
        have hgdSeedI : (setLayer (pushNode s ⟨k, v, []⟩).1 i
            [(k, (pushNode s ⟨k, v, []⟩).2)]).layers.getD i []
            = [(k, s.arena.length)] := by
          rw [hLy1]
          exact getD_setLayer_self _ (hidx i (List.mem_cons_self _ _))
        have hlenSeed : (setLayer (pushNode s ⟨k, v, []⟩).1 i
            [(k, (pushNode s ⟨k, v, []⟩).2)]).layers.length
            = s.layers.length := by
          rw [hLy1, List.length_set]
        obtain ⟨c1, c2, c3, c4⟩ := ih elev wu _ s₂ wu₂ heq hG1 hndr
          (by intro j hj; rw [hlenSeed]; exact hidx j (List.mem_cons_of_mem _ hj))
          (by intro j hj p hp
              rw [hgdSeed j (fun he => hirest (he ▸ hj))] at hp
              exact hfresh j (List.mem_cons_of_mem _ hj) p hp)
          (by intro j hj
              rw [hgdSeed j (fun he => hirest (he ▸ hj))]
              exact hLm j (List.mem_cons_of_mem _ hj))
        refine ⟨c1, ?_, ?_, ?_⟩
        · intro j hj
          have hji : j ≠ i := fun he => hj (he ▸ List.mem_cons_self _ _)
          rw [c2 j (fun hm => hj (List.mem_cons_of_mem _ hm)), hgdSeed j hji]
        · intro j
          by_cases hji : j = i
          · rw [hji, c2 i hirest, hgdSeedI, hempty]
            simp
          · have := c3 j
            rw [hgdSeed j hji] at this
            exact this
        · intro j p hp
          by_cases hji : j = i
          · rw [hji, c2 i hirest, hgdSeedI] at hp
            have := List.mem_singleton.mp hp
            exact Or.inl (by rw [this])
          · rcases c4 j p hp with h | h
            · exact Or.inl h
            · rw [hgdSeed j hji] at h
              exact Or.inr h
      · rename_i hemp
        split at heq
        · rename_i e hsr
          have h2 := congrArg (fun t => t.2.2) heq
          simp at h2
        · rename_i hsr
          have h2 := congrArg (fun t => t.2.2) heq
          simp at h2
        · rename_i bid q nrest hsr
          split at heq
          · rename_i hilvl
            have habs : lookupA (s.layers.getD i []) k = none :=
              lookupA_eq_none.mpr (hfresh i (List.mem_cons_self _ _))
            split at heq
            · rename_i s₂' wuHere e hupd
              rw [updStep_of_absent habs] at hupd
              have h2 := congrArg (fun t => t.2.2) hupd
              simp at h2
            · rename_i s₂' wuHere hupd
              rw [updStep_of_absent habs] at hupd
              have hs2 : s = s₂' := congrArg (fun t => t.1) hupd
              split at heq
              · rename_i s₄ e hedge
                have h2 := congrArg (fun t => t.2.2) heq
                simp at h2
              · rename_i s₄ hedge
                rw [← hs2] at hedge
                obtain ⟨n0, k0, hk0, hsr'⟩ := searchF_start hsr
                obtain ⟨hR1, hR2⟩ := searchF_sub (hInv.1 i) ⟨k0, hk0⟩ hsr'
                obtain ⟨hG4, hA4, hLy4⟩ := install_ginv hInv
                  (hidx i (List.mem_cons_self _ _))
                  (hfresh i (List.mem_cons_self _ _))
                  (hLm i (List.mem_cons_self _ _)) hR1 hR2 hedge
                have hgd4 : ∀ j, j ≠ i →
                    s₄.layers.getD j [] = s.layers.getD j [] := by
                  intro j hj
                  rw [hLy4]
                  exact getD_setLayer_ne _ hj
                have hgd4I : s₄.layers.getD i []
                    = s.layers.getD i [] ++ [(k, s.arena.length)] := by
                  rw [hLy4]
                  exact getD_setLayer_self _ (hidx i (List.mem_cons_self _ _))
                have hlen4 : s₄.layers.length = s.layers.length := by
                  rw [hLy4, List.length_set]
                obtain ⟨c1, c2, c3, c4⟩ := ih _ _ _ s₂ wu₂ heq hG4 hndr
                  (by intro j hj; rw [hlen4]; exact hidx j (List.mem_cons_of_mem _ hj))
                  (by intro j hj p hp
                      rw [hgd4 j (fun he => hirest (he ▸ hj))] at hp
                      exact hfresh j (List.mem_cons_of_mem _ hj) p hp)
                  (by intro j hj
                      rw [hgd4 j (fun he => hirest (he ▸ hj))]
                      exact hLm j (List.mem_cons_of_mem _ hj))
                refine ⟨c1, ?_, ?_, ?_⟩
                · intro j hj
                  have hji : j ≠ i := fun he => hj (he ▸ List.mem_cons_self _ _)
                  rw [c2 j (fun hm => hj (List.mem_cons_of_mem _ hm)), hgd4 j hji]
                · intro j
                  by_cases hji : j = i
                  · rw [hji, c2 i hirest, hgd4I]
                    simp
                  · have := c3 j
                    rw [hgd4 j hji] at this
                    exact this
                · intro j p hp
                  by_cases hji : j = i
                  · rw [hji, c2 i hirest, hgd4I] at hp
                    rcases List.mem_append.mp hp with h | h
                    · exact Or.inr (by rw [hji]; exact h)
                    · have := List.mem_singleton.mp h
                      exact Or.inl (by rw [this])
                  · rcases c4 j p hp with h | h
                    · exact Or.inl h
                    · rw [hgd4 j hji] at h
                      exact Or.inr h
          · obtain ⟨c1, c2, c3, c4⟩ := ih _ _ _ s₂ wu₂ heq hInv hndr
              (fun j hj => hidx j (List.mem_cons_of_mem _ hj))
              (fun j hj => hfresh j (List.mem_cons_of_mem _ hj))
              (fun j hj => hLm j (List.mem_cons_of_mem _ hj))
            exact ⟨c1, fun j hj => c2 j (fun hm => hj (List.mem_cons_of_mem _ hm)),
              c3, c4⟩

theorem extendLayers_getD (s : GState K) (lvl i : ℕ) :
    (extendLayers s lvl).layers.getD i [] = s.layers.getD i [] := by
  show (s.layers ++ List.replicate (lvl + 1 - s.layers.length) []).getD i []
    = s.layers.getD i []
  by_cases hi : i < s.layers.length
  · rw [List.getD_append _ _ _ _ hi]
  · have hle : s.layers.length ≤ i := Nat.le_of_not_lt hi
    rw [List.getD_eq_default _ _ hle]
    rw [List.getD_append_right _ _ _ _ hle]
    rcases lt_or_ge (i - s.layers.length) (lvl + 1 - s.layers.length) with h | h
    · rw [List.getD_eq_getElem _ _ (by simpa using h)]
      simp
    · exact List.getD_eq_default _ _ (by simpa using h)

theorem ginv_extendLayers {s : GState K} (lvl : ℕ) (hInv : GInv s) :
    GInv (extendLayers s lvl) := by
  refine ⟨?_, ?_⟩
  · intro i
    rw [extendLayers_getD]
    exact hInv.1 i
  · intro a b hab p hpa q hqb
    rw [extendLayers_getD] at hpa hqb
    exact hInv.2 a b hab p hpa q hqb

/-- A completed per-node `Add` of a fresh key, on an invariant-satisfying
graph whose layers are below the `M` capacity, preserves the global
invariant; each layer grows by at most the new entry and gains no key
other than the new one. -/
theorem addNodeF_ginv (cfg : Config K) (f : ℕ) (s : GState K) (k : K)
    (v : Vec) (lvl : ℕ) (s₁ : GState K)
    (hrun : addNodeF cfg f s k v lvl = (s₁, none))
    (hInv : GInv s)
    (hfresh : ∀ i, ∀ p ∈ s.layers.getD i [], p.1 ≠ k)
    (hB : ∀ i, (s.layers.getD i []).length ≤ cfg.M) :
    GInv s₁ ∧
    (∀ i, (s₁.layers.getD i []).length ≤ (s.layers.getD i []).length + 1) ∧
    (∀ i, ∀ p ∈ s₁.layers.getD i [], p.1 = k ∨ p ∈ s.layers.getD i []) := by
  simp only [addNodeF] at hrun
  split at hrun
  · rename_i s₂ e heq
    have h2 := congrArg (fun t => t.2) hrun
    simp at h2
  · rename_i s₂ wu heq
    obtain ⟨c1, c2, c3, c4⟩ := layerLoop_ginv cfg.cos cfg.dist f cfg.M
      cfg.efConstruction k v lvl _ none false _ s₂ wu heq
      (ginv_extendLayers lvl hInv)
      (List.nodup_reverse.mpr (List.nodup_range _))
      (by intro i hi
          rw [List.mem_reverse, List.mem_range] at hi
          exact hi)
      (by intro i _ p hp
          rw [extendLayers_getD] at hp
          exact hfresh i p hp)
      (by intro i _
          rw [extendLayers_getD]
          exact hB i)
    have hs12 : s₂ = s₁ := by
      split at hrun
      · split at hrun
        · exact congrArg (fun t => t.1) hrun
        · have h2 := congrArg (fun t => t.2) hrun
          simp at h2
      · split at hrun
        · exact congrArg (fun t => t.1) hrun
        · have h2 := congrArg (fun t => t.2) hrun
          simp at h2
    rw [← hs12]
    refine ⟨c1, ?_, ?_⟩
    · intro i
      have h1 := c3 i
      rwa [extendLayers_getD] at h1
    · intro i p hp
      rcases c4 i p hp with h | h
      · exact Or.inl h
      · rw [extendLayers_getD] at h
        exact Or.inr h

theorem ginv_init : GInv (initState : GState K) := by
  refine ⟨?_, ?_⟩
  · intro i
    rw [show (initState : GState K).layers.getD i [] = [] from
      List.getD_eq_default _ _ (Nat.zero_le i)]
    exact ⟨by simp, by simp, by intro p hp; simp at hp⟩
  · intro a b hab p hpa q hqb
    rw [show (initState : GState K).layers.getD a [] = [] from
      List.getD_eq_default _ _ (Nat.zero_le a)] at hpa
    simp at hpa

/-- A sequence of completed fresh-key `Add` operations preserves the
global invariant, growing each layer by at most the number of adds. -/
theorem addSeq_ginv (cfg : Config K) (ml : ℝ) {s s' : GState K} {ks : List K}
    (hseq : AddSeq cfg ml s ks s') :
    GInv s →
    ks.Nodup →
    (∀ i, ∀ p ∈ s.layers.getD i [], p.1 ∉ ks) →
    (∀ i, (s.layers.getD i []).length + ks.length ≤ cfg.M + 1) →
    GInv s' ∧
    (∀ i, (s'.layers.getD i []).length
      ≤ (s.layers.getD i []).length + ks.length) ∧
    (∀ i, ∀ p ∈ s'.layers.getD i [], p.1 ∈ ks ∨ p ∈ s.layers.getD i []) := by
  induction hseq with
  | nil s =>
      intro hInv _ _ _
      exact ⟨hInv, fun i => by simp, fun i p hp => Or.inr hp⟩
  | cons k v lvl f s s₁ s₂ ks hcan hadd hrest ih =>
      intro hInv hnd hfresh hB
      have hfreshk : ∀ i, ∀ p ∈ s.layers.getD i [], p.1 ≠ k :=
        fun i p hp he => hfresh i p hp (he ▸ List.mem_cons_self _ _)
      have hBk : ∀ i, (s.layers.getD i []).length ≤ cfg.M := by
        intro i
        have h1 := hB i
        simp only [List.length_cons] at h1
        omega
      obtain ⟨g1, g2, g3⟩ := addNodeF_ginv cfg f s k v lvl s₁ hadd hInv
        hfreshk hBk
      have hndk : ks.Nodup := (List.nodup_cons.mp hnd).2
      have hknotin : k ∉ ks := (List.nodup_cons.mp hnd).1
      obtain ⟨c1, c2, c3⟩ := ih g1 hndk
        (by intro i p hp hin
            rcases g3 i p hp with h | h
            · exact hknotin (h ▸ hin)
            · exact hfresh i p h (List.mem_cons_of_mem _ hin))
        (by intro i
            have h1 := hB i
            have h2 := g2 i
            simp only [List.length_cons] at h1
            omega)
      refine ⟨c1, ?_, ?_⟩
      · intro i
        have h1 := c2 i
        have h2 := g2 i
        simp only [List.length_cons]
        omega
      · intro i p hp
        rcases c3 i p hp with h | h
        · exact Or.inl (List.mem_cons_of_mem _ h)
        · rcases g3 i p h with h2 | h2
          · exact Or.inl (h2 ▸ List.mem_cons_self _ _)
          · exact Or.inr h2

/-- C1 amended theorem: for a graph built from empty by a sequence of at
most `M + 1` completed single-node `Add` operations with pairwise distinct
keys (no updates, no deletions), every edge of every layer is
bidirectional: the referenced neighbor is in the layer's map under the
edge's key, and its own map contains the first node's key. (A completed
re-`Add` of an existing key breaks the invariant — see the counterexample
— and so can evictions, whose `replenish` installs one-directional
edges.) -/
theorem c1_bidirectionality_amended (cfg : Config K) (ml : ℝ)
    (ks : List K) (s' : GState K)
    (hseq : AddSeq cfg ml initState ks s')
    (hnd : ks.Nodup) (hlen : ks.length ≤ cfg.M + 1) :
    BidirProp s' := by
  obtain ⟨g1, _, _⟩ := addSeq_ginv cfg ml hseq ginv_init hnd
    (by intro i p hp
        rw [show (initState : GState K).layers.getD i [] = [] from
          List.getD_eq_default _ _ (Nat.zero_le i)] at hp
        simp at hp)
    (by intro i
        rw [show (initState : GState K).layers.getD i [] = [] from
          List.getD_eq_default _ _ (Nat.zero_le i)]
        simpa using hlen)
  exact bidir_of_ginv g1

/-- The state after `Add(1, [1])` from the empty graph. -/
def sW1a : GState ℕ := (addNodeF cfgTot 100 initState 1 [1] 0).1

/-- The state after `Add(1, [1]); Add(2, [2])` from the empty graph. -/
def sW1b : GState ℕ := (addNodeF cfgTot 100 sW1a 2 [2] 0).1

/-- C1 amended witness: the two-node graph built by `Add(1, [1]);
Add(2, [2])` (distinct keys, `M = 16`) satisfies the bidirectionality
invariant. -/
theorem c1_bidirectionality_amended_witness : BidirProp sW1b :=
  c1_bidirectionality_amended cfgTot (1 / 2) [1, 2] sW1b
    (AddSeq.cons 1 [1] 0 100 initState sW1a sW1b [2]
      (canLevel_nil 0) (pair_eq_of_snd _ _ (by decide))
      (AddSeq.cons 2 [2] 0 100 sW1a sW1b sW1b []
        (by rw [(by decide : sW1a.layers.length = 1),
              (by decide : baseSize sW1a = 1)]
            exact canLevel_one)
        (pair_eq_of_snd _ _ (by decide))
        (AddSeq.nil sW1b)))
    (by decide) (by decide)

end Hnsw